import Mathlib

/-!
# The atomizer of opencbdc-tx (`src/uhs/atomizer/atomizer/atomizer.cpp`)

A shallow embedding of `cbdc::atomizer::atomizer` and theorems about it,
followed by the in-memory raft log store (`src/util/raft/log_store.cpp`).

Conventions of the embedding:

* `uint64_t` and `size_t` values are natural numbers; every arithmetic
  operation that can overflow is written with an explicit `% 2 ^ 64`.
* `std::vector<T>` is `List T`; `operator[]` outside the bounds is undefined
  behaviour in C++ and is the fault `out_of_range` here.
* `std::unordered_set<hash_t>` is `Finset hash_t` (equality is set equality).
* `std::unordered_map<uint64_t, std::shared_ptr<block>>` is a finite partial
  function `Nat → Option block`; `insert` keeps an existing entry.
* the `for` loop of `check_stxo_cache` counts with a `size_t` that can wrap, so
  it is embedded with a fuel argument: one unit of fuel per evaluation of the
  loop condition, the fault `out_of_fuel` when the fuel is used up.
* the event sampler is a log of the appended events, without the wall-clock
  fields (time stamp and latency).
* the serializer of `util/serialization` is outside the files at hand: the
  encodings of a `u64` and of a hash are a parameter (`serializer_format`), the
  length-prefixed layout of sequences follows the spec, and a serializer being
  read is the bytes left or `none` once a read has failed.
-/

namespace cbdc

/-- The number of values of a `uint64_t` (and of `size_t`). -/
abbrev u64_mod : Nat := 2 ^ 64

/-- Modelled from the spec: `hash_t` is declared outside the files at hand; the
spec treats hashes as opaque fixed-width values with byte-exact equality, so
only their equality matters here. -/
abbrev hash_t := Nat

/-- The ways a call can fail to return: an access outside a vector's bounds
(undefined behaviour in the source) and exhaustion of the loop fuel. -/
inductive fault where
  | out_of_range
  | out_of_fuel
deriving DecidableEq, Repr

/-- Modelled from the spec: `transaction::compact_tx` is declared outside the
files at hand; the spec gives it as `{ id: Hash, inputs: set<Hash> }`. The
atomizer reads `m_id`, tests `m_inputs.empty()` and iterates `m_inputs`; the
inputs are kept as the sequence the iteration visits. -/
structure compact_tx where
  m_id : hash_t
  m_inputs : List hash_t
deriving DecidableEq, Repr

/-- Modelled from the spec: the two kinds of `watchtower::tx_error`, `StxoRange`
and `InputsSpent(set<Hash>)`. -/
inductive tx_error_info where
  | tx_error_stxo_range
  | tx_error_inputs_spent (inputs : Finset hash_t)
deriving DecidableEq

/-- Modelled from the spec: `watchtower::tx_error` is built in the source from
the transaction id and the kind of error. -/
structure tx_error where
  m_tx_id : hash_t
  m_info : tx_error_info
deriving DecidableEq

/-- The `block` of the atomizer: a height and the ordered transactions. -/
structure block where
  m_height : Nat
  m_transactions : List compact_tx
deriving DecidableEq, Repr

/-- The `sampled_event_type` values of `event_sampler.hpp`. -/
inductive sampled_event_type where
  | unknown
  | server_handler_tx_notify
  | tx_notify
  | send_complete_txs
  | state_machine_tx_notify
  | insert_complete
  | discarded_expired
  | discarded_spent
  | make_block
deriving DecidableEq, Repr

/-- A `sampled_event` without its wall-clock fields. -/
structure sampled_event where
  type : sampled_event_type
  count : Nat
deriving DecidableEq, Repr

/-- The three-argument `event_sampler::append`: the event is pushed at the back
of the collection. -/
def event_sampler_append_count (m_data : List sampled_event)
    (event_type : sampled_event_type) (count : Nat) : List sampled_event :=
  m_data ++ [⟨event_type, count⟩]

/-- The two-argument `event_sampler::append` forwards with a count of 1. -/
def event_sampler_append (m_data : List sampled_event) (event_type : sampled_event_type) :
    List sampled_event :=
  event_sampler_append_count m_data event_type 1

/-- The member variables of `cbdc::atomizer::atomizer`. -/
structure atomizer where
  m_blocks : Nat → Option block
  m_complete_txs : List compact_tx
  m_spent : List (Finset hash_t)
  m_best_height : Nat
  m_spent_cache_depth : Nat
  m_event_sampler : List sampled_event

/-- The effect of `std::unordered_map::insert`: the pair is stored only when the
key is not present yet. -/
def unordered_map_insert (m : Nat → Option block) (key : Nat) (blk : block) :
    Nat → Option block :=
  fun k => if k = key then (match m key with | some old => some old | none => some blk) else m k

/-- The constructor `atomizer::atomizer(best_height, stxo_cache_depth)`:
`m_spent.resize(stxo_cache_depth + 1)` with the sum taken in `size_t`. This is
the instance the constructor builds; its loop, which tunes the hash tables of
the slots below the depth and changes no content, is `tune_spent`, and the
constructor with the loop is `atomizer.construct_tuned`. -/
def atomizer.construct (best_height stxo_cache_depth : Nat) : atomizer where
  m_blocks := fun _ => none
  m_complete_txs := []
  m_spent := List.replicate ((stxo_cache_depth + 1) % u64_mod) ∅
  m_best_height := best_height
  m_spent_cache_depth := stxo_cache_depth
  m_event_sampler := []

/-- The rotation loop of `make_block`,
`for(size_t i = m_spent_cache_depth; i > 0; i--) m_spent[i] = std::move(m_spent[i - 1]);`
started at `i`. The moved-from set is left empty. -/
def rotate_spent : Nat → List (Finset hash_t) → Except fault (List (Finset hash_t))
  | 0, spent => .ok spent
  | i + 1, spent =>
    match spent[i]? with
    | none => .error .out_of_range
    | some src =>
      if i + 1 < spent.length then
        rotate_spent i ((spent.set (i + 1) src).set i ∅)
      else .error .out_of_range

/-- The method `atomizer::make_block`. The calls `max_load_factor` and `rehash`
tune the hash table of slot 0 and change no content. -/
def atomizer.make_block (s : atomizer) : Except fault (Nat × atomizer) :=
  let blk_transactions := s.m_complete_txs
  let best_height := (s.m_best_height + 1) % u64_mod
  match rotate_spent s.m_spent_cache_depth s.m_spent with
  | .error e => .error e
  | .ok spent =>
    if 0 < spent.length then
      let blk : block := ⟨best_height, blk_transactions⟩
      .ok (best_height,
        { m_blocks := unordered_map_insert s.m_blocks best_height blk
          m_complete_txs := []
          m_spent := spent.set 0 ∅
          m_best_height := best_height
          m_spent_cache_depth := s.m_spent_cache_depth
          m_event_sampler :=
            event_sampler_append_count s.m_event_sampler .make_block blk_transactions.length })
    else .error .out_of_range

/-- The method `atomizer::get_notification_offset`: a `uint64_t` subtraction. -/
def atomizer.get_notification_offset (s : atomizer) (block_height : Nat) : Nat :=
  (s.m_best_height + u64_mod - block_height) % u64_mod

/-- The method `atomizer::check_notification_offset`. -/
def atomizer.check_notification_offset (s : atomizer) (height_offset : Nat)
    (tx : compact_tx) : Option tx_error :=
  if height_offset > s.m_spent_cache_depth ∧ tx.m_inputs ≠ [] then
    some ⟨tx.m_id, .tx_error_stxo_range⟩
  else none

/-- The inner loop of `check_stxo_cache` over the inputs still to visit: each
visit reads `m_spent[offset]`. -/
def check_inputs (spent : List (Finset hash_t)) (offset : Nat) :
    List hash_t → Finset hash_t → Except fault (Finset hash_t)
  | [], err_set => .ok err_set
  | inp :: rest, err_set =>
    match spent[offset]? with
    | none => .error .out_of_range
    | some slot =>
      check_inputs spent offset rest (if inp ∈ slot then insert inp err_set else err_set)

/-- The outer loop of `check_stxo_cache`,
`for(size_t offset = 0; offset <= cache_check_range; offset++)`, entered at
`offset` with `fuel` evaluations of the condition left. -/
def check_offsets (spent : List (Finset hash_t)) (inputs : List hash_t)
    (cache_check_range : Nat) : Nat → Nat → Finset hash_t → Except fault (Finset hash_t)
  | 0, _, _ => .error .out_of_fuel
  | fuel + 1, offset, err_set =>
    if offset ≤ cache_check_range then
      match check_inputs spent offset inputs err_set with
      | .error e => .error e
      | .ok err_set1 =>
        check_offsets spent inputs cache_check_range fuel ((offset + 1) % u64_mod) err_set1
    else .ok err_set

/-- The method `atomizer::check_stxo_cache`. -/
def atomizer.check_stxo_cache (fuel : Nat) (s : atomizer) (tx : compact_tx)
    (cache_check_range : Nat) : Except fault (Option tx_error) :=
  match check_offsets s.m_spent tx.m_inputs cache_check_range fuel 0 ∅ with
  | .error e => .error e
  | .ok err_set =>
    if err_set ≠ ∅ then .ok (some ⟨tx.m_id, .tx_error_inputs_spent err_set⟩)
    else .ok none

/-- The method `atomizer::add_tx_to_stxo_cache`, on the window. -/
def add_tx_to_stxo_cache (spent : List (Finset hash_t)) (tx : compact_tx) :
    Except fault (List (Finset hash_t)) :=
  match spent[0]? with
  | none => .error .out_of_range
  | some slot => .ok (spent.set 0 (slot ∪ tx.m_inputs.toFinset))

/-- The method `atomizer::insert_complete`. -/
def atomizer.insert_complete (fuel : Nat) (s : atomizer) (oldest_attestation : Nat)
    (tx : compact_tx) : Except fault (Option tx_error × atomizer) :=
  let height_offset := s.get_notification_offset oldest_attestation
  match s.check_notification_offset height_offset tx with
  | some offset_err =>
    .ok (some offset_err,
      { s with m_event_sampler := event_sampler_append s.m_event_sampler .discarded_expired })
  | none =>
    let cache_check_range := height_offset
    match s.check_stxo_cache fuel tx cache_check_range with
    | .error e => .error e
    | .ok (some err_set) =>
      .ok (some err_set,
        { s with m_event_sampler := event_sampler_append s.m_event_sampler .discarded_spent })
    | .ok none =>
      match add_tx_to_stxo_cache s.m_spent tx with
      | .error e => .error e
      | .ok spent =>
        .ok (none,
          { s with
            m_spent := spent
            m_complete_txs := s.m_complete_txs ++ [tx]
            m_event_sampler := event_sampler_append s.m_event_sampler .insert_complete })

/-- The method `atomizer::get_block`. -/
def atomizer.get_block (s : atomizer) (height : Nat) : Option block :=
  s.m_blocks height

/-- The method `atomizer::prune`: an entry goes when the height stored in its
block is below the argument. -/
def atomizer.prune (s : atomizer) (height : Nat) : atomizer :=
  { s with
    m_blocks := fun k =>
      match s.m_blocks k with
      | some blk => if blk.m_height < height then none else some blk
      | none => none }

/-- The method `atomizer::pending_transactions`. -/
def atomizer.pending_transactions (s : atomizer) : Nat :=
  s.m_complete_txs.length

/-- The method `atomizer::height`. -/
def atomizer.height (s : atomizer) : Nat :=
  s.m_best_height

/-- The class invariant of the window: `m_spent` has `m_spent_cache_depth + 1`
slots, and its size is a `size_t`. -/
def atomizer.well_formed (s : atomizer) : Prop :=
  s.m_spent.length = s.m_spent_cache_depth + 1 ∧ s.m_spent.length < u64_mod

instance (s : atomizer) : Decidable s.well_formed := by
  unfold atomizer.well_formed; infer_instance

/-- One call of the public interface, as a caller issues it. -/
inductive op where
  | insert_complete (oldest_attestation : Nat) (tx : compact_tx)
  | make_block
  | prune (height : Nat)
deriving DecidableEq

/-- What a call of the public interface gives back to the caller. -/
inductive op_result where
  | inserted (err : Option tx_error)
  | block_made (height : Nat)
  | pruned
deriving DecidableEq

/-- One call applied to an instance. -/
def atomizer.apply (fuel : Nat) (s : atomizer) : op → Except fault (op_result × atomizer)
  | .insert_complete oldest_attestation tx =>
    match s.insert_complete fuel oldest_attestation tx with
    | .error e => .error e
    | .ok (err, s1) => .ok (.inserted err, s1)
  | .make_block =>
    match s.make_block with
    | .error e => .error e
    | .ok (h, s1) => .ok (.block_made h, s1)
  | .prune height => .ok (.pruned, s.prune height)

/-- A sequence of calls applied in order: the results of the calls and the
instance after the last one. -/
def atomizer.run (fuel : Nat) : atomizer → List op → Except fault (List op_result × atomizer)
  | s, [] => .ok ([], s)
  | s, o :: ops =>
    match s.apply fuel o with
    | .error e => .error e
    | .ok (r, s1) =>
      match atomizer.run fuel s1 ops with
      | .error e => .error e
      | .ok (rs, s2) => .ok (r :: rs, s2)

/-- The number of `make_block` calls in a sequence of calls. -/
def count_make_block (ops : List op) : Nat :=
  (ops.filter (fun o => o = op.make_block)).length

/-- The transactions of the `insert_complete` calls that returned no error,
given the calls and their results, in call order. -/
def accepted_txs : List op → List op_result → List compact_tx
  | .insert_complete _ tx :: ops, .inserted none :: rs => tx :: accepted_txs ops rs
  | _ :: ops, _ :: rs => accepted_txs ops rs
  | _, _ => []

/-- The set S of the inputs of a transaction that occur in at least one window
slot with index in `0 .. height_offset` inclusive. -/
def colliding_inputs (spent : List (Finset hash_t)) (inputs : List hash_t)
    (height_offset : Nat) : Finset hash_t :=
  inputs.toFinset.filter
    (fun a : hash_t => ∃ i, i ≤ height_offset ∧ a ∈ spent.getD i (∅ : Finset hash_t))

/-- The results of a sequence of calls together with what `height()` returns
after the last one. -/
def atomizer.results_and_height (fuel : Nat) (s : atomizer) (ops : List op) :
    Except fault (List op_result × Nat) :=
  match atomizer.run fuel s ops with
  | .error e => .error e
  | .ok (rs, s2) => .ok (rs, s2.height)

/-- The instance a sequence of calls leaves behind (the instance itself when a
call does not return). -/
def atomizer.state_after (fuel : Nat) (s : atomizer) (ops : List op) : atomizer :=
  match atomizer.run fuel s ops with
  | .error _ => s
  | .ok (_, s2) => s2

/-- A fresh instance of height 10 and depth 2 after it accepted a transaction
with the input 7. -/
def demo_accepted : atomizer :=
  atomizer.state_after 4 (atomizer.construct 10 2) [.insert_complete 10 ⟨100, [7]⟩]

/-- The instance `demo_accepted` after three `make_block` calls, with a
transaction with the input 8 accepted after the first of them. -/
def demo_evicted : atomizer :=
  atomizer.state_after 4 demo_accepted
    [.make_block, .insert_complete 11 ⟨102, [8]⟩, .make_block, .make_block]

/-- A caller that assembles a block and looks it up: the height `make_block`
returned, what `get_block` gives for it, and `pending_transactions()`. -/
def make_block_then_get_block (s : atomizer) : Except fault (Nat × Option block × Nat) :=
  match s.make_block with
  | .error e => .error e
  | .ok (h, s1) => .ok (h, s1.get_block h, s1.pending_transactions)

/-- An instance of depth 0 at height 10 with one pending transaction, whose block
store holds a block under key 11: the state of an instance that assembled block
11 and then loaded a snapshot taken at height 10 (the load replaces the height
and leaves the block store alone). -/
def restored_state : atomizer where
  m_blocks := fun k => if k = 11 then some ⟨11, [⟨1, [5]⟩]⟩ else none
  m_complete_txs := [⟨2, [6]⟩]
  m_spent := [{6}]
  m_best_height := 10
  m_spent_cache_depth := 0
  m_event_sampler := []

/-- Every stored block sits under the key that is its height: `make_block` is
the only place that stores a block, and it stores it under `m_best_height`
after setting `m_height` to the same value. -/
def atomizer.blocks_keyed (s : atomizer) : Prop :=
  ∀ k b, s.m_blocks k = some b → b.m_height = k

/-- The heights the `make_block` calls of a run returned, in call order. -/
def made_heights : List op_result → List Nat
  | [] => []
  | .block_made h :: rs => h :: made_heights rs
  | .inserted _ :: rs => made_heights rs
  | .pruned :: rs => made_heights rs

/-- The method `atomizer::operator==`. Modelled from the spec: the comparison of
two `compact_tx` is declared outside the files at hand; it is taken as equality
of the id and of the inputs. -/
def atomizer.operator_eq (s other : atomizer) : Bool :=
  decide (s.m_complete_txs = other.m_complete_txs)
    && decide (s.m_spent = other.m_spent)
    && decide (s.m_best_height = other.m_best_height)
    && decide (s.m_spent_cache_depth = other.m_spent_cache_depth)

/-- Modelled from the spec: the state of a `cbdc::serializer` that is being read
(the serializer is declared outside the files at hand): the bytes not yet
consumed, or `none` once a read has failed. The spec makes a malformed or
truncated input a fatal load error, so a failed serializer stays failed. -/
abbrev serializer := Option (List Nat)

/-- Modelled from the spec: the encodings of the serializer for the two kinds of
scalar of the snapshot layout, `u64` and hash, which the spec leaves open (a
fixed width, no byte order given). Each is an encoder and a decoder that returns
the value with the bytes after it, or nothing when the bytes do not hold a
value. `hash_bound` bounds the hashes that fit the width, and `set_order` is the
order in which an `unordered_set` is iterated, which C++ leaves unspecified. -/
structure serializer_format where
  put_u64 : Nat → List Nat
  get_u64 : List Nat → Option (Nat × List Nat)
  put_hash : hash_t → List Nat
  get_hash : List Nat → Option (hash_t × List Nat)
  hash_bound : Nat
  set_order : Finset hash_t → List hash_t

/-- A decoder reads back what the encoder wrote, whatever follows, for the
values that satisfy P. -/
def reads_back {α : Type} (put : α → List Nat) (get : List Nat → Option (α × List Nat))
    (P : α → Prop) : Prop :=
  ∀ x rest, P x → get (put x ++ rest) = some (x, rest)

/-- A decoder rejects every strict prefix of what the encoder wrote, for the
values that satisfy P. -/
def fails_when_cut {α : Type} (put : α → List Nat)
    (get : List Nat → Option (α × List Nat)) (P : α → Prop) : Prop :=
  ∀ x p q, P x → p ++ q = put x → q ≠ [] → get p = none

/-- The scalar encodings decode what they encode, and the iteration order of a
set lists exactly its elements, each once. -/
def serializer_format.lawful (fmt : serializer_format) : Prop :=
  reads_back fmt.put_u64 fmt.get_u64 (fun n => n < u64_mod) ∧
    reads_back fmt.put_hash fmt.get_hash (fun h => h < fmt.hash_bound) ∧
    ∀ s : Finset hash_t, (fmt.set_order s).toFinset = s ∧ (fmt.set_order s).length = s.card

/-- The scalar decoders reject truncated input. -/
def serializer_format.rejects_truncated (fmt : serializer_format) : Prop :=
  fails_when_cut fmt.put_u64 fmt.get_u64 (fun n => n < u64_mod) ∧
    fails_when_cut fmt.put_hash fmt.get_hash (fun h => h < fmt.hash_bound)

/-- The elements of a sequence, encoded one after the other. -/
def put_many {α : Type} (put : α → List Nat) : List α → List Nat
  | [] => []
  | x :: xs => put x ++ put_many put xs

/-- Modelled from the spec: a sequence is written length-prefixed, the number of
elements as a `u64` and then the elements in order. -/
def serializer_format.put_vector {α : Type} (fmt : serializer_format)
    (put : α → List Nat) (vec : List α) : List Nat :=
  fmt.put_u64 vec.length ++ put_many put vec

/-- The loop that reads `len` elements: each decoded element is pushed at the
back of the target; the first element that does not decode leaves the target as
filled so far and the serializer failed. -/
def get_many {α : Type} (get : List Nat → Option (α × List Nat)) :
    Nat → List Nat → List α → List α × serializer
  | 0, bytes, vec => (vec, some bytes)
  | len + 1, bytes, vec =>
    match get bytes with
    | none => (vec, none)
    | some (val, rest) => get_many get len rest (vec ++ [val])

/-- Modelled from the spec: reading a length-prefixed sequence into a target
container repopulates it: the length is read, then the elements are pushed onto
what the target already holds (this is why `deserialize` clears its containers
first). A failed serializer reads nothing. -/
def serializer_format.read_vector {α : Type} (fmt : serializer_format)
    (get : List Nat → Option (α × List Nat)) (vec : List α) : serializer →
    List α × serializer
  | none => (vec, none)
  | some bytes =>
    match fmt.get_u64 bytes with
    | none => (vec, none)
    | some (len, rest) => get_many get len rest vec

/-- Reading a sequence that is itself an element: the target is a fresh, empty
container, and nothing is produced when the read fails. -/
def serializer_format.get_vector {α : Type} (fmt : serializer_format)
    (get : List Nat → Option (α × List Nat)) (bytes : List Nat) :
    Option (List α × List Nat) :=
  match fmt.read_vector get [] (some bytes) with
  | (vec, some rest) => some (vec, rest)
  | (_, none) => none

/-- Modelled from the spec: a hash set is written length-prefixed, its elements
in the iteration order of the set. -/
def serializer_format.put_set (fmt : serializer_format) (s : Finset hash_t) : List Nat :=
  fmt.put_vector fmt.put_hash (fmt.set_order s)

/-- Modelled from the spec: reading a hash set inserts the decoded elements into
an empty set. -/
def serializer_format.get_set (fmt : serializer_format) (bytes : List Nat) :
    Option (Finset hash_t × List Nat) :=
  match fmt.get_vector fmt.get_hash bytes with
  | none => none
  | some (elems, rest) => some (elems.toFinset, rest)

/-- Modelled from the spec: a `compact_tx` is written as its id followed by its
length-prefixed inputs. -/
def serializer_format.put_compact_tx (fmt : serializer_format) (tx : compact_tx) :
    List Nat :=
  fmt.put_hash tx.m_id ++ fmt.put_vector fmt.put_hash tx.m_inputs

/-- Modelled from the spec: reading a `compact_tx`, id first. -/
def serializer_format.get_compact_tx (fmt : serializer_format) (bytes : List Nat) :
    Option (compact_tx × List Nat) :=
  match fmt.get_hash bytes with
  | none => none
  | some (id, rest) =>
    match fmt.get_vector fmt.get_hash rest with
    | none => none
    | some (inputs, rest1) => some (⟨id, inputs⟩, rest1)

/-- Modelled from the spec: reading a `u64` into a target: a read that fails
leaves the target as it is and the serializer failed. -/
def serializer_format.read_u64 (fmt : serializer_format) (target : Nat) :
    serializer → Nat × serializer
  | none => (target, none)
  | some bytes =>
    match fmt.get_u64 bytes with
    | none => (target, none)
    | some (val, rest) => (val, some rest)

/-- The method `atomizer::serialize`: depth, height, pending queue and window,
in this order. -/
def atomizer.serialize (fmt : serializer_format) (s : atomizer) : List Nat :=
  fmt.put_u64 s.m_spent_cache_depth ++ fmt.put_u64 s.m_best_height
    ++ fmt.put_vector fmt.put_compact_tx s.m_complete_txs
    ++ fmt.put_vector fmt.put_set s.m_spent

/-- The method `atomizer::deserialize`: the pending queue and the window are
cleared, then depth, height, pending queue and window are read in this order.
The method returns nothing; the serializer it was given is left as the reads
left it. -/
def atomizer.deserialize (fmt : serializer_format) (s : atomizer) (buf : serializer) :
    atomizer × serializer :=
  let complete_txs : List compact_tx := []
  let spent : List (Finset hash_t) := []
  let r1 := fmt.read_u64 s.m_spent_cache_depth buf
  let r2 := fmt.read_u64 s.m_best_height r1.2
  let r3 := fmt.read_vector fmt.get_compact_tx complete_txs r2.2
  let r4 := fmt.read_vector fmt.get_set spent r3.2
  ({ s with
      m_spent_cache_depth := r1.1
      m_best_height := r2.1
      m_complete_txs := r3.1
      m_spent := r4.1 }, r4.2)

/-- Modelled from the spec: the values a snapshot encoding holds, read field by
field as the byte layout of the spec lists them (`cache_depth: u64`,
`current_height: u64`, the length-prefixed pending queue, the length-prefixed
window slots), with the bytes that follow; nothing when a field does not
decode. This is the spec's reading of the bytes, with no instance to load
into; the method of the source is `atomizer.deserialize`. -/
def snapshot_decode (fmt : serializer_format) (bytes : List Nat) :
    Option (Nat × Nat × List compact_tx × List (Finset hash_t) × List Nat) :=
  match fmt.get_u64 bytes with
  | none => none
  | some (depth, rest1) =>
    match fmt.get_u64 rest1 with
    | none => none
    | some (height, rest2) =>
      match fmt.get_vector fmt.get_compact_tx rest2 with
      | none => none
      | some (txs, rest3) =>
        match fmt.get_vector fmt.get_set rest3 with
        | none => none
        | some (spent, rest4) => some (depth, height, txs, spent, rest4)

/-- A transaction whose values fit the types of the serialized form. -/
def compact_tx.representable (fmt : serializer_format) (tx : compact_tx) : Prop :=
  tx.m_id < fmt.hash_bound ∧ tx.m_inputs.length < u64_mod ∧
    ∀ h ∈ tx.m_inputs, h < fmt.hash_bound

/-- An instance whose values fit their C++ types: `uint64_t` height, `size_t`
depth and container sizes, hashes of the fixed width. -/
def atomizer.representable (fmt : serializer_format) (s : atomizer) : Prop :=
  s.m_spent_cache_depth < u64_mod ∧ s.m_best_height < u64_mod ∧
    s.m_complete_txs.length < u64_mod ∧
    (∀ tx ∈ s.m_complete_txs, tx.representable fmt) ∧
    s.m_spent.length < u64_mod ∧
    ∀ slot ∈ s.m_spent, slot.card < u64_mod ∧ ∀ h ∈ slot, h < fmt.hash_bound

instance (fmt : serializer_format) (tx : compact_tx) : Decidable (tx.representable fmt) := by
  unfold compact_tx.representable; infer_instance

instance (fmt : serializer_format) (s : atomizer) : Decidable (s.representable fmt) := by
  unfold atomizer.representable; infer_instance

/-- A value written in `width` bytes, least significant byte first. -/
def put_le : Nat → Nat → List Nat
  | 0, _ => []
  | width + 1, n => n % 256 :: put_le width (n / 256)

/-- A value read from `width` bytes, least significant byte first. -/
def get_le : Nat → List Nat → Option (Nat × List Nat)
  | 0, bytes => some (0, bytes)
  | _ + 1, [] => none
  | width + 1, b :: bytes =>
    match get_le width bytes with
    | none => none
    | some (val, rest) => some (b + 256 * val, rest)

/-- The elements of a set in increasing order (insertion sort of any listing of
the set). -/
def sorted_elems (s : Finset hash_t) : List hash_t :=
  Quot.liftOn s.val (fun l => l.insertionSort (fun a b => a ≤ b))
    (fun a b h =>
      List.eq_of_perm_of_sorted
        ((List.perm_insertionSort _ a).trans (h.trans (List.perm_insertionSort _ b).symm))
        (List.sorted_insertionSort _ a) (List.sorted_insertionSort _ b))

/-- One format that fits the layout of the spec, used for the concrete cases:
a `u64` in 8 bytes and a hash in 32 bytes, least significant byte first, and a
set iterated in increasing order. -/
def le_format : serializer_format where
  put_u64 := put_le 8
  get_u64 := get_le 8
  put_hash := put_le 32
  get_hash := get_le 32
  hash_bound := 2 ^ 256
  set_order := sorted_elems

/-- The loop of the constructor,
`for(size_t i = 0; i < m_spent_cache_depth; i++)`, over its first `n` rounds:
round `i` calls `max_load_factor` and `rehash` on `m_spent[i]`, which changes no
content but needs the slot to exist. -/
def tune_spent (spent : List (Finset hash_t)) : Nat → Except fault Unit
  | 0 => .ok ()
  | n + 1 =>
    match tune_spent spent n with
    | .error e => .error e
    | .ok () => if n < spent.length then .ok () else .error .out_of_range

/-- The whole constructor: the member initialisation and the `resize` of
`atomizer.construct`, followed by the loop over the slots below the depth. -/
def atomizer.construct_tuned (best_height stxo_cache_depth : Nat) : Except fault atomizer :=
  let s := atomizer.construct best_height stxo_cache_depth
  match tune_spent s.m_spent s.m_spent_cache_depth with
  | .error e => .error e
  | .ok () => .ok s

/-- The inputs of the transactions of a queue, as one set. -/
def queue_inputs (txs : List compact_tx) : Finset hash_t :=
  txs.foldr (fun tx acc => tx.m_inputs.toFinset ∪ acc) ∅

/-- No input hash occurs in two transactions at different positions of the
sequence. -/
def no_shared_input (txs : List compact_tx) : Prop :=
  txs.Pairwise (fun t u => ∀ a ∈ t.m_inputs, a ∉ u.m_inputs)

instance (txs : List compact_tx) : Decidable (no_shared_input txs) := by
  unfold no_shared_input; infer_instance

/-! ### The raft log store (`src/util/raft/log_store.cpp`)

`std::map<uint64_t, nuraft::ptr<nuraft::log_entry>>` is a finite partial
function from indices to entries; an entry is the value `make_clone` copies.
The mutex is not part of the embedding: every method holds it for its whole
effect. The loop of `compact` counts with a `ulong`, so it takes fuel like the
scan of the atomizer. -/

/-- The parts of a `nuraft::log_entry` that `make_clone` copies: the term, the
bytes of the buffer and the value type. -/
structure raft.log_entry where
  term : Nat
  buf : List Nat
  val_type : Nat
deriving DecidableEq, Repr

/-- The constant `log_limit`. -/
def raft.log_limit : Nat := 10000

/-- The member variables of `cbdc::raft::log_store`. -/
structure raft.log_store where
  m_db : Nat → Option raft.log_entry
  m_next_idx : Nat
  m_start_idx : Nat

/-- The assignment `m_db[index] = entry`: the entry under the index is created
or replaced. -/
def raft.map_assign (m : Nat → Option raft.log_entry) (index : Nat) (entry : raft.log_entry) :
    Nat → Option raft.log_entry :=
  fun k => if k = index then some entry else m k

/-- The call `m_db.erase` on the entry found under an index. -/
def raft.map_erase (m : Nat → Option raft.log_entry) (index : Nat) :
    Nat → Option raft.log_entry :=
  fun k => if k = index then none else m k

/-- The constructor `log_store::log_store`: index 0 holds an entry of term 0
with a freshly allocated buffer of `sizeof(uint64_t)` bytes. The constructor
writes neither the buffer nor the two index members, and the value type is the
default of the library: the bytes, the value type and the initial values of the
indices are arguments here. -/
def raft.log_store.construct (buf : List Nat) (val_type next_idx start_idx : Nat) :
    raft.log_store where
  m_db := raft.map_assign (fun _ => none) 0 ⟨0, buf, val_type⟩
  m_next_idx := next_idx
  m_start_idx := start_idx

/-- The method `log_store::load`: the directory is not used. -/
def raft.log_store.load (s : raft.log_store) (_db_dir : List Char) : Bool × raft.log_store :=
  (true, { s with m_next_idx := 1, m_start_idx := 1 })

/-- The method `log_store::next_slot`. -/
def raft.log_store.next_slot (s : raft.log_store) : Nat :=
  s.m_next_idx

/-- The method `log_store::start_index`. -/
def raft.log_store.start_index (s : raft.log_store) : Nat :=
  s.m_start_idx

/-- The method `log_store::make_clone`: a new entry with the same term, a copy
of the buffer and the same value type. -/
def raft.make_clone (entry : raft.log_entry) : raft.log_entry :=
  ⟨entry.term, entry.buf, entry.val_type⟩

/-- The loop of `compact`,
`for(ulong ii = m_start_idx; ii <= last_log_index; ++ii)`, entered at `ii` with
`fuel` evaluations of the condition left: an entry found under `ii` is erased. -/
def raft.compact_loop (last_log_index : Nat) :
    Nat → Nat → (Nat → Option raft.log_entry) → Except fault (Nat → Option raft.log_entry)
  | 0, _, _ => .error .out_of_fuel
  | fuel + 1, ii, db =>
    if ii ≤ last_log_index then
      raft.compact_loop last_log_index fuel ((ii + 1) % u64_mod)
        (match db ii with
          | some _ => raft.map_erase db ii
          | none => db)
    else .ok db

/-- The method `log_store::compact`; `m_start_idx` is not moved. -/
def raft.log_store.compact (fuel : Nat) (s : raft.log_store) (last_log_index : Nat) :
    Except fault (Bool × raft.log_store) :=
  match raft.compact_loop last_log_index fuel s.m_start_idx s.m_db with
  | .error e => .error e
  | .ok db => .ok (true, { s with m_db := db })

/-- The method `log_store::append`; the subtractions are `uint64_t`
subtractions. -/
def raft.log_store.append (fuel : Nat) (s : raft.log_store) (entry : raft.log_entry) :
    Except fault (Nat × raft.log_store) :=
  let clone := raft.make_clone entry
  let s1 : raft.log_store :=
    { s with
      m_db := raft.map_assign s.m_db s.m_next_idx clone
      m_next_idx := (s.m_next_idx + 1) % u64_mod }
  if s1.m_next_idx > raft.log_limit then
    match s1.compact fuel ((s1.m_next_idx + u64_mod - 1 - raft.log_limit) % u64_mod) with
    | .error e => .error e
    | .ok (_, s2) => .ok ((s2.m_next_idx + u64_mod - 1) % u64_mod, s2)
  else .ok ((s1.m_next_idx + u64_mod - 1) % u64_mod, s1)

/-- The method `log_store::entry_at`: the entry under the index, or the one under
index 0 when there is none; dereferencing the end iterator (no entry under 0
either) is undefined behaviour in the source and the fault `out_of_range` here. -/
def raft.log_store.entry_at (s : raft.log_store) (index : Nat) : Except fault raft.log_entry :=
  let entry := match s.m_db index with
    | some e => some e
    | none => s.m_db 0
  match entry with
  | some src => .ok (raft.make_clone src)
  | none => .error .out_of_range

/-- The method `log_store::term_at`. -/
def raft.log_store.term_at (s : raft.log_store) (index : Nat) : Except fault Nat :=
  match s.entry_at index with
  | .error e => .error e
  | .ok entry => .ok entry.term

/-- Consecutive `append` calls, one per entry: the indices the calls returned
and the store after the last one. -/
def raft.log_store.append_all (fuel : Nat) :
    raft.log_store → List raft.log_entry → Except fault (List Nat × raft.log_store)
  | s, [] => .ok ([], s)
  | s, e :: es =>
    match s.append fuel e with
    | .error f => .error f
    | .ok (idx, s1) =>
      match raft.log_store.append_all fuel s1 es with
      | .error f => .error f
      | .ok (idxs, s2) => .ok (idx :: idxs, s2)

/-! ## Admission: `insert_complete` -/

/-- For operands that are `uint64_t` values with the attestation not ahead of
the head, the offset is the plain difference. -/
theorem get_notification_offset_eq_sub (s : atomizer) (block_height : Nat)
    (hh : s.m_best_height < u64_mod) (hle : block_height ≤ s.m_best_height) :
    s.get_notification_offset block_height = s.m_best_height - block_height := by
  unfold atomizer.get_notification_offset
  simp only [u64_mod] at *
  omega

/-- The constructor gives a well-formed window when the depth is below the
largest `size_t`. -/
theorem construct_well_formed (best_height stxo_cache_depth : Nat)
    (hd : stxo_cache_depth + 1 < u64_mod) :
    (atomizer.construct best_height stxo_cache_depth).well_formed := by
  unfold atomizer.well_formed atomizer.construct
  simp only [List.length_replicate, Nat.mod_eq_of_lt hd]
  exact ⟨trivial, hd⟩

/-- Every way `insert_complete` can return: rejected as stale, rejected with the
non-empty set the scan found, or accepted after a scan that found nothing. -/
theorem insert_complete_ok_cases (fuel : Nat) (s : atomizer) (oldest_attestation : Nat)
    (tx : compact_tx) (r : Option tx_error) (s1 : atomizer)
    (h : s.insert_complete fuel oldest_attestation tx = .ok (r, s1)) :
    (r = some ⟨tx.m_id, .tx_error_stxo_range⟩ ∧
        s1 = { s with
          m_event_sampler := event_sampler_append s.m_event_sampler .discarded_expired }) ∨
      (∃ E, r = some ⟨tx.m_id, .tx_error_inputs_spent E⟩ ∧
        check_offsets s.m_spent tx.m_inputs (s.get_notification_offset oldest_attestation)
          fuel 0 ∅ = .ok E ∧
        s1 = { s with
          m_event_sampler := event_sampler_append s.m_event_sampler .discarded_spent }) ∨
      (r = none ∧ ∃ slot0, s.m_spent[0]? = some slot0 ∧
        s1 = { s with
          m_spent := s.m_spent.set 0 (slot0 ∪ tx.m_inputs.toFinset)
          m_complete_txs := s.m_complete_txs ++ [tx]
          m_event_sampler := event_sampler_append s.m_event_sampler .insert_complete }) := by
  unfold atomizer.insert_complete at h
  simp only at h
  split at h
  · rename_i offset_err hoff
    injection h with h
    injection h with h1 h2
    subst h2
    subst h1
    unfold atomizer.check_notification_offset at hoff
    split at hoff
    · injection hoff with hoff
      subst hoff
      exact Or.inl ⟨rfl, rfl⟩
    · cases hoff
  · split at h
    · cases h
    · rename_i e hchk
      injection h with h
      injection h with h1 h2
      subst h2
      subst h1
      unfold atomizer.check_stxo_cache at hchk
      split at hchk
      · cases hchk
      · rename_i E hE
        split at hchk
        · injection hchk with hchk
          injection hchk with hchk
          subst hchk
          exact Or.inr (Or.inl ⟨E, rfl, hE, rfl⟩)
        · cases hchk
    · split at h
      · cases h
      · rename_i spent hadd
        injection h with h
        injection h with h1 h2
        subst h2
        subst h1
        unfold add_tx_to_stxo_cache at hadd
        split at hadd
        · cases hadd
        · rename_i slot hslot
          injection hadd with hadd
          subst hadd
          exact Or.inr (Or.inr ⟨rfl, slot, hslot, rfl⟩)

/-- C1: when `insert_complete` returns an error, the error is `StxoRange` or
`InputsSpent`, and the pending queue, the window (every slot), the height, the
depth and the block store are exactly as before the call. -/
theorem insert_complete_error_state_unchanged (fuel : Nat) (s : atomizer)
    (oldest_attestation : Nat) (tx : compact_tx) (err : tx_error) (s1 : atomizer)
    (h : s.insert_complete fuel oldest_attestation tx = .ok (some err, s1)) :
    s1.m_complete_txs = s.m_complete_txs ∧ s1.m_spent = s.m_spent ∧
      s1.m_best_height = s.m_best_height ∧
      s1.m_spent_cache_depth = s.m_spent_cache_depth ∧ s1.m_blocks = s.m_blocks ∧
      (err.m_info = .tx_error_stxo_range ∨ ∃ S, err.m_info = .tx_error_inputs_spent S) := by
  rcases insert_complete_ok_cases fuel s oldest_attestation tx _ _ h with
    ⟨hr, hs⟩ | ⟨E, hr, _, hs⟩ | ⟨hr, _⟩
  · injection hr with hr
    subst hr hs
    exact ⟨rfl, rfl, rfl, rfl, rfl, Or.inl rfl⟩
  · injection hr with hr
    subst hr hs
    exact ⟨rfl, rfl, rfl, rfl, rfl, Or.inr ⟨E, rfl⟩⟩
  · cases hr

/-- C1, at a concrete call: a stale submission to a fresh instance of height 10
and depth 2 is rejected and changes nothing but the event log. -/
theorem insert_complete_error_state_unchanged_witness :
    (({ atomizer.construct 10 2 with
          m_event_sampler := [⟨.discarded_expired, 1⟩] } : atomizer).m_complete_txs
        = (atomizer.construct 10 2).m_complete_txs ∧
      ({ atomizer.construct 10 2 with
          m_event_sampler := [⟨.discarded_expired, 1⟩] } : atomizer).m_spent
        = (atomizer.construct 10 2).m_spent ∧
      ({ atomizer.construct 10 2 with
          m_event_sampler := [⟨.discarded_expired, 1⟩] } : atomizer).m_best_height
        = (atomizer.construct 10 2).m_best_height ∧
      ({ atomizer.construct 10 2 with
          m_event_sampler := [⟨.discarded_expired, 1⟩] } : atomizer).m_spent_cache_depth
        = (atomizer.construct 10 2).m_spent_cache_depth ∧
      ({ atomizer.construct 10 2 with
          m_event_sampler := [⟨.discarded_expired, 1⟩] } : atomizer).m_blocks
        = (atomizer.construct 10 2).m_blocks ∧
      ((⟨100, .tx_error_stxo_range⟩ : tx_error).m_info = .tx_error_stxo_range ∨
        ∃ S, (⟨100, .tx_error_stxo_range⟩ : tx_error).m_info = .tx_error_inputs_spent S)) :=
  insert_complete_error_state_unchanged 5 (atomizer.construct 10 2) 0 ⟨100, [7]⟩
    ⟨100, .tx_error_stxo_range⟩
    { atomizer.construct 10 2 with m_event_sampler := [⟨.discarded_expired, 1⟩] } rfl

/-- C2: a transaction with at least one input whose height offset exceeds the
depth is rejected with `StxoRange`, whatever the fuel and whatever the window
holds; the state is untouched but for the event log. -/
theorem insert_complete_stale_stxo_range (fuel : Nat) (s : atomizer)
    (oldest_attestation : Nat) (tx : compact_tx) (hin : tx.m_inputs ≠ [])
    (hoff : s.m_spent_cache_depth < s.get_notification_offset oldest_attestation) :
    s.insert_complete fuel oldest_attestation tx =
      .ok (some ⟨tx.m_id, .tx_error_stxo_range⟩,
        { s with
          m_event_sampler := event_sampler_append s.m_event_sampler .discarded_expired }) := by
  unfold atomizer.insert_complete atomizer.check_notification_offset
  simp only [gt_iff_lt, hoff, hin, ne_eq, not_false_eq_true, and_self, if_true]

/-- C2, at a concrete call: depth 2, height 10, attestation height 7 (offset 3),
with the input already present in slot 0. -/
theorem insert_complete_stale_stxo_range_witness :
    atomizer.insert_complete 0
        { atomizer.construct 10 2 with m_spent := [{7}, ∅, ∅] } 7 ⟨100, [7]⟩ =
      .ok (some ⟨100, .tx_error_stxo_range⟩,
        { atomizer.construct 10 2 with
          m_spent := [{7}, ∅, ∅]
          m_event_sampler := event_sampler_append [] .discarded_expired }) :=
  insert_complete_stale_stxo_range 0
    { atomizer.construct 10 2 with m_spent := [{7}, ∅, ∅] } 7 ⟨100, [7]⟩
    (by decide) (by decide)

/-- C4: when `insert_complete` returns no error, slot 0 is the old slot 0 united
with the inputs of the transaction, the transaction is appended at the end of
the pending queue, and the other slots, the number of slots, the height, the
depth and the block store are unchanged. -/
theorem insert_complete_success_effect (fuel : Nat) (s : atomizer)
    (oldest_attestation : Nat) (tx : compact_tx) (s1 : atomizer)
    (h : s.insert_complete fuel oldest_attestation tx = .ok (none, s1)) :
    (∃ slot0, s.m_spent[0]? = some slot0 ∧
        s1.m_spent[0]? = some (slot0 ∪ tx.m_inputs.toFinset)) ∧
      s1.m_complete_txs = s.m_complete_txs ++ [tx] ∧
      (∀ i, 1 ≤ i → s1.m_spent[i]? = s.m_spent[i]?) ∧
      s1.m_spent.length = s.m_spent.length ∧
      s1.m_best_height = s.m_best_height ∧
      s1.m_spent_cache_depth = s.m_spent_cache_depth ∧ s1.m_blocks = s.m_blocks := by
  rcases insert_complete_ok_cases fuel s oldest_attestation tx _ _ h with
    ⟨hr, _⟩ | ⟨E, hr, _, _⟩ | ⟨_, slot, hslot, hs⟩
  · cases hr
  · cases hr
  · subst hs
    have hlen : 0 < s.m_spent.length := by
      rcases List.getElem?_eq_some.mp hslot with ⟨hl, _⟩
      exact hl
    refine ⟨⟨slot, hslot, ?_⟩, rfl, ?_, ?_, rfl, rfl, rfl⟩
    · simp [List.getElem?_set, hlen]
    · intro i hi
      have : 0 ≠ i := by omega
      simp [List.getElem?_set, this]
    · simp

/-- C4, at a concrete call: a transaction with input 7 is accepted by a fresh
instance of height 10 and depth 2. -/
theorem insert_complete_success_effect_witness :
    (∃ slot0, (atomizer.construct 10 2).m_spent[0]? = some slot0 ∧
        ({ atomizer.construct 10 2 with
            m_spent := [{7}, ∅, ∅]
            m_complete_txs := [⟨100, [7]⟩]
            m_event_sampler := [⟨.insert_complete, 1⟩] } : atomizer).m_spent[0]?
          = some (slot0 ∪ (⟨100, [7]⟩ : compact_tx).m_inputs.toFinset)) ∧
      ({ atomizer.construct 10 2 with
            m_spent := [{7}, ∅, ∅]
            m_complete_txs := [⟨100, [7]⟩]
            m_event_sampler := [⟨.insert_complete, 1⟩] } : atomizer).m_complete_txs
        = (atomizer.construct 10 2).m_complete_txs ++ [⟨100, [7]⟩] ∧
      (∀ i, 1 ≤ i →
        ({ atomizer.construct 10 2 with
            m_spent := [{7}, ∅, ∅]
            m_complete_txs := [⟨100, [7]⟩]
            m_event_sampler := [⟨.insert_complete, 1⟩] } : atomizer).m_spent[i]?
          = (atomizer.construct 10 2).m_spent[i]?) ∧
      ({ atomizer.construct 10 2 with
            m_spent := [{7}, ∅, ∅]
            m_complete_txs := [⟨100, [7]⟩]
            m_event_sampler := [⟨.insert_complete, 1⟩] } : atomizer).m_spent.length
        = (atomizer.construct 10 2).m_spent.length ∧
      ({ atomizer.construct 10 2 with
            m_spent := [{7}, ∅, ∅]
            m_complete_txs := [⟨100, [7]⟩]
            m_event_sampler := [⟨.insert_complete, 1⟩] } : atomizer).m_best_height
        = (atomizer.construct 10 2).m_best_height ∧
      ({ atomizer.construct 10 2 with
            m_spent := [{7}, ∅, ∅]
            m_complete_txs := [⟨100, [7]⟩]
            m_event_sampler := [⟨.insert_complete, 1⟩] } : atomizer).m_spent_cache_depth
        = (atomizer.construct 10 2).m_spent_cache_depth ∧
      ({ atomizer.construct 10 2 with
            m_spent := [{7}, ∅, ∅]
            m_complete_txs := [⟨100, [7]⟩]
            m_event_sampler := [⟨.insert_complete, 1⟩] } : atomizer).m_blocks
        = (atomizer.construct 10 2).m_blocks :=
  insert_complete_success_effect 5 (atomizer.construct 10 2) 8 ⟨100, [7]⟩
    { atomizer.construct 10 2 with
      m_spent := [{7}, ∅, ∅]
      m_complete_txs := [⟨100, [7]⟩]
      m_event_sampler := [⟨.insert_complete, 1⟩] } rfl

/-! ## The scan of the window: `check_stxo_cache` -/

/-- Membership in the set S of colliding inputs, slot by slot. -/
theorem mem_colliding_inputs (spent : List (Finset hash_t)) (inputs : List hash_t)
    (height_offset : Nat) (a : hash_t) :
    a ∈ colliding_inputs spent inputs height_offset ↔
      a ∈ inputs ∧ ∃ i, i ≤ height_offset ∧ ∃ slot, spent[i]? = some slot ∧ a ∈ slot := by
  unfold colliding_inputs
  simp only [Finset.mem_filter, List.mem_toFinset]
  constructor
  · rintro ⟨ha, i, hi, hmem⟩
    refine ⟨ha, i, hi, ?_⟩
    cases hget : spent[i]? with
    | none => simp [List.getD, hget] at hmem
    | some slot =>
      refine ⟨slot, rfl, ?_⟩
      simpa [List.getD, hget] using hmem
  · rintro ⟨ha, i, hi, slot, hget, hmem⟩
    refine ⟨ha, i, hi, ?_⟩
    simpa [List.getD, hget] using hmem

/-- The inner loop over a slot that exists adds exactly the inputs found in it. -/
theorem check_inputs_ok (spent : List (Finset hash_t)) (offset : Nat) (slot : Finset hash_t)
    (hslot : spent[offset]? = some slot) (inputs : List hash_t) (err_set : Finset hash_t) :
    ∃ E, check_inputs spent offset inputs err_set = .ok E ∧
      ∀ a, a ∈ E ↔ a ∈ err_set ∨ (a ∈ inputs ∧ a ∈ slot) := by
  induction inputs generalizing err_set with
  | nil => exact ⟨err_set, rfl, by simp⟩
  | cons inp rest ih =>
    unfold check_inputs
    rw [hslot]
    simp only
    obtain ⟨E, hE, hmem⟩ := ih (if inp ∈ slot then insert inp err_set else err_set)
    refine ⟨E, hE, ?_⟩
    intro a
    rw [hmem a]
    by_cases hin : inp ∈ slot
    · simp only [hin, if_true, Finset.mem_insert, List.mem_cons]
      constructor
      · rintro ((rfl | h) | h)
        · exact Or.inr ⟨Or.inl rfl, hin⟩
        · exact Or.inl h
        · exact Or.inr ⟨Or.inr h.1, h.2⟩
      · rintro (h | ⟨rfl | h, h2⟩)
        · exact Or.inl (Or.inr h)
        · exact Or.inl (Or.inl rfl)
        · exact Or.inr ⟨h, h2⟩
    · simp only [hin, if_false, List.mem_cons]
      constructor
      · rintro (h | h)
        · exact Or.inl h
        · exact Or.inr ⟨Or.inr h.1, h.2⟩
      · rintro (h | ⟨rfl | h, h2⟩)
        · exact Or.inl h
        · exact absurd h2 hin
        · exact Or.inr ⟨h, h2⟩

/-- The outer loop, when the scanned slots exist and the counter cannot wrap:
with enough fuel it returns, and adds exactly the inputs found in the slots
`offset .. cache_check_range`. -/
theorem check_offsets_ok (spent : List (Finset hash_t)) (inputs : List hash_t)
    (cache_check_range : Nat) (hwrap : cache_check_range + 1 < u64_mod)
    (hlen : cache_check_range < spent.length) (fuel : Nat) :
    ∀ (offset : Nat) (err_set : Finset hash_t), offset ≤ cache_check_range + 1 →
      cache_check_range + 2 ≤ fuel + offset →
      ∃ E, check_offsets spent inputs cache_check_range fuel offset err_set = .ok E ∧
        ∀ a, a ∈ E ↔ a ∈ err_set ∨
          (a ∈ inputs ∧ ∃ i, offset ≤ i ∧ i ≤ cache_check_range ∧
            ∃ slot, spent[i]? = some slot ∧ a ∈ slot) := by
  induction fuel with
  | zero =>
    intro offset err_set h1 h2
    omega
  | succ fuel ih =>
    intro offset err_set h1 h2
    unfold check_offsets
    by_cases hle : offset ≤ cache_check_range
    · simp only [hle, if_true]
      have hoff : offset < spent.length := by omega
      have hslot : spent[offset]? = some spent[offset] := List.getElem?_eq_getElem hoff
      obtain ⟨E1, hE1, hmem1⟩ := check_inputs_ok spent offset _ hslot inputs err_set
      rw [hE1]
      simp only
      have hmod : (offset + 1) % u64_mod = offset + 1 := Nat.mod_eq_of_lt (by omega)
      rw [hmod]
      obtain ⟨E, hE, hmem⟩ := ih (offset + 1) E1 (by omega) (by omega)
      refine ⟨E, hE, ?_⟩
      intro a
      rw [hmem a, hmem1 a]
      constructor
      · rintro ((h | ⟨h, h2⟩) | ⟨h, i, hi1, hi2, hs⟩)
        · exact Or.inl h
        · exact Or.inr ⟨h, offset, le_refl _, hle, _, hslot, h2⟩
        · exact Or.inr ⟨h, i, by omega, hi2, hs⟩
      · rintro (h | ⟨h, i, hi1, hi2, slot, hs, hm⟩)
        · exact Or.inl (Or.inl h)
        · by_cases heq : i = offset
          · subst heq
            rw [hslot] at hs
            injection hs with hs
            subst hs
            exact Or.inl (Or.inr ⟨h, hm⟩)
          · exact Or.inr ⟨h, i, by omega, hi2, slot, hs, hm⟩
    · simp only [hle, if_false]
      refine ⟨err_set, rfl, ?_⟩
      intro a
      constructor
      · exact Or.inl
      · rintro (h | ⟨_, i, hi1, hi2, _⟩)
        · exact h
        · omega

/-- The method `check_stxo_cache` on a well-formed window and a range within
the depth: it returns, and what it returns is decided by the set S. -/
theorem check_stxo_cache_ok (fuel : Nat) (s : atomizer) (tx : compact_tx)
    (cache_check_range : Nat) (hwf : s.well_formed)
    (hrange : cache_check_range ≤ s.m_spent_cache_depth)
    (hfuel : cache_check_range + 2 ≤ fuel) :
    s.check_stxo_cache fuel tx cache_check_range =
      .ok (if colliding_inputs s.m_spent tx.m_inputs cache_check_range ≠ ∅ then
          some ⟨tx.m_id, .tx_error_inputs_spent
            (colliding_inputs s.m_spent tx.m_inputs cache_check_range)⟩
        else none) := by
  obtain ⟨hlen, hrep⟩ := hwf
  obtain ⟨E, hE, hmem⟩ := check_offsets_ok s.m_spent tx.m_inputs cache_check_range
    (by omega) (by omega) fuel 0 ∅ (by omega) (by omega)
  have hES : E = colliding_inputs s.m_spent tx.m_inputs cache_check_range := by
    ext a
    rw [hmem a, mem_colliding_inputs]
    simp
  unfold atomizer.check_stxo_cache
  rw [hE, hES]
  simp only
  split <;> rfl

/-- The method `insert_complete` on a well-formed window with a height offset
within the depth, given fuel for the `height_offset + 1` rounds of the scan:
the call returns, and the set S decides between rejection and admission. -/
theorem insert_complete_within_depth (fuel : Nat) (s : atomizer)
    (oldest_attestation : Nat) (tx : compact_tx) (hwf : s.well_formed)
    (hoff : s.get_notification_offset oldest_attestation ≤ s.m_spent_cache_depth)
    (hfuel : s.get_notification_offset oldest_attestation + 2 ≤ fuel) :
    s.insert_complete fuel oldest_attestation tx =
      if colliding_inputs s.m_spent tx.m_inputs
          (s.get_notification_offset oldest_attestation) ≠ ∅ then
        .ok (some ⟨tx.m_id, .tx_error_inputs_spent
            (colliding_inputs s.m_spent tx.m_inputs
              (s.get_notification_offset oldest_attestation))⟩,
          { s with
            m_event_sampler := event_sampler_append s.m_event_sampler .discarded_spent })
      else
        .ok (none,
          { s with
            m_spent := s.m_spent.set 0 (s.m_spent.getD 0 ∅ ∪ tx.m_inputs.toFinset)
            m_complete_txs := s.m_complete_txs ++ [tx]
            m_event_sampler := event_sampler_append s.m_event_sampler .insert_complete }) := by
  have hchk := check_stxo_cache_ok fuel s tx _ hwf hoff hfuel
  have hnone : s.check_notification_offset
      (s.get_notification_offset oldest_attestation) tx = none := by
    unfold atomizer.check_notification_offset
    have : ¬ (s.get_notification_offset oldest_attestation > s.m_spent_cache_depth) := by
      omega
    simp [this]
  unfold atomizer.insert_complete
  simp only [hnone, hchk]
  by_cases hS : colliding_inputs s.m_spent tx.m_inputs
      (s.get_notification_offset oldest_attestation) = ∅
  · have hlen : 0 < s.m_spent.length := by have := hwf.1; omega
    have h0 : s.m_spent[0]? = some s.m_spent[0] := List.getElem?_eq_getElem hlen
    have hD : s.m_spent.getD 0 ∅ = s.m_spent[0] := by
      simp [List.getD, h0]
    simp only [hS, ne_eq, not_true_eq_false, if_false, add_tx_to_stxo_cache, h0, hD]
  · simp only [hS, ne_eq, not_false_eq_true, if_true]

/-- C3: on a window of depth + 1 slots and with a height offset within the
depth, `insert_complete` returns (given fuel for the `height_offset + 1` rounds
of the scan); it returns `InputsSpent` carrying exactly the set S when S is not
empty, and no error when S is empty. -/
theorem insert_complete_inputs_spent_iff (fuel : Nat) (s : atomizer)
    (oldest_attestation : Nat) (tx : compact_tx) (hwf : s.well_formed)
    (hoff : s.get_notification_offset oldest_attestation ≤ s.m_spent_cache_depth)
    (hfuel : s.get_notification_offset oldest_attestation + 2 ≤ fuel) :
    ∃ r s1, s.insert_complete fuel oldest_attestation tx = .ok (r, s1) ∧
      (colliding_inputs s.m_spent tx.m_inputs
          (s.get_notification_offset oldest_attestation) ≠ ∅ →
        r = some ⟨tx.m_id, .tx_error_inputs_spent
          (colliding_inputs s.m_spent tx.m_inputs
            (s.get_notification_offset oldest_attestation))⟩) ∧
      (colliding_inputs s.m_spent tx.m_inputs
          (s.get_notification_offset oldest_attestation) = ∅ → r = none) := by
  rw [insert_complete_within_depth fuel s oldest_attestation tx hwf hoff hfuel]
  by_cases hS : colliding_inputs s.m_spent tx.m_inputs
      (s.get_notification_offset oldest_attestation) = ∅
  · rw [if_neg (not_not.mpr hS)]
    exact ⟨_, _, rfl, fun h => absurd hS h, fun _ => rfl⟩
  · rw [if_pos hS]
    exact ⟨_, _, rfl, fun _ => rfl, fun h => absurd h hS⟩

/-- C3, at a concrete call: depth 2, height 10, attestation height 9 (offset 1);
the inputs 7 and 8 are in the scanned slots 0 and 1, the input 9 is only in
slot 2 and the input 5 is in no slot, so S is the set of 7 and 8. -/
theorem insert_complete_inputs_spent_iff_witness :
    colliding_inputs [{7}, {8}, {9}] [7, 8, 9, 5] 1 = {7, 8} ∧
    ∃ r s1, atomizer.insert_complete 3
        { atomizer.construct 10 2 with m_spent := [{7}, {8}, {9}] } 9
        ⟨100, [7, 8, 9, 5]⟩ = .ok (r, s1) ∧
      (colliding_inputs [{7}, {8}, {9}] [7, 8, 9, 5]
          (atomizer.get_notification_offset
            { atomizer.construct 10 2 with m_spent := [{7}, {8}, {9}] } 9) ≠ ∅ →
        r = some ⟨100, .tx_error_inputs_spent
          (colliding_inputs [{7}, {8}, {9}] [7, 8, 9, 5]
            (atomizer.get_notification_offset
              { atomizer.construct 10 2 with m_spent := [{7}, {8}, {9}] } 9))⟩) ∧
      (colliding_inputs [{7}, {8}, {9}] [7, 8, 9, 5]
          (atomizer.get_notification_offset
            { atomizer.construct 10 2 with m_spent := [{7}, {8}, {9}] } 9) = ∅ →
        r = none) :=
  ⟨by decide,
    insert_complete_inputs_spent_iff 3
      { atomizer.construct 10 2 with m_spent := [{7}, {8}, {9}] } 9 ⟨100, [7, 8, 9, 5]⟩
      (by decide) (by decide) (by decide)⟩

/-! ## Transactions without inputs -/

/-- Writing back the element a slot already holds changes nothing. -/
theorem list_set_same {α : Type} (l : List α) (i : Nat) (x : α) (h : l[i]? = some x) :
    l.set i x = l := by
  apply List.ext_getElem?
  intro j
  rw [List.getElem?_set]
  split
  · rename_i hij
    subst hij
    rcases List.getElem?_eq_some.mp h with ⟨hl, _⟩
    simp only [hl, if_true]
    exact h.symm
  · rfl

/-- With no inputs the scan reads no slot: when the counter cannot wrap and the
fuel covers the rounds, it returns the set it was given. -/
theorem check_offsets_no_inputs (spent : List (Finset hash_t)) (cache_check_range : Nat)
    (hwrap : cache_check_range + 1 < u64_mod) (fuel : Nat) :
    ∀ (offset : Nat) (err_set : Finset hash_t), offset ≤ cache_check_range + 1 →
      cache_check_range + 2 ≤ fuel + offset →
      check_offsets spent [] cache_check_range fuel offset err_set = .ok err_set := by
  induction fuel with
  | zero =>
    intro offset err_set h1 h2
    omega
  | succ fuel ih =>
    intro offset err_set h1 h2
    unfold check_offsets
    by_cases hle : offset ≤ cache_check_range
    · have hmod : (offset + 1) % u64_mod = offset + 1 := Nat.mod_eq_of_lt (by omega)
      simp only [hle, if_true, check_inputs, hmod]
      exact ih (offset + 1) err_set (by omega) (by omega)
    · simp only [hle, if_false]

/-- When the range is the largest `uint64_t`, the loop condition
`offset <= cache_check_range` holds for every value of the counter: the scan
returns for no amount of fuel. -/
theorem check_offsets_max_range_never_returns (spent : List (Finset hash_t))
    (inputs : List hash_t) (fuel : Nat) :
    ∀ (offset : Nat) (err_set : Finset hash_t), offset < u64_mod →
      ∀ E, check_offsets spent inputs (u64_mod - 1) fuel offset err_set ≠ .ok E := by
  induction fuel with
  | zero =>
    intro offset err_set _ E h
    simp [check_offsets] at h
  | succ fuel ih =>
    intro offset err_set hlt E h
    unfold check_offsets at h
    have hle : offset ≤ u64_mod - 1 := by omega
    simp only [hle, if_true] at h
    split at h
    · cases h
    · exact ih _ _ (Nat.mod_lt _ (by decide)) E h

/-- With no inputs and the largest range the scan reads nothing and spins: it
uses up any fuel. -/
theorem check_offsets_no_inputs_max_range (spent : List (Finset hash_t)) (fuel : Nat) :
    ∀ (offset : Nat) (err_set : Finset hash_t), offset < u64_mod →
      check_offsets spent [] (u64_mod - 1) fuel offset err_set = .error .out_of_fuel := by
  induction fuel with
  | zero =>
    intro offset err_set _
    rfl
  | succ fuel ih =>
    intro offset err_set hlt
    unfold check_offsets
    have hle : offset ≤ u64_mod - 1 := by omega
    simp only [hle, if_true, check_inputs]
    exact ih _ _ (Nat.mod_lt _ (by decide))

/-- A transaction without inputs whose height offset is below the largest
`uint64_t` is accepted by an instance whose window has a slot 0: the call
returns no error, appends the transaction and leaves the window as it was. -/
theorem insert_complete_no_inputs_accepted (fuel : Nat) (s : atomizer)
    (oldest_attestation : Nat) (tx : compact_tx) (hin : tx.m_inputs = [])
    (hlen : 0 < s.m_spent.length)
    (hwrap : s.get_notification_offset oldest_attestation + 1 < u64_mod)
    (hfuel : s.get_notification_offset oldest_attestation + 2 ≤ fuel) :
    s.insert_complete fuel oldest_attestation tx =
      .ok (none,
        { s with
          m_complete_txs := s.m_complete_txs ++ [tx]
          m_event_sampler := event_sampler_append s.m_event_sampler .insert_complete }) := by
  have hscan := check_offsets_no_inputs s.m_spent
    (s.get_notification_offset oldest_attestation) hwrap fuel 0 ∅ (by omega) (by omega)
  have h0 : s.m_spent[0]? = some s.m_spent[0] := List.getElem?_eq_getElem hlen
  unfold atomizer.insert_complete atomizer.check_notification_offset
    atomizer.check_stxo_cache add_tx_to_stxo_cache
  simp [hin, hscan, h0, list_set_same s.m_spent 0 s.m_spent[0] h0]

/-- A transaction without inputs whose height offset is the largest `uint64_t`
makes `insert_complete` spin in the scan: the call returns for no amount of
fuel. -/
theorem insert_complete_no_inputs_max_offset (fuel : Nat) (s : atomizer)
    (oldest_attestation : Nat) (tx : compact_tx) (hin : tx.m_inputs = [])
    (hoff : s.get_notification_offset oldest_attestation = u64_mod - 1) :
    s.insert_complete fuel oldest_attestation tx = .error .out_of_fuel := by
  have hscan := check_offsets_no_inputs_max_range s.m_spent fuel 0 ∅ (by decide)
  unfold atomizer.insert_complete atomizer.check_notification_offset
    atomizer.check_stxo_cache
  simp [hin, hoff, hscan]

/-- C5, at the failing call: on a fresh instance of height 10 and depth 2, the
submission of a transaction without inputs with attestation height 11 (height
offset 2^64 - 1) is not accepted: the call returns for no amount of fuel. -/
theorem insert_complete_no_inputs_never_returns (fuel : Nat) :
    (atomizer.construct 10 2).insert_complete fuel 11 ⟨100, []⟩ = .error .out_of_fuel :=
  insert_complete_no_inputs_max_offset fuel (atomizer.construct 10 2) 11 ⟨100, []⟩ rfl
    (by decide)

/-! ## Block assembly: `make_block` -/

/-- The rotation loop started at an index inside the vector returns; it keeps
the size, moves every slot below the start one place up and leaves the slots
above the start alone. -/
theorem rotate_spent_spec (i : Nat) :
    ∀ (spent : List (Finset hash_t)), i < spent.length →
      ∃ r, rotate_spent i spent = .ok r ∧ r.length = spent.length ∧
        (∀ j, 1 ≤ j → j ≤ i → r[j]? = spent[j - 1]?) ∧
        (∀ j, i < j → r[j]? = spent[j]?) := by
  induction i with
  | zero =>
    intro spent _
    refine ⟨spent, rfl, rfl, ?_, fun _ _ => rfl⟩
    intro j h1 h2
    omega
  | succ i ih =>
    intro spent hlt
    have hi : spent[i]? = some spent[i] := List.getElem?_eq_getElem (by omega)
    obtain ⟨r, hr, hlen, hlow, hhigh⟩ :=
      ih ((spent.set (i + 1) spent[i]).set i ∅) (by simp only [List.length_set]; omega)
    refine ⟨r, ?_, ?_, ?_, ?_⟩
    · unfold rotate_spent
      simp only [hi, hlt, if_true]
      exact hr
    · simpa only [List.length_set] using hlen
    · intro j h1 h2
      by_cases hj : j ≤ i
      · rw [hlow j h1 hj]
        have e1 : i ≠ j - 1 := by omega
        have e2 : i + 1 ≠ j - 1 := by omega
        simp only [List.getElem?_set, e1, e2, if_false]
      · have hj1 : j = i + 1 := by omega
        subst hj1
        rw [hhigh (i + 1) (by omega)]
        have e1 : i ≠ i + 1 := by omega
        simp only [List.getElem?_set, e1, if_false, if_true, hlt, Nat.add_sub_cancel, hi]
    · intro j hj
      rw [hhigh j (by omega)]
      have e1 : i ≠ j := by omega
      have e2 : i + 1 ≠ j := by omega
      simp only [List.getElem?_set, e1, e2, if_false]

/-- The method `make_block` on a window that has the slots `0 .. depth`: the
call returns the incremented height (in `uint64_t`), with the block inserted,
the pending queue emptied and the window rotated. -/
theorem make_block_ok (s : atomizer) (hlen : s.m_spent_cache_depth < s.m_spent.length) :
    ∃ spent1, s.make_block =
        .ok ((s.m_best_height + 1) % u64_mod,
          { m_blocks := unordered_map_insert s.m_blocks ((s.m_best_height + 1) % u64_mod)
              ⟨(s.m_best_height + 1) % u64_mod, s.m_complete_txs⟩
            m_complete_txs := []
            m_spent := spent1
            m_best_height := (s.m_best_height + 1) % u64_mod
            m_spent_cache_depth := s.m_spent_cache_depth
            m_event_sampler := event_sampler_append_count s.m_event_sampler .make_block
              s.m_complete_txs.length }) ∧
      spent1.length = s.m_spent.length ∧ spent1[0]? = some ∅ ∧
      (∀ j, 1 ≤ j → j ≤ s.m_spent_cache_depth → spent1[j]? = s.m_spent[j - 1]?) ∧
      (∀ j, s.m_spent_cache_depth < j → spent1[j]? = s.m_spent[j]?) := by
  obtain ⟨r, hr, hrlen, hlow, hhigh⟩ := rotate_spent_spec s.m_spent_cache_depth s.m_spent hlen
  have hpos : 0 < r.length := by omega
  refine ⟨r.set 0 ∅, ?_, ?_, ?_, ?_, ?_⟩
  · unfold atomizer.make_block
    simp only [hr, hpos, if_true]
  · simpa only [List.length_set] using hrlen
  · simp only [List.getElem?_set, hpos, if_true]
  · intro j h1 h2
    have e : 0 ≠ j := by omega
    simp only [List.getElem?_set, e, if_false]
    exact hlow j h1 h2
  · intro j hj
    have e : 0 ≠ j := by omega
    simp only [List.getElem?_set, e, if_false]
    exact hhigh j hj

/-- C10: on a window of depth + 1 slots `make_block` returns and rotates the
window: the window keeps its depth + 1 slots, slot 0 is empty, slot i is the old
slot i - 1 for i in 1 .. depth, and the whole window is the empty set followed
by the old slots 0 .. depth - 1, so that nothing of the old slot depth is
carried over (for depth 0 the window is the single empty slot). -/
theorem make_block_rotates_window (s : atomizer)
    (hlen : s.m_spent.length = s.m_spent_cache_depth + 1) :
    ∃ h s1, s.make_block = .ok (h, s1) ∧
      s1.m_spent_cache_depth = s.m_spent_cache_depth ∧
      s1.m_spent.length = s.m_spent_cache_depth + 1 ∧
      s1.m_spent[0]? = some ∅ ∧
      (∀ i, 1 ≤ i → i ≤ s.m_spent_cache_depth → s1.m_spent[i]? = s.m_spent[i - 1]?) ∧
      s1.m_spent = ∅ :: s.m_spent.take s.m_spent_cache_depth ∧
      (s.m_spent_cache_depth = 0 → s1.m_spent = [∅]) := by
  obtain ⟨spent1, hmk, hlen1, h0, hlow, hhigh⟩ := make_block_ok s (by omega)
  have hclosed : spent1 = ∅ :: s.m_spent.take s.m_spent_cache_depth := by
    apply List.ext_getElem?
    intro j
    cases j with
    | zero => simpa using h0
    | succ k =>
      rw [List.getElem?_cons_succ, List.getElem?_take]
      by_cases hk : k < s.m_spent_cache_depth
      · rw [hlow (k + 1) (by omega) (by omega)]
        simp only [hk, if_true, Nat.add_sub_cancel]
      · rw [hhigh (k + 1) (by omega)]
        simp only [hk, if_false]
        exact List.getElem?_eq_none (by omega)
  refine ⟨_, _, hmk, rfl, ?_, h0, hlow, hclosed, ?_⟩
  · show spent1.length = _
    omega
  · intro hd
    show spent1 = _
    rw [hclosed, hd]
    rfl

/-- C10, at a concrete state: depth 2 with the slots {7}, {8}, {9}; after
`make_block` the slots are {}, {7}, {8}. -/
theorem make_block_rotates_window_witness :
    ∃ h s1, atomizer.make_block
        { atomizer.construct 10 2 with m_spent := [{7}, {8}, {9}] } = .ok (h, s1) ∧
      s1.m_spent_cache_depth = 2 ∧
      s1.m_spent.length = 2 + 1 ∧
      s1.m_spent[0]? = some ∅ ∧
      (∀ i, 1 ≤ i → i ≤ 2 → s1.m_spent[i]? = [({7} : Finset hash_t), {8}, {9}][i - 1]?) ∧
      s1.m_spent = ∅ :: [({7} : Finset hash_t), {8}, {9}].take 2 ∧
      ((2 : Nat) = 0 → s1.m_spent = [∅]) :=
  make_block_rotates_window { atomizer.construct 10 2 with m_spent := [{7}, {8}, {9}] }
    (by decide)

/-! ## Sequences of calls -/

/-- Reading a slot that exists, with a default. -/
theorem getD_of_getElem? (l : List (Finset hash_t)) (i : Nat) (x : Finset hash_t)
    (h : l[i]? = some x) : l.getD i ∅ = x := by
  simp [List.getD, h]

/-- Counting the `make_block` calls, one call at a time. -/
theorem count_make_block_cons (o : op) (ops : List op) :
    count_make_block (o :: ops) =
      (if o = op.make_block then 1 else 0) + count_make_block ops := by
  unfold count_make_block
  by_cases h : o = op.make_block
  · simp [List.filter_cons, h]
    omega
  · simp [List.filter_cons, h]

/-- The accepted transactions of the later calls are among the accepted
transactions of the whole sequence. -/
theorem accepted_txs_tail (o : op) (r : op_result) (ops : List op) (rs : List op_result)
    (t : compact_tx) (h : t ∈ accepted_txs ops rs) : t ∈ accepted_txs (o :: ops) (r :: rs) := by
  cases o with
  | insert_complete oa tx =>
    cases r with
    | inserted err =>
      cases err with
      | none =>
        simp only [accepted_txs, List.mem_cons]
        exact Or.inr h
      | some e => simpa only [accepted_txs] using h
    | block_made _ => simpa only [accepted_txs] using h
    | pruned => simpa only [accepted_txs] using h
  | make_block => simpa only [accepted_txs] using h
  | prune _ => simpa only [accepted_txs] using h

/-- What one call that returns does to a well-formed window: the window stays
well formed with the same depth; `make_block` clears slot 0 and moves the slots
up; every other call leaves the slots from 1 on alone, and slot 0 either stays
or, for an accepted `insert_complete`, gains the inputs of the transaction. -/
theorem apply_ok_window (fuel : Nat) (s : atomizer) (o : op) (r : op_result)
    (s1 : atomizer) (hwf : s.well_formed) (h : s.apply fuel o = .ok (r, s1)) :
    s1.well_formed ∧ s1.m_spent_cache_depth = s.m_spent_cache_depth ∧
      ((o = op.make_block ∧ s1.m_spent[0]? = some ∅ ∧
          ∀ j, 1 ≤ j → j ≤ s.m_spent_cache_depth → s1.m_spent[j]? = s.m_spent[j - 1]?) ∨
        (o ≠ op.make_block ∧ (∀ j, 1 ≤ j → s1.m_spent[j]? = s.m_spent[j]?) ∧
          ∃ slot0, s.m_spent[0]? = some slot0 ∧
            (s1.m_spent[0]? = some slot0 ∨
              ∃ oa tx, o = op.insert_complete oa tx ∧ r = op_result.inserted none ∧
                s1.m_spent[0]? = some (slot0 ∪ tx.m_inputs.toFinset)))) := by
  obtain ⟨hlen, hrep⟩ := hwf
  have hpos : 0 < s.m_spent.length := by omega
  have h0 : s.m_spent[0]? = some s.m_spent[0] := List.getElem?_eq_getElem hpos
  cases o with
  | insert_complete oa tx =>
    unfold atomizer.apply at h
    simp only at h
    split at h
    · cases h
    · rename_i err s1a hins
      injection h with h
      injection h with hr hs
      subst hr hs
      rcases insert_complete_ok_cases fuel s oa tx _ _ hins with
        ⟨_, hs⟩ | ⟨E, _, _, hs⟩ | ⟨hr, slot, hslot, hs⟩
      · subst hs
        exact ⟨⟨hlen, hrep⟩, rfl, Or.inr ⟨by simp, fun _ _ => rfl, _, h0, Or.inl h0⟩⟩
      · subst hs
        exact ⟨⟨hlen, hrep⟩, rfl, Or.inr ⟨by simp, fun _ _ => rfl, _, h0, Or.inl h0⟩⟩
      · subst hs hr
        refine ⟨⟨?_, ?_⟩, rfl, Or.inr ⟨by simp, ?_, slot, hslot, Or.inr ⟨oa, tx, rfl, rfl, ?_⟩⟩⟩
        · simpa only [List.length_set] using hlen
        · simpa only [List.length_set] using hrep
        · intro j hj
          have e : 0 ≠ j := by omega
          simp only [List.getElem?_set, e, if_false]
        · simp only [List.getElem?_set, hpos, if_true]
  | make_block =>
    obtain ⟨spent1, hmk, hlen1, hz, hlow, _⟩ := make_block_ok s (by omega)
    unfold atomizer.apply at h
    simp only [hmk] at h
    injection h with h
    injection h with hr hs
    subst hs
    refine ⟨⟨?_, ?_⟩, rfl, Or.inl ⟨rfl, hz, hlow⟩⟩
    · show spent1.length = s.m_spent_cache_depth + 1
      omega
    · show spent1.length < u64_mod
      omega
  | prune height =>
    unfold atomizer.apply at h
    injection h with h
    injection h with hr hs
    subst hs
    exact ⟨⟨hlen, hrep⟩, rfl, Or.inr ⟨by simp, fun _ _ => rfl, _, h0, Or.inl h0⟩⟩

/-- A run that returns keeps the window well formed and the depth fixed. -/
theorem run_ok_well_formed (fuel : Nat) (ops : List op) :
    ∀ (s : atomizer) (rs : List op_result) (s2 : atomizer), s.well_formed →
      atomizer.run fuel s ops = .ok (rs, s2) →
      s2.well_formed ∧ s2.m_spent_cache_depth = s.m_spent_cache_depth := by
  induction ops with
  | nil =>
    intro s rs s2 hwf h
    unfold atomizer.run at h
    injection h with h
    injection h with _ hs
    subst hs
    exact ⟨hwf, rfl⟩
  | cons o ops ih =>
    intro s rs s2 hwf h
    unfold atomizer.run at h
    split at h
    · cases h
    · rename_i r s1 hap
      split at h
      · cases h
      · rename_i rs1 s2a hrun
        injection h with h
        injection h with _ hs
        subst hs
        obtain ⟨hwf1, hd1, _⟩ := apply_ok_window fuel s o r s1 hwf hap
        obtain ⟨hwf2, hd2⟩ := ih s1 rs1 _ hwf1 hrun
        exact ⟨hwf2, hd2.trans hd1⟩

/-- An input recorded in slot j is found in slot j + k after a run with k
`make_block` calls, as long as j + k does not exceed the depth. -/
theorem run_keeps_input (fuel : Nat) (a : hash_t) (ops : List op) :
    ∀ (s : atomizer) (rs : List op_result) (s2 : atomizer) (j : Nat), s.well_formed →
      a ∈ s.m_spent.getD j ∅ →
      atomizer.run fuel s ops = .ok (rs, s2) →
      j + count_make_block ops ≤ s.m_spent_cache_depth →
      a ∈ s2.m_spent.getD (j + count_make_block ops) ∅ := by
  induction ops with
  | nil =>
    intro s rs s2 j _ ha h _
    unfold atomizer.run at h
    injection h with h
    injection h with _ hs
    subst hs
    simpa [count_make_block] using ha
  | cons o ops ih =>
    intro s rs s2 j hwf ha h hk
    rw [count_make_block_cons] at hk ⊢
    unfold atomizer.run at h
    split at h
    · cases h
    · rename_i r s1 hap
      split at h
      · cases h
      · rename_i rs1 s2a hrun
        injection h with h
        injection h with _ hs
        subst hs
        obtain ⟨hwf1, hd1, hcase⟩ := apply_ok_window fuel s o r s1 hwf hap
        rcases hcase with ⟨ho, _, hlow⟩ | ⟨ho, hrest, slot0, hs0, hslot⟩
        · subst ho
          simp only [if_true] at hk ⊢
          have ha1 : a ∈ s1.m_spent.getD (j + 1) ∅ := by
            have := hlow (j + 1) (by omega) (by omega)
            simp only [Nat.add_sub_cancel] at this
            simpa [List.getD, this] using ha
          have := ih s1 rs1 _ (j + 1) hwf1 ha1 hrun (by omega)
          have e : j + (1 + count_make_block ops) = j + 1 + count_make_block ops := by omega
          rw [e]
          exact this
        · simp only [ho, if_false, Nat.zero_add] at hk ⊢
          have ha1 : a ∈ s1.m_spent.getD j ∅ := by
            by_cases hj : 1 ≤ j
            · have := hrest j hj
              simpa [List.getD, this] using ha
            · have hj0 : j = 0 := by omega
              subst hj0
              have ha0 : a ∈ slot0 := by simpa [List.getD, hs0] using ha
              rcases hslot with h1 | ⟨_, tx, _, _, h1⟩
              · simpa [List.getD, h1] using ha0
              · rw [getD_of_getElem? _ _ _ h1]
                exact Finset.mem_union_left _ ha0
          exact ih s1 rs1 _ j hwf1 ha1 hrun (by omega)

/-- When no accepted transaction of a run has the input a, the slots below n
that are free of a before the run give the slots below n + k free of a after
it, k being the number of `make_block` calls. -/
theorem run_frees_input (fuel : Nat) (a : hash_t) (ops : List op) :
    ∀ (s : atomizer) (rs : List op_result) (s2 : atomizer) (n : Nat), s.well_formed →
      (∀ i, i < n → a ∉ s.m_spent.getD i ∅) →
      atomizer.run fuel s ops = .ok (rs, s2) →
      (∀ t ∈ accepted_txs ops rs, a ∉ t.m_inputs) →
      ∀ i, i < n + count_make_block ops → a ∉ s2.m_spent.getD i ∅ := by
  induction ops with
  | nil =>
    intro s rs s2 n _ hfree h _ i hi
    unfold atomizer.run at h
    injection h with h
    injection h with _ hs
    subst hs
    exact hfree i (by simpa [count_make_block] using hi)
  | cons o ops ih =>
    intro s rs s2 n hwf hfree h hacc i hi
    rw [count_make_block_cons] at hi
    unfold atomizer.run at h
    split at h
    · cases h
    · rename_i r s1 hap
      split at h
      · cases h
      · rename_i rs1 s2a hrun
        injection h with h
        injection h with hrs hs
        subst hs hrs
        obtain ⟨hwf1, hd1, hcase⟩ := apply_ok_window fuel s o r s1 hwf hap
        have hacc1 : ∀ t ∈ accepted_txs ops rs1, a ∉ t.m_inputs :=
          fun t ht => hacc t (accepted_txs_tail o r ops rs1 t ht)
        rcases hcase with ⟨ho, hz, hlow⟩ | ⟨ho, hrest, slot0, hs0, hslot⟩
        · subst ho
          simp only [if_true] at hi
          have hfree1 : ∀ i, i < n + 1 → a ∉ s1.m_spent.getD i ∅ := by
            intro i hi
            by_cases hi0 : i = 0
            · subst hi0
              simp [List.getD, hz]
            · by_cases hid : i ≤ s.m_spent_cache_depth
              · have := hlow i (by omega) hid
                have hprev := hfree (i - 1) (by omega)
                simpa [List.getD, this] using hprev
              · have hnone : s1.m_spent[i]? = none :=
                  List.getElem?_eq_none (by have := hwf1.1; omega)
                simp [List.getD, hnone]
          exact ih s1 rs1 _ (n + 1) hwf1 hfree1 hrun hacc1 i (by omega)
        · simp only [ho, if_false, Nat.zero_add] at hi
          have hfree1 : ∀ i, i < n → a ∉ s1.m_spent.getD i ∅ := by
            intro i hi
            by_cases hj : 1 ≤ i
            · have := hrest i hj
              simpa [List.getD, this] using hfree i hi
            · have hj0 : i = 0 := by omega
              subst hj0
              have ha0 : a ∉ slot0 := by simpa [List.getD, hs0] using hfree 0 hi
              rcases hslot with h1 | ⟨oa, tx, ho1, hr1, h1⟩
              · simpa [List.getD, h1] using ha0
              · subst ho1 hr1
                have hin : a ∉ tx.m_inputs :=
                  hacc tx (by simp [accepted_txs])
                rw [getD_of_getElem? _ _ _ h1]
                simp only [Finset.mem_union, List.mem_toFinset]
                exact fun hh => hh.elim ha0 hin
          exact ih s1 rs1 _ n hwf1 hfree1 hrun hacc1 i hi

/-! ## Scenarios -/

/-- A call that returns, followed by a run that returns, is a run that returns. -/
theorem results_and_height_cons_ok (fuel : Nat) (s s1 : atomizer) (o : op) (ops : List op)
    (r : op_result) (rs : List op_result) (height : Nat)
    (h1 : s.apply fuel o = .ok (r, s1))
    (h2 : s1.results_and_height fuel ops = .ok (rs, height)) :
    s.results_and_height fuel (o :: ops) = .ok (r :: rs, height) := by
  unfold atomizer.results_and_height at h2 ⊢
  rw [atomizer.run, h1]
  simp only
  split at h2
  · cases h2
  · rename_i rs1 s2 hrun
    injection h2 with h2
    injection h2 with hrs hh
    subst hrs hh
    rfl

/-- An `insert_complete` that returns, as a call. -/
theorem apply_insert_complete_ok (fuel : Nat) (s s1 : atomizer) (oa : Nat) (tx : compact_tx)
    (err : Option tx_error) (h : s.insert_complete fuel oa tx = .ok (err, s1)) :
    s.apply fuel (.insert_complete oa tx) = .ok (.inserted err, s1) := by
  rw [atomizer.apply, h]

/-- A `make_block` that returns, as a call. -/
theorem apply_make_block_ok (fuel : Nat) (s s1 : atomizer) (height : Nat)
    (h : s.make_block = .ok (height, s1)) :
    s.apply fuel .make_block = .ok (.block_made height, s1) := by
  rw [atomizer.apply, h]

/-- First step of the scenario, on any instance of height 10 and depth 2 with an
empty window: a transaction with the single input a and attestation height 8
is accepted. -/
theorem scenario_accept (fuel : Nat) (id a : hash_t) (s : atomizer) (oa : Nat)
    (h1 : s.m_spent = [∅, ∅, ∅]) (h2 : s.m_best_height = 10) (h3 : s.m_spent_cache_depth = 2)
    (hoa : oa = 8) :
    s.insert_complete (fuel + 4) oa ⟨id, [a]⟩ =
      .ok (none,
        { s with
          m_spent := [{a}, ∅, ∅]
          m_complete_txs := s.m_complete_txs ++ [⟨id, [a]⟩]
          m_event_sampler := event_sampler_append s.m_event_sampler .insert_complete }) := by
  have hoff : s.get_notification_offset oa = 2 := by
    unfold atomizer.get_notification_offset
    rw [h2, hoa]
    rfl
  have hscan : check_offsets [∅, ∅, ∅] [a] 2 (fuel + 4) 0 ∅ = .ok ∅ := by
    simp only [check_offsets, check_inputs, u64_mod]
    norm_num
  simp only [atomizer.insert_complete, atomizer.check_notification_offset,
    atomizer.check_stxo_cache, add_tx_to_stxo_cache, h1, hoff, h3, hscan]
  simp

/-- Second step of the scenario: with a in slot 0 the same submission is
rejected with the set {a}. -/
theorem scenario_reject (fuel : Nat) (id a : hash_t) (s : atomizer) (oa : Nat)
    (h1 : s.m_spent = [{a}, ∅, ∅]) (h2 : s.m_best_height = 10)
    (h3 : s.m_spent_cache_depth = 2) (hoa : oa = 8) :
    s.insert_complete (fuel + 4) oa ⟨id, [a]⟩ =
      .ok (some ⟨id, .tx_error_inputs_spent {a}⟩,
        { s with
          m_event_sampler := event_sampler_append s.m_event_sampler .discarded_spent }) := by
  have hoff : s.get_notification_offset oa = 2 := by
    unfold atomizer.get_notification_offset
    rw [h2, hoa]
    rfl
  have hscan : check_offsets [{a}, ∅, ∅] [a] 2 (fuel + 4) 0 ∅ = .ok {a} := by
    simp only [check_offsets, check_inputs, u64_mod]
    norm_num
  simp only [atomizer.insert_complete, atomizer.check_notification_offset,
    atomizer.check_stxo_cache, h1, hoff, h3, hscan]
  simp

/-- A `make_block` step of the scenario, on any instance of depth 2 with three
slots, at a height n below the largest `uint64_t`. -/
theorem scenario_make_block (s : atomizer) (n : Nat) (x y z : Finset hash_t)
    (h1 : s.m_spent = [x, y, z]) (h2 : s.m_spent_cache_depth = 2)
    (h3 : s.m_best_height = n) (hn : n + 1 < u64_mod) :
    s.make_block =
      .ok (n + 1,
        { m_blocks := unordered_map_insert s.m_blocks (n + 1) ⟨n + 1, s.m_complete_txs⟩
          m_complete_txs := []
          m_spent := [∅, x, y]
          m_best_height := n + 1
          m_spent_cache_depth := 2
          m_event_sampler := event_sampler_append_count s.m_event_sampler .make_block
            s.m_complete_txs.length }) := by
  simp [atomizer.make_block, rotate_spent, h1, h2, h3, Nat.mod_eq_of_lt hn]

/-- Last step of the scenario: at height 13 and depth 2 the attestation height
8 is too stale. -/
theorem scenario_stale (fuel : Nat) (id a : hash_t) (s : atomizer) (oa : Nat)
    (h2 : s.m_best_height = 13) (h3 : s.m_spent_cache_depth = 2) (hoa : oa = 8) :
    s.insert_complete fuel oa ⟨id, [a]⟩ =
      .ok (some ⟨id, .tx_error_stxo_range⟩,
        { s with
          m_event_sampler := event_sampler_append s.m_event_sampler .discarded_expired }) := by
  have hoff : s.get_notification_offset oa = 5 := by
    unfold atomizer.get_notification_offset
    rw [h2, hoa]
    rfl
  simp [atomizer.insert_complete, atomizer.check_notification_offset, hoff, h3]

/-- C8: on an instance constructed with height 10 and depth 2, for a
transaction whose only input is a: `insert_complete(8, t)` returns no error, a
second `insert_complete(8, t)` returns `InputsSpent` with the set {a}, three
`make_block` calls return 11, 12 and 13 and leave `height()` at 13, and a
further `insert_complete(8, t)` returns `StxoRange` (the fuel covers the three
rounds of the scan). -/
theorem concrete_scenario (fuel : Nat) (id a : hash_t) :
    (atomizer.construct 10 2).results_and_height (fuel + 4)
        [.insert_complete 8 ⟨id, [a]⟩, .insert_complete 8 ⟨id, [a]⟩, .make_block,
          .make_block, .make_block] =
      .ok ([.inserted none, .inserted (some ⟨id, .tx_error_inputs_spent {a}⟩),
          .block_made 11, .block_made 12, .block_made 13], 13) ∧
    (atomizer.construct 10 2).results_and_height (fuel + 4)
        [.insert_complete 8 ⟨id, [a]⟩, .insert_complete 8 ⟨id, [a]⟩, .make_block,
          .make_block, .make_block, .insert_complete 8 ⟨id, [a]⟩] =
      .ok ([.inserted none, .inserted (some ⟨id, .tx_error_inputs_spent {a}⟩),
          .block_made 11, .block_made 12, .block_made 13,
          .inserted (some ⟨id, .tx_error_stxo_range⟩)], 13) := by
  constructor
  · refine results_and_height_cons_ok _ _ _ _ _ _ _ _ (apply_insert_complete_ok _ _ _ _ _ _
      (scenario_accept fuel id a _ 8 rfl rfl rfl rfl)) ?_
    refine results_and_height_cons_ok _ _ _ _ _ _ _ _ (apply_insert_complete_ok _ _ _ _ _ _
      (scenario_reject fuel id a _ 8 rfl rfl rfl rfl)) ?_
    refine results_and_height_cons_ok _ _ _ _ _ _ _ _ (apply_make_block_ok _ _ _ _
      (scenario_make_block _ 10 _ _ _ rfl rfl rfl (by decide))) ?_
    refine results_and_height_cons_ok _ _ _ _ _ _ _ _ (apply_make_block_ok _ _ _ _
      (scenario_make_block _ 11 _ _ _ rfl rfl rfl (by decide))) ?_
    refine results_and_height_cons_ok _ _ _ _ _ _ _ _ (apply_make_block_ok _ _ _ _
      (scenario_make_block _ 12 _ _ _ rfl rfl rfl (by decide))) ?_
    rfl
  · refine results_and_height_cons_ok _ _ _ _ _ _ _ _ (apply_insert_complete_ok _ _ _ _ _ _
      (scenario_accept fuel id a _ 8 rfl rfl rfl rfl)) ?_
    refine results_and_height_cons_ok _ _ _ _ _ _ _ _ (apply_insert_complete_ok _ _ _ _ _ _
      (scenario_reject fuel id a _ 8 rfl rfl rfl rfl)) ?_
    refine results_and_height_cons_ok _ _ _ _ _ _ _ _ (apply_make_block_ok _ _ _ _
      (scenario_make_block _ 10 _ _ _ rfl rfl rfl (by decide))) ?_
    refine results_and_height_cons_ok _ _ _ _ _ _ _ _ (apply_make_block_ok _ _ _ _
      (scenario_make_block _ 11 _ _ _ rfl rfl rfl (by decide))) ?_
    refine results_and_height_cons_ok _ _ _ _ _ _ _ _ (apply_make_block_ok _ _ _ _
      (scenario_make_block _ 12 _ _ _ rfl rfl rfl (by decide))) ?_
    refine results_and_height_cons_ok _ _ _ _ _ _ _ _ (apply_insert_complete_ok _ _ _ _ _ _
      (scenario_stale (fuel + 4) id a _ 8 rfl rfl rfl)) ?_
    rfl

/-! ## The block store in `make_block` -/

/-- C9, refuted as stated: in `restored_state` the pending queue holds the
transaction 2, the block store already holds a block under key 11, and
`make_block` returns 11 while `get_block(11)` still yields the old block with
the transaction 1, not the pending queue. -/
theorem make_block_keeps_existing_block :
    restored_state.m_complete_txs = [⟨2, [6]⟩] ∧
      make_block_then_get_block restored_state = .ok (11, some ⟨11, [⟨1, [5]⟩]⟩, 0) ∧
      (some ⟨11, [⟨1, [5]⟩]⟩ : Option block) ≠ some ⟨11, restored_state.m_complete_txs⟩ :=
  ⟨rfl, rfl, by decide⟩

/-- C9, amended: when the window has the slots `0 .. depth` and the block store
holds no block under the key h = (current height + 1) mod 2^64, `make_block`
returns h, afterwards `get_block(h)` yields the block of height h whose
transactions are the pending queue as it was before the call, the pending queue
is empty and `height()` is h; h is current height + 1 unless the height was the
largest `uint64_t`. -/
theorem make_block_stores_pending (s : atomizer)
    (hlen : s.m_spent_cache_depth < s.m_spent.length)
    (hfree : s.m_blocks ((s.m_best_height + 1) % u64_mod) = none) :
    ∃ s1, s.make_block = .ok ((s.m_best_height + 1) % u64_mod, s1) ∧
      s1.get_block ((s.m_best_height + 1) % u64_mod) =
        some ⟨(s.m_best_height + 1) % u64_mod, s.m_complete_txs⟩ ∧
      s1.m_complete_txs = [] ∧ s1.pending_transactions = 0 ∧
      s1.height = (s.m_best_height + 1) % u64_mod ∧
      (s.m_best_height + 1 < u64_mod →
        (s.m_best_height + 1) % u64_mod = s.m_best_height + 1) := by
  obtain ⟨spent1, hmk, _⟩ := make_block_ok s hlen
  refine ⟨_, hmk, ?_, rfl, rfl, rfl, fun h => Nat.mod_eq_of_lt h⟩
  simp only [atomizer.get_block, unordered_map_insert, if_true, hfree]

/-- C9 amended, at a concrete state: a fresh instance of height 10 and depth 0
with one pending transaction. -/
theorem make_block_stores_pending_witness :
    ∃ s1, atomizer.make_block
          { atomizer.construct 10 0 with m_complete_txs := [⟨2, [6]⟩], m_spent := [{6}] } =
        .ok ((10 + 1) % u64_mod, s1) ∧
      s1.get_block ((10 + 1) % u64_mod) = some ⟨(10 + 1) % u64_mod, [⟨2, [6]⟩]⟩ ∧
      s1.m_complete_txs = [] ∧ s1.pending_transactions = 0 ∧
      s1.height = (10 + 1) % u64_mod ∧
      (10 + 1 < u64_mod → (10 + 1) % u64_mod = 10 + 1) :=
  make_block_stores_pending
    { atomizer.construct 10 0 with m_complete_txs := [⟨2, [6]⟩], m_spent := [{6}] }
    (by decide) rfl

/-! ## Conflict detection and eviction -/

/-- Whatever the inner loop adds to the set was found in the slot it reads. -/
theorem check_inputs_sound (spent : List (Finset hash_t)) (offset : Nat)
    (inputs : List hash_t) :
    ∀ (err_set E : Finset hash_t), check_inputs spent offset inputs err_set = .ok E →
      ∀ x ∈ E, x ∈ err_set ∨ x ∈ spent.getD offset ∅ := by
  induction inputs with
  | nil =>
    intro err_set E h x hx
    unfold check_inputs at h
    injection h with h
    subst h
    exact Or.inl hx
  | cons inp rest ih =>
    intro err_set E h x hx
    unfold check_inputs at h
    split at h
    · cases h
    · rename_i slot hslot
      rcases ih _ E h x hx with h1 | h1
      · by_cases hin : inp ∈ slot
        · simp only [hin, if_true, Finset.mem_insert] at h1
          rcases h1 with rfl | h1
          · right
            rw [getD_of_getElem? _ _ _ hslot]
            exact hin
          · exact Or.inl h1
        · simp only [hin, if_false] at h1
          exact Or.inl h1
      · exact Or.inr h1

/-- Whatever the scan returns, for any fuel and any window: an element of the
returned set was in the set at entry or is in some slot of the window. -/
theorem check_offsets_sound (spent : List (Finset hash_t)) (inputs : List hash_t)
    (cache_check_range : Nat) (fuel : Nat) :
    ∀ (offset : Nat) (err_set E : Finset hash_t),
      check_offsets spent inputs cache_check_range fuel offset err_set = .ok E →
      ∀ x ∈ E, x ∈ err_set ∨ ∃ i, x ∈ spent.getD i ∅ := by
  induction fuel with
  | zero =>
    intro offset err_set E h
    simp [check_offsets] at h
  | succ fuel ih =>
    intro offset err_set E h x hx
    unfold check_offsets at h
    split at h
    · split at h
      · cases h
      · rename_i err1 hin
        rcases ih _ _ E h x hx with h1 | h1
        · rcases check_inputs_sound spent offset inputs err_set err1 hin x h1 with h2 | h2
          · exact Or.inl h2
          · exact Or.inr ⟨offset, h2⟩
        · exact Or.inr h1
    · injection h with h
      subst h
      exact Or.inl hx


/-- The window of an instance after an accepted `insert_complete` is well
formed, with the same depth, and its slot 0 holds the inputs of the
transaction. -/
theorem insert_complete_accepted_window (fuel : Nat) (s s1 : atomizer) (oa : Nat)
    (tx : compact_tx) (hwf : s.well_formed)
    (hins : s.insert_complete fuel oa tx = .ok (none, s1)) :
    s1.well_formed ∧ s1.m_spent_cache_depth = s.m_spent_cache_depth ∧
      ∀ a ∈ tx.m_inputs, a ∈ s1.m_spent.getD 0 ∅ := by
  rcases insert_complete_ok_cases fuel s oa tx _ _ hins with
    ⟨hr, _⟩ | ⟨E, hr, _, _⟩ | ⟨_, slot, hslot, hs⟩
  · cases hr
  · cases hr
  · subst hs
    obtain ⟨hlen, hrep⟩ := hwf
    have hpos : 0 < s.m_spent.length := by omega
    refine ⟨⟨?_, ?_⟩, rfl, ?_⟩
    · simpa only [List.length_set] using hlen
    · simpa only [List.length_set] using hrep
    · intro a ha
      have h0 : (s.m_spent.set 0 (slot ∪ tx.m_inputs.toFinset))[0]? =
          some (slot ∪ tx.m_inputs.toFinset) := by
        simp only [List.getElem?_set, hpos, if_true]
      show a ∈ (s.m_spent.set 0 (slot ∪ tx.m_inputs.toFinset)).getD 0 ∅
      rw [getD_of_getElem? _ _ _ h0]
      exact Finset.mem_union_right _ (List.mem_toFinset.mpr ha)

/-- C6, refuted as stated: after a transaction with input 7 was accepted at
height 10 (depth 2) and one `make_block`, a submission with input 7 and
attestation height 11 (offset 0, below the slot that holds 7) is accepted; and
with no `make_block` at all, a submission with input 7 and attestation height
7 (offset 3, beyond the depth) gets `StxoRange`, not `InputsSpent`. -/
theorem conflict_detection_needs_offset_in_range :
    (atomizer.construct 10 2).results_and_height 4
        [.insert_complete 10 ⟨100, [7]⟩, .make_block, .insert_complete 11 ⟨101, [7]⟩] =
      .ok ([.inserted none, .block_made 11, .inserted none], 11) ∧
    (atomizer.construct 10 2).results_and_height 4
        [.insert_complete 10 ⟨100, [7]⟩, .insert_complete 7 ⟨101, [7]⟩] =
      .ok ([.inserted none, .inserted (some ⟨101, .tx_error_stxo_range⟩)], 10) :=
  ⟨rfl, rfl⟩

/-- C6, amended: on a well-formed window, if a transaction with input a is
accepted and a run of calls with k `make_block` calls follows, k at most the
depth, then every `insert_complete` of a transaction whose inputs contain a and
whose height offset lies between k and the depth returns `InputsSpent` with a
set that contains a (the fuel covers the rounds of the scan). -/
theorem conflict_detection (fuel fuel2 : Nat) (s s1 s2 : atomizer) (oa oa2 : Nat)
    (tx tx2 : compact_tx) (a : hash_t) (ops : List op) (rs : List op_result)
    (hwf : s.well_formed) (ha : a ∈ tx.m_inputs)
    (hins : s.insert_complete fuel oa tx = .ok (none, s1))
    (hrun : atomizer.run fuel s1 ops = .ok (rs, s2))
    (hk : count_make_block ops ≤ s.m_spent_cache_depth)
    (ha2 : a ∈ tx2.m_inputs)
    (hlo : count_make_block ops ≤ s2.get_notification_offset oa2)
    (hhi : s2.get_notification_offset oa2 ≤ s2.m_spent_cache_depth)
    (hfuel : s2.get_notification_offset oa2 + 2 ≤ fuel2) :
    ∃ E, s2.insert_complete fuel2 oa2 tx2 =
        .ok (some ⟨tx2.m_id, .tx_error_inputs_spent E⟩,
          { s2 with
            m_event_sampler := event_sampler_append s2.m_event_sampler .discarded_spent }) ∧
      a ∈ E := by
  obtain ⟨hwf1, hd1, hslot0⟩ := insert_complete_accepted_window fuel s s1 oa tx hwf hins
  obtain ⟨hwf2, _⟩ := run_ok_well_formed fuel ops s1 rs s2 hwf1 hrun
  have hin := run_keeps_input fuel a ops s1 rs s2 0 hwf1 (hslot0 a ha) hrun (by omega)
  rw [Nat.zero_add] at hin
  have hS : a ∈ colliding_inputs s2.m_spent tx2.m_inputs
      (s2.get_notification_offset oa2) := by
    unfold colliding_inputs
    simp only [Finset.mem_filter, List.mem_toFinset]
    exact ⟨ha2, count_make_block ops, hlo, hin⟩
  have hne : colliding_inputs s2.m_spent tx2.m_inputs
      (s2.get_notification_offset oa2) ≠ ∅ := Finset.ne_empty_of_mem hS
  refine ⟨_, ?_, hS⟩
  rw [insert_complete_within_depth fuel2 s2 oa2 tx2 hwf2 hhi hfuel, if_pos hne]

/-- C6 amended, at a concrete run: input 7 accepted at height 10 (depth 2), one
`make_block`, then a submission with the inputs 7 and 9 and attestation height
10 (offset 1). -/
theorem conflict_detection_witness :
    ∃ E, atomizer.insert_complete 4
          (atomizer.state_after 4 (atomizer.construct 10 2)
            [.insert_complete 10 ⟨100, [7]⟩, .make_block]) 10 ⟨101, [7, 9]⟩ =
        .ok (some ⟨101, .tx_error_inputs_spent E⟩,
          { atomizer.state_after 4 (atomizer.construct 10 2)
              [.insert_complete 10 ⟨100, [7]⟩, .make_block] with
            m_event_sampler := event_sampler_append
              (atomizer.state_after 4 (atomizer.construct 10 2)
                [.insert_complete 10 ⟨100, [7]⟩, .make_block]).m_event_sampler
              .discarded_spent }) ∧
      7 ∈ E :=
  conflict_detection 4 4 (atomizer.construct 10 2)
    (atomizer.state_after 4 (atomizer.construct 10 2) [.insert_complete 10 ⟨100, [7]⟩])
    (atomizer.state_after 4 (atomizer.construct 10 2)
      [.insert_complete 10 ⟨100, [7]⟩, .make_block])
    10 10 ⟨100, [7]⟩ ⟨101, [7, 9]⟩ 7 [.make_block] [.block_made 11]
    (by decide) (by decide) rfl rfl (by decide) (by decide) (by decide) (by decide)
    (by decide)


/-- C7: on a well-formed window, if a transaction with input a is accepted and
a run of calls follows that holds exactly depth + 1 `make_block` calls and in
which no accepted transaction has the input a, then a is in no slot of the
window; for a later `insert_complete` of a transaction containing a: an
`InputsSpent` error never carries a; the call returns `StxoRange` when the
height offset exceeds the depth; and the transaction is accepted when the
height offset is within the depth and none of its other inputs is in the
scanned slots (the fuel covers the rounds of the scan). -/
theorem window_eviction (fuel : Nat) (s s1 s2 : atomizer) (oa : Nat) (tx : compact_tx)
    (a : hash_t) (ops : List op) (rs : List op_result)
    (hwf : s.well_formed) (_ha : a ∈ tx.m_inputs)
    (hins : s.insert_complete fuel oa tx = .ok (none, s1))
    (hrun : atomizer.run fuel s1 ops = .ok (rs, s2))
    (hk : count_make_block ops = s.m_spent_cache_depth + 1)
    (hacc : ∀ t ∈ accepted_txs ops rs, a ∉ t.m_inputs) :
    (∀ slot ∈ s2.m_spent, a ∉ slot) ∧
      ∀ (fuel2 oa2 : Nat) (tx2 : compact_tx), a ∈ tx2.m_inputs →
        (∀ err s3, s2.insert_complete fuel2 oa2 tx2 = .ok (some err, s3) →
          ∀ E, err.m_info = .tx_error_inputs_spent E → a ∉ E) ∧
        (s2.m_spent_cache_depth < s2.get_notification_offset oa2 →
          s2.insert_complete fuel2 oa2 tx2 =
            .ok (some ⟨tx2.m_id, .tx_error_stxo_range⟩,
              { s2 with
                m_event_sampler :=
                  event_sampler_append s2.m_event_sampler .discarded_expired })) ∧
        (s2.get_notification_offset oa2 ≤ s2.m_spent_cache_depth →
          s2.get_notification_offset oa2 + 2 ≤ fuel2 →
          (∀ b ∈ tx2.m_inputs, b ≠ a →
            ∀ i, i ≤ s2.get_notification_offset oa2 → b ∉ s2.m_spent.getD i ∅) →
          s2.insert_complete fuel2 oa2 tx2 =
            .ok (none,
              { s2 with
                m_spent := s2.m_spent.set 0 (s2.m_spent.getD 0 ∅ ∪ tx2.m_inputs.toFinset)
                m_complete_txs := s2.m_complete_txs ++ [tx2]
                m_event_sampler :=
                  event_sampler_append s2.m_event_sampler .insert_complete })) := by
  obtain ⟨hwf1, hd1, _⟩ := insert_complete_accepted_window fuel s s1 oa tx hwf hins
  obtain ⟨hwf2, hd2⟩ := run_ok_well_formed fuel ops s1 rs s2 hwf1 hrun
  have hfree := run_frees_input fuel a ops s1 rs s2 0 hwf1 (fun i hi => absurd hi (by omega))
    hrun hacc
  have hnone : ∀ i, a ∉ s2.m_spent.getD i ∅ := by
    intro i
    by_cases hi : i < s2.m_spent.length
    · exact hfree i (by have := hwf2.1; omega)
    · have : s2.m_spent[i]? = none := List.getElem?_eq_none (by omega)
      simp [List.getD, this]
  refine ⟨?_, ?_⟩
  · intro slot hslot
    obtain ⟨i, hi, hget⟩ := List.getElem_of_mem hslot
    have h1 : s2.m_spent[i]? = some slot := by
      rw [List.getElem?_eq_getElem hi, hget]
    have := hnone i
    rwa [getD_of_getElem? _ _ _ h1] at this
  · intro fuel2 oa2 tx2 ha2
    refine ⟨?_, ?_, ?_⟩
    · intro err s3 h E hE hmem
      rcases insert_complete_ok_cases fuel2 s2 oa2 tx2 _ _ h with
        ⟨hr, _⟩ | ⟨E1, hr, hscan, _⟩ | ⟨hr, _⟩
      · injection hr with hr
        subst hr
        cases hE
      · injection hr with hr
        subst hr
        injection hE with hE
        subst hE
        rcases check_offsets_sound _ _ _ _ _ _ _ hscan a hmem with h1 | ⟨i, h1⟩
        · simp at h1
        · exact hnone i h1
      · cases hr
    · intro hstale
      have hin : tx2.m_inputs ≠ [] := List.ne_nil_of_mem ha2
      unfold atomizer.insert_complete atomizer.check_notification_offset
      simp only [gt_iff_lt, hstale, hin, ne_eq, not_false_eq_true, and_self, if_true]
    · intro hoff hfuel hothers
      have hS : colliding_inputs s2.m_spent tx2.m_inputs
          (s2.get_notification_offset oa2) = ∅ := by
        apply Finset.eq_empty_of_forall_not_mem
        intro b hb
        unfold colliding_inputs at hb
        simp only [Finset.mem_filter, List.mem_toFinset] at hb
        obtain ⟨hb1, i, hi, hbi⟩ := hb
        by_cases hba : b = a
        · subst hba
          exact hnone i hbi
        · exact hothers b hb1 hba i hi hbi
      rw [insert_complete_within_depth fuel2 s2 oa2 tx2 hwf2 hoff hfuel,
        if_neg (not_not.mpr hS)]


/-- C7, at a concrete run: input 7 accepted at height 10 (depth 2), then three
`make_block` calls with a transaction with the input 8 accepted in between. -/
theorem window_eviction_witness :
    (∀ slot ∈ demo_evicted.m_spent, 7 ∉ slot) ∧
      ∀ (fuel2 oa2 : Nat) (tx2 : compact_tx), 7 ∈ tx2.m_inputs →
        (∀ err s3, demo_evicted.insert_complete fuel2 oa2 tx2 = .ok (some err, s3) →
          ∀ E, err.m_info = .tx_error_inputs_spent E → 7 ∉ E) ∧
        (demo_evicted.m_spent_cache_depth < demo_evicted.get_notification_offset oa2 →
          demo_evicted.insert_complete fuel2 oa2 tx2 =
            .ok (some ⟨tx2.m_id, .tx_error_stxo_range⟩,
              { demo_evicted with
                m_event_sampler :=
                  event_sampler_append demo_evicted.m_event_sampler .discarded_expired })) ∧
        (demo_evicted.get_notification_offset oa2 ≤ demo_evicted.m_spent_cache_depth →
          demo_evicted.get_notification_offset oa2 + 2 ≤ fuel2 →
          (∀ b ∈ tx2.m_inputs, b ≠ 7 →
            ∀ i, i ≤ demo_evicted.get_notification_offset oa2 →
              b ∉ demo_evicted.m_spent.getD i ∅) →
          demo_evicted.insert_complete fuel2 oa2 tx2 =
            .ok (none,
              { demo_evicted with
                m_spent := demo_evicted.m_spent.set 0
                  (demo_evicted.m_spent.getD 0 ∅ ∪ tx2.m_inputs.toFinset)
                m_complete_txs := demo_evicted.m_complete_txs ++ [tx2]
                m_event_sampler :=
                  event_sampler_append demo_evicted.m_event_sampler .insert_complete })) :=
  window_eviction 4 (atomizer.construct 10 2) demo_accepted demo_evicted 10 ⟨100, [7]⟩ 7
    [.make_block, .insert_complete 11 ⟨102, [8]⟩, .make_block, .make_block]
    [.block_made 11, .inserted none, .block_made 12, .block_made 13]
    (by decide) (by decide) rfl rfl (by decide) (by decide)

/-! ## The block store: `get_block` and `prune` -/

/-- Every way `make_block` can return: the window had the slots `0 .. depth`,
the height returned is the incremented height, the block store got the new
block by a non-overwriting insert, and the pending queue is empty. -/
theorem make_block_ok_cases (s : atomizer) (h : Nat) (s1 : atomizer)
    (hmk : s.make_block = .ok (h, s1)) :
    s.m_spent_cache_depth < s.m_spent.length ∧ h = (s.m_best_height + 1) % u64_mod ∧
      s1.m_blocks = unordered_map_insert s.m_blocks h ⟨h, s.m_complete_txs⟩ ∧
      s1.m_complete_txs = [] ∧ s1.m_best_height = h ∧
      s1.m_spent_cache_depth = s.m_spent_cache_depth := by
  have hlen : s.m_spent_cache_depth < s.m_spent.length := by
    unfold atomizer.make_block at hmk
    simp only at hmk
    split at hmk
    · cases hmk
    · rename_i spent hrot
      split at hmk
      · rename_i hpos
        cases hd : s.m_spent_cache_depth with
        | zero =>
          rw [hd] at hrot
          unfold rotate_spent at hrot
          injection hrot with hrot
          subst hrot
          exact hpos
        | succ i =>
          rw [hd] at hrot
          unfold rotate_spent at hrot
          split at hrot
          · cases hrot
          · split at hrot
            · assumption
            · cases hrot
      · cases hmk
  obtain ⟨spent1, hmk1, _⟩ := make_block_ok s hlen
  rw [hmk1] at hmk
  injection hmk with hmk
  injection hmk with h1 h2
  subst h1 h2
  exact ⟨hlen, rfl, rfl, rfl, rfl, rfl⟩

/-- The constructor leaves the block store empty, so every stored block sits
under its height. -/
theorem construct_blocks_keyed (best_height stxo_cache_depth : Nat) :
    (atomizer.construct best_height stxo_cache_depth).blocks_keyed := by
  intro k b h
  simp [atomizer.construct] at h

/-- One call that returns keeps every stored block under its height. -/
theorem apply_ok_blocks_keyed (fuel : Nat) (s : atomizer) (o : op) (r : op_result)
    (s1 : atomizer) (hkey : s.blocks_keyed) (h : s.apply fuel o = .ok (r, s1)) :
    s1.blocks_keyed := by
  cases o with
  | insert_complete oa tx =>
    unfold atomizer.apply at h
    simp only at h
    split at h
    · cases h
    · rename_i err s1a hins
      injection h with h
      injection h with hr hs
      subst hr hs
      rcases insert_complete_ok_cases fuel s oa tx _ _ hins with
        ⟨_, hs⟩ | ⟨E, _, _, hs⟩ | ⟨_, slot, _, hs⟩ <;> subst hs <;> exact hkey
  | make_block =>
    unfold atomizer.apply at h
    simp only at h
    split at h
    · cases h
    · rename_i height s1a hmk
      injection h with h
      injection h with hr hs
      subst hr hs
      obtain ⟨_, _, hblocks, _⟩ := make_block_ok_cases s _ _ hmk
      intro k b hb
      rw [hblocks] at hb
      unfold unordered_map_insert at hb
      split at hb
      · rename_i hk
        subst hk
        split at hb
        · rename_i old hold
          injection hb with hb
          subst hb
          exact hkey _ _ hold
        · injection hb with hb
          subst hb
          rfl
      · exact hkey k b hb
  | prune height =>
    unfold atomizer.apply at h
    injection h with h
    injection h with hr hs
    subst hs
    intro k b hb
    unfold atomizer.prune at hb
    simp only at hb
    split at hb
    · rename_i blk hblk
      split at hb
      · cases hb
      · injection hb with hb
        subst hb
        exact hkey k _ hblk
    · cases hb

/-- A run that returns keeps every stored block under its height. -/
theorem run_ok_blocks_keyed (fuel : Nat) (ops : List op) :
    ∀ (s : atomizer) (rs : List op_result) (s2 : atomizer), s.blocks_keyed →
      atomizer.run fuel s ops = .ok (rs, s2) → s2.blocks_keyed := by
  induction ops with
  | nil =>
    intro s rs s2 hkey h
    unfold atomizer.run at h
    injection h with h
    injection h with _ hs
    subst hs
    exact hkey
  | cons o ops ih =>
    intro s rs s2 hkey h
    unfold atomizer.run at h
    split at h
    · cases h
    · rename_i r s1 hap
      split at h
      · cases h
      · rename_i rs1 s2a hrun
        injection h with h
        injection h with _ hs
        subst hs
        exact ih s1 rs1 _ (apply_ok_blocks_keyed fuel s o r s1 hkey hap) hrun

/-- A snapshot load leaves the block store alone, so it keeps every stored block
under its height. -/
theorem deserialize_blocks_keyed (fmt : serializer_format) (s : atomizer) (buf : serializer)
    (hkey : s.blocks_keyed) : (s.deserialize fmt buf).1.blocks_keyed :=
  hkey

/-- C13: when every stored block sits under its height (as in every state the
interface can produce), after `prune(H)` the lookup `get_block(h)` returns
nothing for every h below H and returns what it returned before for every h
from H on. -/
theorem prune_exact (s : atomizer) (H : Nat) (hkey : s.blocks_keyed) :
    (∀ h, h < H → (s.prune H).get_block h = none) ∧
      (∀ h, H ≤ h → (s.prune H).get_block h = s.get_block h) := by
  constructor
  · intro h hlt
    unfold atomizer.prune atomizer.get_block
    simp only
    cases hb : s.m_blocks h with
    | none => rfl
    | some b =>
      have := hkey h b hb
      simp only [this, hlt, if_true]
  · intro h hle
    unfold atomizer.prune atomizer.get_block
    simp only
    cases hb : s.m_blocks h with
    | none => rfl
    | some b =>
      have := hkey h b hb
      have hn : ¬ h < H := by omega
      simp only [this, hn, if_false]

/-- C13, at a concrete state: `restored_state` holds one block, under key 11;
`prune(11)` keeps it and removes nothing else. -/
theorem prune_exact_witness :
    (∀ h, h < 11 → (restored_state.prune 11).get_block h = none) ∧
      (∀ h, 11 ≤ h → (restored_state.prune 11).get_block h = restored_state.get_block h) :=
  prune_exact restored_state 11 (by
    intro k b h
    simp only [restored_state] at h
    split at h
    · rename_i hk
      injection h with h
      subst h hk
      rfl
    · cases h)

/-- C14: `prune(H)` leaves the pending queue, the window, the height and the
depth as they were, and a following `insert_complete` returns the same result as
without the prune, leaving the same instance up to the pruned block store. -/
theorem prune_frame (s : atomizer) (H : Nat) :
    (s.prune H).m_complete_txs = s.m_complete_txs ∧ (s.prune H).m_spent = s.m_spent ∧
      (s.prune H).m_best_height = s.m_best_height ∧
      (s.prune H).m_spent_cache_depth = s.m_spent_cache_depth ∧
      ∀ (fuel oldest_attestation : Nat) (tx : compact_tx),
        (s.prune H).insert_complete fuel oldest_attestation tx =
          match s.insert_complete fuel oldest_attestation tx with
          | .error e => .error e
          | .ok (r, s1) => .ok (r, s1.prune H) := by
  refine ⟨rfl, rfl, rfl, rfl, ?_⟩
  intro fuel oa tx
  unfold atomizer.insert_complete
  have h1 : (s.prune H).get_notification_offset oa = s.get_notification_offset oa := rfl
  have h2 : ∀ k, (s.prune H).check_notification_offset k tx =
      s.check_notification_offset k tx := fun _ => rfl
  have h3 : ∀ k, (s.prune H).check_stxo_cache fuel tx k = s.check_stxo_cache fuel tx k :=
    fun _ => rfl
  have h4 : (s.prune H).m_spent = s.m_spent := rfl
  simp only [h1, h2, h3, h4]
  cases s.check_notification_offset (s.get_notification_offset oa) tx with
  | some e => rfl
  | none =>
    simp only
    cases s.check_stxo_cache fuel tx (s.get_notification_offset oa) with
    | error e => rfl
    | ok r =>
      cases r with
      | some e => rfl
      | none =>
        simp only
        cases add_tx_to_stxo_cache s.m_spent tx with
        | error e => rfl
        | ok spent => rfl


/-- What one call that returns does to a stored block: the block under a key h
stays the same block, provided a `prune` call has an argument of at most h. -/
theorem apply_ok_keeps_block (fuel : Nat) (s : atomizer) (o : op) (r : op_result)
    (s1 : atomizer) (h : Nat) (b : block) (hkey : s.blocks_keyed)
    (hget : s.get_block h = some b) (hap : s.apply fuel o = .ok (r, s1))
    (hprune : ∀ H, o = op.prune H → H ≤ h) : s1.get_block h = some b := by
  cases o with
  | insert_complete oa tx =>
    unfold atomizer.apply at hap
    simp only at hap
    split at hap
    · cases hap
    · rename_i err s1a hins
      injection hap with hap
      injection hap with hr hs
      subst hr hs
      rcases insert_complete_ok_cases fuel s oa tx _ _ hins with
        ⟨_, hs⟩ | ⟨E, _, _, hs⟩ | ⟨_, slot, _, hs⟩ <;> subst hs <;> exact hget
  | make_block =>
    unfold atomizer.apply at hap
    simp only at hap
    split at hap
    · cases hap
    · rename_i height s1a hmk
      injection hap with hap
      injection hap with hr hs
      subst hr hs
      obtain ⟨_, _, hblocks, _⟩ := make_block_ok_cases s _ _ hmk
      unfold atomizer.get_block at hget ⊢
      rw [hblocks]
      unfold unordered_map_insert
      split
      · rename_i hk
        subst hk
        rw [hget]
      · exact hget
  | prune H =>
    unfold atomizer.apply at hap
    injection hap with hap
    injection hap with hr hs
    subst hs
    have hle := hprune H rfl
    have hb := hkey h b hget
    unfold atomizer.get_block at hget ⊢
    unfold atomizer.prune
    simp only [hget]
    have hn : ¬ b.m_height < H := by omega
    simp only [hn, if_false]

/-- C20: when every stored block sits under its height (as in every state the
interface can produce) and `get_block(h)` returns a block b, then after any run
of `insert_complete`, `make_block` and `prune(H)` calls in which every `prune`
has H at most h, `get_block(h)` still returns b, with the same height and the
same transactions. -/
theorem stored_block_retained (fuel : Nat) (h : Nat) (b : block) (ops : List op) :
    ∀ (s : atomizer) (rs : List op_result) (s2 : atomizer), s.blocks_keyed →
      s.get_block h = some b → atomizer.run fuel s ops = .ok (rs, s2) →
      (∀ H, op.prune H ∈ ops → H ≤ h) → s2.get_block h = some b := by
  induction ops with
  | nil =>
    intro s rs s2 _ hget hrun _
    unfold atomizer.run at hrun
    injection hrun with hrun
    injection hrun with _ hs
    subst hs
    exact hget
  | cons o ops ih =>
    intro s rs s2 hkey hget hrun hprune
    unfold atomizer.run at hrun
    split at hrun
    · cases hrun
    · rename_i r s1 hap
      split at hrun
      · cases hrun
      · rename_i rs1 s2a hrun1
        injection hrun with hrun
        injection hrun with _ hs
        subst hs
        have hget1 := apply_ok_keeps_block fuel s o r s1 h b hkey hget hap
          (fun H hH => hprune H (by rw [hH]; exact List.mem_cons_self _ _))
        exact ih s1 rs1 _ (apply_ok_blocks_keyed fuel s o r s1 hkey hap) hget1 hrun1
          (fun H hH => hprune H (List.mem_cons_of_mem _ hH))

/-- C20, at a concrete run: the block under key 11 of `restored_state` survives
an `insert_complete`, a `make_block` (which returns 11 again) and `prune(11)`. -/
theorem stored_block_retained_witness :
    (atomizer.state_after 4 restored_state
        [.insert_complete 10 ⟨3, [9]⟩, .make_block, .prune 11]).get_block 11 =
      some ⟨11, [⟨1, [5]⟩]⟩ :=
  stored_block_retained 4 11 ⟨11, [⟨1, [5]⟩]⟩
    [.insert_complete 10 ⟨3, [9]⟩, .make_block, .prune 11] restored_state
    [.inserted none, .block_made 11, .pruned]
    (atomizer.state_after 4 restored_state
      [.insert_complete 10 ⟨3, [9]⟩, .make_block, .prune 11])
    (by
      intro k b h
      simp only [restored_state] at h
      split at h
      · rename_i hk
        injection h with h
        subst h hk
        rfl
      · cases h)
    rfl rfl (by
      intro H hH
      simp only [List.mem_cons, op.prune.injEq, reduceCtorEq, false_or, List.mem_nil_iff,
        or_false] at hH
      omega)

/-! ## Equality of instances -/

/-- C18: `operator==` holds exactly when the pending queues (as sequences), the
windows (slot by slot), the heights and the depths are equal; the block store
(and the event log) of either side take no part. -/
theorem operator_eq_iff (a b : atomizer) :
    (a.operator_eq b = true ↔
        a.m_complete_txs = b.m_complete_txs ∧ a.m_spent = b.m_spent ∧
          a.m_best_height = b.m_best_height ∧
          a.m_spent_cache_depth = b.m_spent_cache_depth) ∧
      ∀ (blocks : Nat → Option block) (events : List sampled_event),
        atomizer.operator_eq { a with m_blocks := blocks, m_event_sampler := events } b =
            a.operator_eq b ∧
          atomizer.operator_eq a { b with m_blocks := blocks, m_event_sampler := events } =
            a.operator_eq b := by
  refine ⟨?_, fun _ _ => ⟨rfl, rfl⟩⟩
  unfold atomizer.operator_eq
  simp only [Bool.and_eq_true, decide_eq_true_eq]
  tauto


/-! ## The pending queue and the heights over a run -/

/-- Over a run without `make_block` that returns, the pending queue grows by
exactly the accepted transactions, in call order. -/
theorem run_pending_queue (fuel : Nat) (ops : List op) :
    ∀ (s : atomizer) (rs : List op_result) (s2 : atomizer),
      count_make_block ops = 0 → atomizer.run fuel s ops = .ok (rs, s2) →
      s2.m_complete_txs = s.m_complete_txs ++ accepted_txs ops rs := by
  induction ops with
  | nil =>
    intro s rs s2 _ hrun
    unfold atomizer.run at hrun
    injection hrun with hrun
    injection hrun with hrs hs
    subst hs hrs
    simp [accepted_txs]
  | cons o ops ih =>
    intro s rs s2 hcount hrun
    rw [count_make_block_cons] at hcount
    unfold atomizer.run at hrun
    split at hrun
    · cases hrun
    · rename_i r s1 hap
      split at hrun
      · cases hrun
      · rename_i rs1 s2a hrun1
        injection hrun with hrun
        injection hrun with hrs hs
        subst hs hrs
        have ih1 := ih s1 rs1 _ (by omega) hrun1
        cases o with
        | insert_complete oa tx =>
          unfold atomizer.apply at hap
          simp only at hap
          split at hap
          · cases hap
          · rename_i err s1a hins
            injection hap with hap
            injection hap with hr hs
            subst hr hs
            rcases insert_complete_ok_cases fuel s oa tx _ _ hins with
              ⟨hr, hs⟩ | ⟨E, hr, _, hs⟩ | ⟨hr, slot, _, hs⟩
            · subst hs hr
              rw [ih1]
              simp only [accepted_txs]
            · subst hs hr
              rw [ih1]
              simp only [accepted_txs]
            · subst hs hr
              rw [ih1]
              simp only [accepted_txs, List.append_assoc, List.singleton_append]
        | make_block =>
          simp only [if_true] at hcount
          omega
        | prune H =>
          unfold atomizer.apply at hap
          injection hap with hap
          injection hap with hr hs
          subst hr hs
          rw [ih1]
          simp only [accepted_txs]
          rfl

/-- C19: from a well-formed instance with an empty pending queue, after a run
of `insert_complete` calls (`prune` calls may be mixed in) that returns, the
pending queue is the sequence of the accepted transactions in call order,
`pending_transactions()` is their number, and the next `make_block` returns and
hands to the block store a block with exactly that sequence; `get_block` yields
it when the key was free. -/
theorem fifo_block_assembly (fuel : Nat) (s : atomizer) (ops : List op)
    (rs : List op_result) (s2 : atomizer) (hwf : s.well_formed)
    (hempty : s.m_complete_txs = []) (hops : count_make_block ops = 0)
    (hrun : atomizer.run fuel s ops = .ok (rs, s2)) :
    s2.m_complete_txs = accepted_txs ops rs ∧
      s2.pending_transactions = (accepted_txs ops rs).length ∧
      ∃ s3, s2.make_block = .ok ((s2.m_best_height + 1) % u64_mod, s3) ∧
        s3.m_blocks = unordered_map_insert s2.m_blocks ((s2.m_best_height + 1) % u64_mod)
          ⟨(s2.m_best_height + 1) % u64_mod, accepted_txs ops rs⟩ ∧
        (s2.m_blocks ((s2.m_best_height + 1) % u64_mod) = none →
          s3.get_block ((s2.m_best_height + 1) % u64_mod) =
            some ⟨(s2.m_best_height + 1) % u64_mod, accepted_txs ops rs⟩) := by
  have hq := run_pending_queue fuel ops s rs s2 hops hrun
  rw [hempty, List.nil_append] at hq
  obtain ⟨hwf2, _⟩ := run_ok_well_formed fuel ops s rs s2 hwf hrun
  obtain ⟨spent1, hmk, _⟩ := make_block_ok s2 (by have := hwf2.1; omega)
  refine ⟨hq, ?_, _, hmk, ?_, ?_⟩
  · unfold atomizer.pending_transactions
    rw [hq]
  · show unordered_map_insert _ _ _ = _
    rw [hq]
  · intro hfree
    show unordered_map_insert _ _ _ _ = _
    simp only [unordered_map_insert, if_true, hfree, hq]

/-- C19, at a concrete run: on a fresh instance of height 10 and depth 2, the
transactions 100 and 102 are accepted and 101 (which spends the input of 100
again) is rejected in between. -/
theorem fifo_block_assembly_witness :
    (atomizer.state_after 4 (atomizer.construct 10 2)
        [.insert_complete 10 ⟨100, [7]⟩, .insert_complete 10 ⟨101, [7]⟩,
          .insert_complete 10 ⟨102, [8]⟩]).m_complete_txs =
      [⟨100, [7]⟩, ⟨102, [8]⟩] :=
  (fifo_block_assembly 4 (atomizer.construct 10 2)
    [.insert_complete 10 ⟨100, [7]⟩, .insert_complete 10 ⟨101, [7]⟩,
      .insert_complete 10 ⟨102, [8]⟩]
    [.inserted none, .inserted (some ⟨101, .tx_error_inputs_spent {7}⟩), .inserted none]
    (atomizer.state_after 4 (atomizer.construct 10 2)
      [.insert_complete 10 ⟨100, [7]⟩, .insert_complete 10 ⟨101, [7]⟩,
        .insert_complete 10 ⟨102, [8]⟩])
    (by decide) rfl (by decide) rfl).1

/-- The heights of a run that returns, from any instance whose height is a
`uint64_t`: the i-th `make_block` returns the start height plus i, modulo 2^64,
and the final height is the start height plus the number of `make_block`
calls, modulo 2^64. -/
theorem run_made_heights (fuel : Nat) (ops : List op) :
    ∀ (s : atomizer) (rs : List op_result) (s2 : atomizer), s.m_best_height < u64_mod →
      atomizer.run fuel s ops = .ok (rs, s2) →
      made_heights rs =
          (List.range (count_make_block ops)).map
            (fun i => (s.m_best_height + (i + 1)) % u64_mod) ∧
        s2.m_best_height = (s.m_best_height + count_make_block ops) % u64_mod := by
  induction ops with
  | nil =>
    intro s rs s2 hlt hrun
    unfold atomizer.run at hrun
    injection hrun with hrun
    injection hrun with hrs hs
    subst hs hrs
    refine ⟨rfl, ?_⟩
    simp only [count_make_block, List.filter_nil, List.length_nil, Nat.add_zero]
    exact (Nat.mod_eq_of_lt hlt).symm
  | cons o ops ih =>
    intro s rs s2 hlt hrun
    rw [count_make_block_cons]
    unfold atomizer.run at hrun
    split at hrun
    · cases hrun
    · rename_i r s1 hap
      split at hrun
      · cases hrun
      · rename_i rs1 s2a hrun1
        injection hrun with hrun
        injection hrun with hrs hs
        subst hs hrs
        cases o with
        | insert_complete oa tx =>
          unfold atomizer.apply at hap
          simp only at hap
          split at hap
          · cases hap
          · rename_i err s1a hins
            injection hap with hap
            injection hap with hr hs
            subst hr hs
            have hh : s1a.m_best_height = s.m_best_height := by
              rcases insert_complete_ok_cases fuel s oa tx _ _ hins with
                ⟨_, hs⟩ | ⟨E, _, _, hs⟩ | ⟨_, slot, _, hs⟩ <;> subst hs <;> rfl
            obtain ⟨ih1, ih2⟩ := ih s1a rs1 _ (by rw [hh]; exact hlt) hrun1
            rw [hh] at ih1 ih2
            simp only [reduceCtorEq, if_false, Nat.zero_add, made_heights]
            exact ⟨ih1, ih2⟩
        | make_block =>
          unfold atomizer.apply at hap
          simp only at hap
          split at hap
          · cases hap
          · rename_i height s1a hmk
            injection hap with hap
            injection hap with hr hs
            subst hr hs
            obtain ⟨_, hheight, _, _, hh, _⟩ := make_block_ok_cases s _ _ hmk
            have hlt1 : s1a.m_best_height < u64_mod := by
              rw [hh, hheight]
              exact Nat.mod_lt _ (by decide)
            obtain ⟨ih1, ih2⟩ := ih s1a rs1 _ hlt1 hrun1
            simp only [if_true, made_heights]
            have e : 1 + count_make_block ops = count_make_block ops + 1 := by omega
            rw [e, List.range_succ_eq_map, List.map_cons, List.map_map, ih1, ih2, hh, hheight]
            refine ⟨?_, ?_⟩
            · congr 1
              apply List.map_congr_left
              intro i _
              simp only [Function.comp, Nat.succ_eq_add_one]
              rw [Nat.add_mod, Nat.mod_mod, ← Nat.add_mod]
              congr 1
              omega
            · rw [Nat.add_mod, Nat.mod_mod, ← Nat.add_mod]
              congr 1
              omega
        | prune H =>
          unfold atomizer.apply at hap
          injection hap with hap
          injection hap with hr hs
          subst hr hs
          obtain ⟨ih1, ih2⟩ := ih (s.prune H) rs1 _ hlt hrun1
          simp only [reduceCtorEq, if_false, Nat.zero_add, made_heights]
          exact ⟨ih1, ih2⟩


/-- C11, refuted as stated: an instance constructed with the initial height
2^64 - 1 returns 0 from its first `make_block`, not the initial height plus
one, and 0 is below the initial height. -/
theorem make_block_height_wraps :
    (atomizer.construct 18446744073709551615 0).results_and_height 0 [.make_block] =
      .ok ([.block_made 0], 0) :=
  rfl

/-- C11, amended: for an instance constructed with an initial height h0 that is
a `uint64_t`, and a run of calls that returns, with n `make_block` calls: the
i-th `make_block` returns (h0 + i) mod 2^64 and the final height is
(h0 + n) mod 2^64; when h0 + n is below 2^64 these are h0 + i and h0 + n, each
height one more than the one before; and `height()` after a `make_block` is the
value it returned. -/
theorem make_block_heights (fuel h0 depth : Nat) (ops : List op) (rs : List op_result)
    (s2 : atomizer) (hh : h0 < u64_mod)
    (hrun : atomizer.run fuel (atomizer.construct h0 depth) ops = .ok (rs, s2)) :
    made_heights rs =
        (List.range (count_make_block ops)).map (fun i => (h0 + (i + 1)) % u64_mod) ∧
      s2.height = (h0 + count_make_block ops) % u64_mod ∧
      (h0 + count_make_block ops < u64_mod →
        made_heights rs = (List.range (count_make_block ops)).map (fun i => h0 + (i + 1)) ∧
          s2.height = h0 + count_make_block ops) ∧
      ∀ (s : atomizer) (h : Nat) (s1 : atomizer), s.make_block = .ok (h, s1) →
        s1.height = h := by
  obtain ⟨h1, h2⟩ := run_made_heights fuel ops (atomizer.construct h0 depth) rs s2 hh hrun
  have e : (atomizer.construct h0 depth).m_best_height = h0 := rfl
  rw [e] at h1 h2
  refine ⟨h1, h2, ?_, ?_⟩
  · intro hn
    refine ⟨?_, ?_⟩
    · rw [h1]
      apply List.map_congr_left
      intro i hi
      have := List.mem_range.mp hi
      exact Nat.mod_eq_of_lt (by omega)
    · show s2.m_best_height = _
      rw [h2]
      exact Nat.mod_eq_of_lt hn
  · intro s h s1 hmk
    obtain ⟨_, _, _, _, hh1, _⟩ := make_block_ok_cases s h s1 hmk
    exact hh1

/-- C11 amended, at a concrete run: initial height 10, depth 2, two `make_block`
calls around an `insert_complete`. -/
theorem make_block_heights_witness :
    made_heights [.block_made 11, .inserted none, .block_made 12] =
        (List.range (count_make_block [.make_block, .insert_complete 11 ⟨100, [7]⟩,
          .make_block])).map (fun i => (10 + (i + 1)) % u64_mod) ∧
      (atomizer.state_after 4 (atomizer.construct 10 2)
        [.make_block, .insert_complete 11 ⟨100, [7]⟩, .make_block]).height =
        (10 + count_make_block [.make_block, .insert_complete 11 ⟨100, [7]⟩,
          .make_block]) % u64_mod ∧
      (10 + count_make_block [.make_block, .insert_complete 11 ⟨100, [7]⟩, .make_block] <
          u64_mod →
        made_heights [.block_made 11, .inserted none, .block_made 12] =
            (List.range (count_make_block [.make_block, .insert_complete 11 ⟨100, [7]⟩,
              .make_block])).map (fun i => 10 + (i + 1)) ∧
          (atomizer.state_after 4 (atomizer.construct 10 2)
            [.make_block, .insert_complete 11 ⟨100, [7]⟩, .make_block]).height =
            10 + count_make_block [.make_block, .insert_complete 11 ⟨100, [7]⟩,
              .make_block]) ∧
      ∀ (s : atomizer) (h : Nat) (s1 : atomizer), s.make_block = .ok (h, s1) →
        s1.height = h :=
  make_block_heights 4 10 2 [.make_block, .insert_complete 11 ⟨100, [7]⟩, .make_block]
    [.block_made 11, .inserted none, .block_made 12]
    (atomizer.state_after 4 (atomizer.construct 10 2)
      [.make_block, .insert_complete 11 ⟨100, [7]⟩, .make_block])
    (by decide) rfl


/-! ## The snapshot encoding -/

/-- Where a prefix of a concatenation ends: inside the first part, or after it. -/
theorem split_at_boundary (p q e r : List Nat) (h : p ++ q = e ++ r) :
    (∃ a, a ≠ [] ∧ p ++ a = e) ∨ ∃ p1, p = e ++ p1 ∧ p1 ++ q = r := by
  rcases List.append_eq_append_iff.mp h with ⟨a, he, hq⟩ | ⟨c, hp, hr⟩
  · by_cases ha : a = []
    · subst ha
      right
      refine ⟨[], ?_, ?_⟩
      · rw [he, List.append_nil, List.append_nil]
      · rw [hq]
        rfl
    · exact Or.inl ⟨a, ha, he.symm⟩
  · exact Or.inr ⟨c, hp, hr.symm⟩

/-- The reading loop pushes onto the target: what it does on a non-empty target
is what it does on an empty one, behind what the target held. -/
theorem get_many_push {α : Type} (get : List Nat → Option (α × List Nat)) (len : Nat) :
    ∀ (bytes : List Nat) (vec : List α),
      get_many get len bytes vec =
        (vec ++ (get_many get len bytes []).1, (get_many get len bytes []).2) := by
  induction len with
  | zero =>
    intro bytes vec
    simp only [get_many, List.append_nil]
  | succ len ih =>
    intro bytes vec
    unfold get_many
    cases get bytes with
    | none => simp only [List.append_nil]
    | some r =>
      obtain ⟨val, rest⟩ := r
      simp only
      rw [ih rest (vec ++ [val]), ih rest ([] ++ [val])]
      simp only [List.nil_append, List.append_assoc]

/-- The reading loop reads back a written sequence. -/
theorem get_many_reads_back {α : Type} (put : α → List Nat)
    (get : List Nat → Option (α × List Nat)) (P : α → Prop) (hrb : reads_back put get P)
    (xs : List α) :
    ∀ (rest : List Nat) (vec : List α), (∀ x ∈ xs, P x) →
      get_many get xs.length (put_many put xs ++ rest) vec = (vec ++ xs, some rest) := by
  induction xs with
  | nil =>
    intro rest vec _
    simp only [List.length_nil, put_many, List.nil_append, get_many, List.append_nil]
  | cons x xs ih =>
    intro rest vec hP
    simp only [List.length_cons, put_many, List.append_assoc]
    unfold get_many
    rw [hrb x _ (hP x (List.mem_cons_self _ _))]
    simp only
    rw [ih rest (vec ++ [x]) (fun y hy => hP y (List.mem_cons_of_mem _ hy))]
    simp only [List.append_assoc, List.singleton_append]

/-- The reading loop fails on a strict prefix of a written sequence. -/
theorem get_many_fails {α : Type} (put : α → List Nat)
    (get : List Nat → Option (α × List Nat)) (P : α → Prop) (hrb : reads_back put get P)
    (hfp : fails_when_cut put get P) (xs : List α) :
    ∀ (p q : List Nat) (vec : List α), (∀ x ∈ xs, P x) → p ++ q = put_many put xs →
      q ≠ [] → (get_many get xs.length p vec).2 = none := by
  induction xs with
  | nil =>
    intro p q vec _ h hq
    simp only [put_many, List.append_eq_nil] at h
    exact absurd h.2 hq
  | cons x xs ih =>
    intro p q vec hP h hq
    simp only [put_many] at h
    simp only [List.length_cons]
    unfold get_many
    rcases split_at_boundary p q _ _ h with ⟨a, ha, hpa⟩ | ⟨p1, hp, hp1⟩
    · rw [hfp x p a (hP x (List.mem_cons_self _ _)) hpa ha]
    · rw [hp, hrb x p1 (hP x (List.mem_cons_self _ _))]
      simp only
      exact ih p1 q _ (fun y hy => hP y (List.mem_cons_of_mem _ hy)) hp1 hq

/-- Reading a written sequence into a target appends it to the target. -/
theorem read_vector_reads_back {α : Type} (fmt : serializer_format) (hlaw : fmt.lawful)
    (put : α → List Nat) (get : List Nat → Option (α × List Nat)) (P : α → Prop)
    (hrb : reads_back put get P) (xs : List α) (rest : List Nat) (vec : List α)
    (hlen : xs.length < u64_mod) (hP : ∀ x ∈ xs, P x) :
    fmt.read_vector get vec (some (fmt.put_vector put xs ++ rest)) =
      (vec ++ xs, some rest) := by
  unfold serializer_format.read_vector serializer_format.put_vector
  simp only [List.append_assoc]
  rw [hlaw.1 xs.length _ hlen]
  simp only
  exact get_many_reads_back put get P hrb xs rest vec hP

/-- Reading a strict prefix of a written sequence fails. -/
theorem read_vector_fails {α : Type} (fmt : serializer_format) (hlaw : fmt.lawful)
    (htr : fmt.rejects_truncated) (put : α → List Nat)
    (get : List Nat → Option (α × List Nat)) (P : α → Prop) (hrb : reads_back put get P)
    (hfp : fails_when_cut put get P) (xs : List α) (p q : List Nat) (vec : List α)
    (hlen : xs.length < u64_mod) (hP : ∀ x ∈ xs, P x)
    (h : p ++ q = fmt.put_vector put xs) (hq : q ≠ []) :
    (fmt.read_vector get vec (some p)).2 = none := by
  unfold serializer_format.put_vector at h
  unfold serializer_format.read_vector
  simp only
  rcases split_at_boundary p q _ _ h with ⟨a, ha, hpa⟩ | ⟨p1, hp, hp1⟩
  · rw [htr.1 xs.length p a hlen hpa ha]
  · rw [hp, hlaw.1 xs.length p1 hlen]
    simp only
    exact get_many_fails put get P hrb hfp xs p1 q vec hP hp1 hq

/-- A sequence that is an element is read back. -/
theorem get_vector_reads_back {α : Type} (fmt : serializer_format) (hlaw : fmt.lawful)
    (put : α → List Nat) (get : List Nat → Option (α × List Nat)) (P : α → Prop)
    (hrb : reads_back put get P) :
    reads_back (fmt.put_vector put) (fmt.get_vector get)
      (fun xs => xs.length < u64_mod ∧ ∀ x ∈ xs, P x) := by
  intro xs rest hxs
  unfold serializer_format.get_vector
  rw [read_vector_reads_back fmt hlaw put get P hrb xs rest [] hxs.1 hxs.2]
  rfl

/-- A sequence that is an element is rejected when truncated. -/
theorem get_vector_fails {α : Type} (fmt : serializer_format) (hlaw : fmt.lawful)
    (htr : fmt.rejects_truncated) (put : α → List Nat)
    (get : List Nat → Option (α × List Nat)) (P : α → Prop) (hrb : reads_back put get P)
    (hfp : fails_when_cut put get P) :
    fails_when_cut (fmt.put_vector put) (fmt.get_vector get)
      (fun xs => xs.length < u64_mod ∧ ∀ x ∈ xs, P x) := by
  intro xs p q hxs h hq
  have := read_vector_fails fmt hlaw htr put get P hrb hfp xs p q [] hxs.1 hxs.2 h hq
  unfold serializer_format.get_vector
  split
  · rename_i vec rest heq
    rw [heq] at this
    cases this
  · rfl

/-- A hash set is read back. -/
theorem get_set_reads_back (fmt : serializer_format) (hlaw : fmt.lawful) :
    reads_back fmt.put_set fmt.get_set
      (fun s => s.card < u64_mod ∧ ∀ h ∈ s, h < fmt.hash_bound) := by
  intro s rest hs
  obtain ⟨hfin, hlen⟩ := hlaw.2.2 s
  unfold serializer_format.get_set serializer_format.put_set
  rw [get_vector_reads_back fmt hlaw fmt.put_hash fmt.get_hash _ hlaw.2.1 (fmt.set_order s)
    rest ⟨by rw [hlen]; exact hs.1, fun h hh => hs.2 h (by rw [← hfin]; exact List.mem_toFinset.mpr hh)⟩]
  simp only [hfin]

/-- A hash set is rejected when truncated. -/
theorem get_set_fails (fmt : serializer_format) (hlaw : fmt.lawful)
    (htr : fmt.rejects_truncated) :
    fails_when_cut fmt.put_set fmt.get_set
      (fun s => s.card < u64_mod ∧ ∀ h ∈ s, h < fmt.hash_bound) := by
  intro s p q hs h hq
  obtain ⟨hfin, hlen⟩ := hlaw.2.2 s
  unfold serializer_format.get_set
  unfold serializer_format.put_set at h
  rw [get_vector_fails fmt hlaw htr fmt.put_hash fmt.get_hash _ hlaw.2.1 htr.2
    (fmt.set_order s) p q
    ⟨by rw [hlen]; exact hs.1, fun h hh => hs.2 h (by rw [← hfin]; exact List.mem_toFinset.mpr hh)⟩
    h hq]

/-- A `compact_tx` is read back. -/
theorem get_compact_tx_reads_back (fmt : serializer_format) (hlaw : fmt.lawful) :
    reads_back fmt.put_compact_tx fmt.get_compact_tx (compact_tx.representable fmt) := by
  intro tx rest htx
  unfold serializer_format.get_compact_tx serializer_format.put_compact_tx
  simp only [List.append_assoc]
  rw [hlaw.2.1 tx.m_id _ htx.1]
  simp only
  rw [get_vector_reads_back fmt hlaw fmt.put_hash fmt.get_hash _ hlaw.2.1 tx.m_inputs rest
    ⟨htx.2.1, htx.2.2⟩]

/-- A `compact_tx` is rejected when truncated. -/
theorem get_compact_tx_fails (fmt : serializer_format) (hlaw : fmt.lawful)
    (htr : fmt.rejects_truncated) :
    fails_when_cut fmt.put_compact_tx fmt.get_compact_tx (compact_tx.representable fmt) := by
  intro tx p q htx h hq
  unfold serializer_format.put_compact_tx at h
  unfold serializer_format.get_compact_tx
  rcases split_at_boundary p q _ _ h with ⟨a, ha, hpa⟩ | ⟨p1, hp, hp1⟩
  · rw [htr.2 tx.m_id p a htx.1 hpa ha]
  · rw [hp, hlaw.2.1 tx.m_id p1 htx.1]
    simp only
    rw [get_vector_fails fmt hlaw htr fmt.put_hash fmt.get_hash _ hlaw.2.1 htr.2 tx.m_inputs
      p1 q ⟨htx.2.1, htx.2.2⟩ hp1 hq]


/-- A written `u64` is read back into any target. -/
theorem read_u64_reads_back (fmt : serializer_format) (hlaw : fmt.lawful) (n target : Nat)
    (rest : List Nat) (hn : n < u64_mod) :
    fmt.read_u64 target (some (fmt.put_u64 n ++ rest)) = (n, some rest) := by
  unfold serializer_format.read_u64
  simp only
  rw [hlaw.1 n rest hn]

/-- Whether a `u64` read succeeds, and what it leaves of the bytes, does not
depend on the target. -/
theorem read_u64_serializer (fmt : serializer_format) (target other : Nat)
    (buf : serializer) : (fmt.read_u64 target buf).2 = (fmt.read_u64 other buf).2 := by
  unfold serializer_format.read_u64
  cases buf with
  | none => rfl
  | some bytes =>
    simp only
    cases fmt.get_u64 bytes with
    | none => rfl
    | some r => rfl

/-- A `u64` read that leaves the serializer valid gives the value the bytes
hold, whatever the target held. -/
theorem read_u64_ok (fmt : serializer_format) (target : Nat) (buf : serializer)
    (rest : List Nat) (h : (fmt.read_u64 target buf).2 = some rest) :
    ∀ other, fmt.read_u64 other buf = ((fmt.read_u64 target buf).1, some rest) := by
  intro other
  unfold serializer_format.read_u64 at h ⊢
  cases buf with
  | none => cases h
  | some bytes =>
    simp only at h ⊢
    cases hg : fmt.get_u64 bytes with
    | none =>
      rw [hg] at h
      cases h
    | some r =>
      rw [hg] at h
      simp only at h ⊢
      rw [h]

/-- A failed serializer stays failed through a sequence read. -/
theorem read_vector_failed {α : Type} (fmt : serializer_format)
    (get : List Nat → Option (α × List Nat)) (vec : List α) :
    fmt.read_vector get vec none = (vec, none) := rfl

/-- Loading the bytes of `serialize`, followed by anything, into any instance
replaces depth, height, pending queue and window by those of the serialized
instance and leaves what followed. -/
theorem deserialize_serialize (fmt : serializer_format) (hlaw : fmt.lawful)
    (s target : atomizer) (rest : List Nat) (hrep : s.representable fmt) :
    target.deserialize fmt (some (s.serialize fmt ++ rest)) =
      ({ target with
          m_spent_cache_depth := s.m_spent_cache_depth
          m_best_height := s.m_best_height
          m_complete_txs := s.m_complete_txs
          m_spent := s.m_spent }, some rest) := by
  obtain ⟨hd, hh, htl, htx, hsl, hsp⟩ := hrep
  unfold atomizer.deserialize atomizer.serialize
  simp only [List.append_assoc]
  rw [read_u64_reads_back fmt hlaw _ _ _ hd]
  simp only
  rw [read_u64_reads_back fmt hlaw _ _ _ hh]
  simp only
  rw [read_vector_reads_back fmt hlaw fmt.put_compact_tx fmt.get_compact_tx _
    (get_compact_tx_reads_back fmt hlaw) _ _ _ htl htx]
  simp only
  rw [read_vector_reads_back fmt hlaw fmt.put_set fmt.get_set _
    (get_set_reads_back fmt hlaw) _ _ _ hsl hsp]
  simp only [List.nil_append]

/-- A load that leaves the serializer valid is complete: the four fields are
values the bytes hold, the same for every instance they are loaded into. -/
theorem deserialize_ok_fields (fmt : serializer_format) (buf : serializer) (a la : atomizer)
    (rest : List Nat) (h : a.deserialize fmt buf = (la, some rest)) :
    ∃ depth height txs spent, ∀ c : atomizer,
      c.deserialize fmt buf =
        ({ c with
            m_spent_cache_depth := depth
            m_best_height := height
            m_complete_txs := txs
            m_spent := spent }, some rest) := by
  unfold atomizer.deserialize at h
  simp only at h
  injection h with h1 h2
  cases e1 : (fmt.read_u64 a.m_spent_cache_depth buf).2 with
  | none =>
    rw [e1] at h2
    have e2 : (fmt.read_u64 a.m_best_height none).2 = none := rfl
    rw [e2, read_vector_failed, read_vector_failed] at h2
    cases h2
  | some rest1 =>
    rw [e1] at h2
    cases e2 : (fmt.read_u64 a.m_best_height (some rest1)).2 with
    | none =>
      rw [e2, read_vector_failed, read_vector_failed] at h2
      cases h2
    | some rest2 =>
      rw [e2] at h2
      refine ⟨(fmt.read_u64 a.m_spent_cache_depth buf).1,
        (fmt.read_u64 a.m_best_height (some rest1)).1,
        (fmt.read_vector fmt.get_compact_tx [] (some rest2)).1,
        (fmt.read_vector fmt.get_set []
          (fmt.read_vector fmt.get_compact_tx [] (some rest2)).2).1, ?_⟩
      intro c
      unfold atomizer.deserialize
      simp only
      rw [read_u64_ok fmt _ buf rest1 e1 c.m_spent_cache_depth]
      simp only
      rw [read_u64_ok fmt _ (some rest1) rest2 e2 c.m_best_height]
      simp only
      rw [h2]

/-- The pending queue and the window a load leaves behind, and the state of the
serializer, are decided by the bytes alone: nothing of the prior pending queue
or window is kept, whether the load succeeds or not. -/
theorem deserialize_containers (fmt : serializer_format) (buf : serializer)
    (a b : atomizer) :
    (a.deserialize fmt buf).1.m_complete_txs = (b.deserialize fmt buf).1.m_complete_txs ∧
      (a.deserialize fmt buf).1.m_spent = (b.deserialize fmt buf).1.m_spent ∧
      (a.deserialize fmt buf).2 = (b.deserialize fmt buf).2 := by
  unfold atomizer.deserialize
  simp only
  have e1 := read_u64_serializer fmt a.m_spent_cache_depth b.m_spent_cache_depth buf
  rw [e1]
  have e2 := read_u64_serializer fmt a.m_best_height b.m_best_height
    (fmt.read_u64 b.m_spent_cache_depth buf).2
  rw [e2]
  exact ⟨rfl, rfl, rfl⟩

/-- Loading a strict prefix of the bytes of `serialize` leaves the serializer
failed. -/
theorem deserialize_cut_fails (fmt : serializer_format) (hlaw : fmt.lawful)
    (htr : fmt.rejects_truncated) (s target : atomizer) (hrep : s.representable fmt)
    (p q : List Nat) (h : p ++ q = s.serialize fmt) (hq : q ≠ []) :
    (target.deserialize fmt (some p)).2 = none := by
  obtain ⟨hd, hh, htl, htx, hsl, hsp⟩ := hrep
  unfold atomizer.serialize at h
  simp only [List.append_assoc] at h
  unfold atomizer.deserialize
  simp only
  have fail2 : ∀ t, (fmt.read_u64 t none).2 = none := fun _ => rfl
  rcases split_at_boundary p q _ _ h with ⟨a, ha, hpa⟩ | ⟨p1, hp, hp1⟩
  · have e1 : (fmt.read_u64 target.m_spent_cache_depth (some p)).2 = none := by
      unfold serializer_format.read_u64
      simp only
      rw [htr.1 _ p a hd hpa ha]
    rw [e1, fail2, read_vector_failed, read_vector_failed]
  · rw [hp, read_u64_reads_back fmt hlaw _ _ _ hd]
    simp only
    rcases split_at_boundary p1 q _ _ hp1 with ⟨a, ha, hpa⟩ | ⟨p2, hp, hp2⟩
    · have e2 : (fmt.read_u64 target.m_best_height (some p1)).2 = none := by
        unfold serializer_format.read_u64
        simp only
        rw [htr.1 _ p1 a hh hpa ha]
      rw [e2, read_vector_failed, read_vector_failed]
    · rw [hp, read_u64_reads_back fmt hlaw _ _ _ hh]
      simp only
      rcases split_at_boundary p2 q _ _ hp2 with ⟨a, ha, hpa⟩ | ⟨p3, hp, hp3⟩
      · have e3 := read_vector_fails fmt hlaw htr fmt.put_compact_tx fmt.get_compact_tx _
          (get_compact_tx_reads_back fmt hlaw) (get_compact_tx_fails fmt hlaw htr)
          s.m_complete_txs p2 a [] htl htx hpa ha
        rw [e3, read_vector_failed]
      · rw [hp, read_vector_reads_back fmt hlaw fmt.put_compact_tx fmt.get_compact_tx _
          (get_compact_tx_reads_back fmt hlaw) _ _ _ htl htx]
        simp only
        exact read_vector_fails fmt hlaw htr fmt.put_set fmt.get_set _
          (get_set_reads_back fmt hlaw) (get_set_fails fmt hlaw htr)
          s.m_spent p3 q [] hsl hsp hp3 hq


/-- A sequence read as an element is the sequence read into an empty target. -/
theorem read_vector_of_get_vector {α : Type} (fmt : serializer_format)
    (get : List Nat → Option (α × List Nat)) (bytes : List Nat) (vec : List α)
    (rest : List Nat) (h : fmt.get_vector get bytes = some (vec, rest)) :
    fmt.read_vector get [] (some bytes) = (vec, some rest) := by
  unfold serializer_format.get_vector at h
  split at h
  · rename_i v r heq
    injection h with h
    injection h with h1 h2
    subst h1 h2
    exact heq
  · cases h

/-- A sequence read into an empty target that leaves the serializer valid is the
sequence read as an element. -/
theorem get_vector_of_read_vector {α : Type} (fmt : serializer_format)
    (get : List Nat → Option (α × List Nat)) (bytes : List Nat) (vec : List α)
    (rest : List Nat) (h : fmt.read_vector get [] (some bytes) = (vec, some rest)) :
    fmt.get_vector get bytes = some (vec, rest) := by
  unfold serializer_format.get_vector
  rw [h]

/-- Bytes that hold the four values of a snapshot load into any instance:
depth, height, pending queue and window become the values the bytes hold, and
the serializer is left valid at the bytes that follow. -/
theorem deserialize_of_decode (fmt : serializer_format) (buf : List Nat)
    (depth height : Nat) (txs : List compact_tx) (spent : List (Finset hash_t))
    (rest : List Nat) (hdec : snapshot_decode fmt buf = some (depth, height, txs, spent, rest))
    (c : atomizer) :
    c.deserialize fmt (some buf) =
      ({ c with
          m_spent_cache_depth := depth
          m_best_height := height
          m_complete_txs := txs
          m_spent := spent }, some rest) := by
  unfold snapshot_decode at hdec
  split at hdec
  · cases hdec
  · rename_i d r1 e1
    split at hdec
    · cases hdec
    · rename_i h r2 e2
      split at hdec
      · cases hdec
      · rename_i v r3 e3
        split at hdec
        · cases hdec
        · rename_i sp r4 e4
          injection hdec with hdec
          injection hdec with h1 hdec
          injection hdec with h2 hdec
          injection hdec with h3 hdec
          injection hdec with h4 h5
          subst h1 h2 h3 h4 h5
          unfold atomizer.deserialize
          simp only [serializer_format.read_u64, e1, e2,
            read_vector_of_get_vector fmt _ _ _ _ e3,
            read_vector_of_get_vector fmt _ _ _ _ e4]

/-- A load that leaves the serializer valid has read bytes that hold the four
values the instance ends with. -/
theorem decode_of_deserialize (fmt : serializer_format) (buf : List Nat) (c lc : atomizer)
    (rest : List Nat) (h : c.deserialize fmt (some buf) = (lc, some rest)) :
    snapshot_decode fmt buf =
      some (lc.m_spent_cache_depth, lc.m_best_height, lc.m_complete_txs, lc.m_spent, rest) := by
  unfold atomizer.deserialize at h
  simp only [serializer_format.read_u64] at h
  unfold snapshot_decode
  cases e1 : fmt.get_u64 buf with
  | none =>
    rw [e1] at h
    simp only [read_vector_failed] at h
    injection h with _ h2
    cases h2
  | some p1 =>
    obtain ⟨d, r1⟩ := p1
    rw [e1] at h
    simp only at h ⊢
    cases e2 : fmt.get_u64 r1 with
    | none =>
      rw [e2] at h
      simp only [read_vector_failed] at h
      injection h with _ h2
      cases h2
    | some p2 =>
      obtain ⟨ht, r2⟩ := p2
      rw [e2] at h
      simp only at h ⊢
      cases e3 : fmt.read_vector fmt.get_compact_tx [] (some r2) with
      | mk v ser3 =>
        rw [e3] at h
        simp only at h
        cases ser3 with
        | none =>
          simp only [read_vector_failed] at h
          injection h with _ h2
          cases h2
        | some r3 =>
          rw [get_vector_of_read_vector fmt _ _ _ _ e3]
          simp only
          cases e4 : fmt.read_vector fmt.get_set [] (some r3) with
          | mk sp ser4 =>
            rw [e4] at h
            simp only at h
            injection h with h1 h2
            subst h2
            rw [get_vector_of_read_vector fmt _ _ _ _ e4]
            subst h1
            rfl

/-- The bytes `serialize` gives for an instance whose values fit their types
hold the four values of that instance, for a format that decodes what it
encodes. -/
theorem decode_serialize (fmt : serializer_format) (hlaw : fmt.lawful) (s : atomizer)
    (rest : List Nat) (hrep : s.representable fmt) :
    snapshot_decode fmt (s.serialize fmt ++ rest) =
      some (s.m_spent_cache_depth, s.m_best_height, s.m_complete_txs, s.m_spent, rest) := by
  have h := deserialize_serialize fmt hlaw s s rest hrep
  exact decode_of_deserialize fmt _ s _ rest h

/-! ## The little-endian format -/

/-- A value written in `width` bytes takes `width` bytes. -/
theorem put_le_length (width : Nat) : ∀ n, (put_le width n).length = width := by
  induction width with
  | zero =>
    intro n
    rfl
  | succ width ih =>
    intro n
    simp only [put_le, List.length_cons, ih]

/-- A value below 256^width is read back from its `width` bytes. -/
theorem get_le_put_le (width : Nat) :
    ∀ (n : Nat) (rest : List Nat), n < 256 ^ width →
      get_le width (put_le width n ++ rest) = some (n, rest) := by
  induction width with
  | zero =>
    intro n rest hn
    simp only [pow_zero, Nat.lt_one_iff] at hn
    subst hn
    rfl
  | succ width ih =>
    intro n rest hn
    have hdiv : n / 256 < 256 ^ width := by
      rw [Nat.div_lt_iff_lt_mul (by decide)]
      rw [pow_succ] at hn
      exact hn
    have e : put_le (width + 1) n = n % 256 :: put_le width (n / 256) := rfl
    rw [e, List.cons_append, get_le, ih (n / 256) rest hdiv]
    simp only
    rw [Nat.mod_add_div n 256]

/-- Fewer than `width` bytes hold no value. -/
theorem get_le_short (width : Nat) :
    ∀ p : List Nat, p.length < width → get_le width p = none := by
  induction width with
  | zero =>
    intro p hp
    omega
  | succ width ih =>
    intro p hp
    cases p with
    | nil => rfl
    | cons b p =>
      simp only [List.length_cons] at hp
      simp only [get_le, ih p (by omega)]

/-- A strict prefix of a value written in `width` bytes holds no value. -/
theorem get_le_fails_when_cut (width bound : Nat) :
    fails_when_cut (put_le width) (get_le width) (fun n => n < bound) := by
  intro n p q _ h hq
  apply get_le_short
  have hlen := congrArg List.length h
  rw [List.length_append, put_le_length] at hlen
  have : 0 < q.length := List.length_pos.mpr hq
  omega

/-- The increasing listing of a set lists exactly its elements, each once. -/
theorem sorted_elems_spec (s : Finset hash_t) :
    (sorted_elems s).toFinset = s ∧ (sorted_elems s).length = s.card := by
  rcases s with ⟨m, hnd⟩
  induction m using Quot.inductionOn with
  | _ l =>
    constructor
    · ext a
      simp only [sorted_elems, Quot.liftOn, List.mem_toFinset, List.mem_insertionSort,
        Finset.mem_mk]
      rfl
    · simp only [sorted_elems, Quot.liftOn, List.length_insertionSort, Finset.card]
      rfl

/-- The little-endian format decodes what it encodes. -/
theorem le_format_lawful : le_format.lawful := by
  refine ⟨?_, ?_, sorted_elems_spec⟩
  · intro n rest hn
    exact get_le_put_le 8 n rest (by
      have e : (256 : Nat) ^ 8 = u64_mod := by norm_num [u64_mod]
      rw [e]
      exact hn)
  · intro h rest hh
    exact get_le_put_le 32 h rest (by
      have e : (256 : Nat) ^ 32 = le_format.hash_bound := by norm_num [le_format]
      rw [e]
      exact hh)

/-- The little-endian format rejects truncated scalars. -/
theorem le_format_rejects_truncated : le_format.rejects_truncated :=
  ⟨get_le_fails_when_cut 8 u64_mod, get_le_fails_when_cut 32 le_format.hash_bound⟩


/-! ## Snapshots: `serialize` and `deserialize` -/

/-- C15: for every format that decodes what it encodes and every instance whose
values fit their C++ types (every instance the interface can produce),
loading the bytes of `serialize()` into any instance, a freshly constructed one
included, consumes all the bytes and yields an instance equal to the original
under `operator==`: same pending queue in the same order, same window, same
height, same depth. -/
theorem snapshot_round_trip (fmt : serializer_format) (hlaw : fmt.lawful)
    (s target : atomizer) (hrep : s.representable fmt) :
    (target.deserialize fmt (some (s.serialize fmt))).2 = some [] ∧
      (target.deserialize fmt (some (s.serialize fmt))).1.operator_eq s = true ∧
      (target.deserialize fmt (some (s.serialize fmt))).1.m_complete_txs = s.m_complete_txs ∧
      (target.deserialize fmt (some (s.serialize fmt))).1.m_spent = s.m_spent ∧
      (target.deserialize fmt (some (s.serialize fmt))).1.m_best_height = s.m_best_height ∧
      (target.deserialize fmt (some (s.serialize fmt))).1.m_spent_cache_depth =
        s.m_spent_cache_depth := by
  have h := deserialize_serialize fmt hlaw s target [] hrep
  rw [List.append_nil] at h
  rw [h]
  refine ⟨rfl, ?_, rfl, rfl, rfl, rfl⟩
  unfold atomizer.operator_eq
  simp only [decide_True, Bool.and_self]

/-- C15, at a concrete instance: the little-endian format, the instance
`demo_accepted` (height 10, depth 2, one pending transaction, the input 7 in
slot 0), loaded into a fresh instance of height 0 and depth 0. -/
theorem snapshot_round_trip_witness :
    ((atomizer.construct 0 0).deserialize le_format
        (some (demo_accepted.serialize le_format))).2 = some [] ∧
      ((atomizer.construct 0 0).deserialize le_format
        (some (demo_accepted.serialize le_format))).1.operator_eq demo_accepted = true ∧
      ((atomizer.construct 0 0).deserialize le_format
        (some (demo_accepted.serialize le_format))).1.m_complete_txs =
        demo_accepted.m_complete_txs ∧
      ((atomizer.construct 0 0).deserialize le_format
        (some (demo_accepted.serialize le_format))).1.m_spent = demo_accepted.m_spent ∧
      ((atomizer.construct 0 0).deserialize le_format
        (some (demo_accepted.serialize le_format))).1.m_best_height =
        demo_accepted.m_best_height ∧
      ((atomizer.construct 0 0).deserialize le_format
        (some (demo_accepted.serialize le_format))).1.m_spent_cache_depth =
        demo_accepted.m_spent_cache_depth :=
  snapshot_round_trip le_format le_format_lawful demo_accepted (atomizer.construct 0 0)
    (by decide)

/-- C16: bytes that hold the four values of a snapshot, as every well-formed
encoding does, loaded into any two instances, whatever their prior states,
leave the serializer valid and both instances with depth, height, pending queue
and window exactly the values the bytes hold, so that the two are equal under
`operator==` and nothing of a prior pending queue or window is kept; and the
values the bytes of `serialize()` hold are those of the serialized instance
(for a format that decodes what it encodes and values that fit their types). -/
theorem deserialize_full_overwrite (fmt : serializer_format) (buf : List Nat)
    (depth height : Nat) (txs : List compact_tx) (spent : List (Finset hash_t))
    (rest : List Nat) (a b : atomizer)
    (hwf : snapshot_decode fmt buf = some (depth, height, txs, spent, rest)) :
    a.deserialize fmt (some buf) =
        ({ a with
            m_spent_cache_depth := depth
            m_best_height := height
            m_complete_txs := txs
            m_spent := spent }, some rest) ∧
      b.deserialize fmt (some buf) =
        ({ b with
            m_spent_cache_depth := depth
            m_best_height := height
            m_complete_txs := txs
            m_spent := spent }, some rest) ∧
      (a.deserialize fmt (some buf)).1.operator_eq (b.deserialize fmt (some buf)).1 = true ∧
      (fmt.lawful → ∀ (t : atomizer) (rest1 : List Nat), t.representable fmt →
        snapshot_decode fmt (t.serialize fmt ++ rest1) =
          some (t.m_spent_cache_depth, t.m_best_height, t.m_complete_txs, t.m_spent, rest1)) := by
  have ha := deserialize_of_decode fmt buf depth height txs spent rest hwf a
  have hb := deserialize_of_decode fmt buf depth height txs spent rest hwf b
  refine ⟨ha, hb, ?_, ?_⟩
  · rw [ha, hb]
    unfold atomizer.operator_eq
    simp only [decide_True, Bool.and_self]
  · intro hlaw t rest1 hrep
    exact decode_serialize fmt hlaw t rest1 hrep

/-- C16, at concrete instances: the bytes of `demo_accepted` (depth 2, height
10, one pending transaction, the input 7 in slot 0) in the little-endian
format, loaded into `restored_state` (which has its own pending transaction and
window) and into a fresh instance. -/
theorem deserialize_full_overwrite_witness :
    restored_state.deserialize le_format (some (demo_accepted.serialize le_format)) =
        ({ restored_state with
            m_spent_cache_depth := 2
            m_best_height := 10
            m_complete_txs := [⟨100, [7]⟩]
            m_spent := [{7}, ∅, ∅] }, some []) ∧
      (atomizer.construct 0 0).deserialize le_format
          (some (demo_accepted.serialize le_format)) =
        ({ atomizer.construct 0 0 with
            m_spent_cache_depth := 2
            m_best_height := 10
            m_complete_txs := [⟨100, [7]⟩]
            m_spent := [{7}, ∅, ∅] }, some []) ∧
      atomizer.operator_eq
        (restored_state.deserialize le_format (some (demo_accepted.serialize le_format))).1
        ((atomizer.construct 0 0).deserialize le_format
          (some (demo_accepted.serialize le_format))).1 = true ∧
      (le_format.lawful → ∀ (t : atomizer) (rest1 : List Nat), t.representable le_format →
        snapshot_decode le_format (t.serialize le_format ++ rest1) =
          some (t.m_spent_cache_depth, t.m_best_height, t.m_complete_txs, t.m_spent, rest1)) :=
  deserialize_full_overwrite le_format (demo_accepted.serialize le_format) 2 10
    [⟨100, [7]⟩] [{7}, ∅, ∅] [] restored_state (atomizer.construct 0 0) rfl

/-- A truncated load at a concrete case: the first 16 of the 48 bytes that
`serialize()` gives for a fresh instance of height 5 and depth 1 (little-endian
format), loaded into `demo_accepted` (depth 2, height 10, one pending
transaction, three slots): the serializer ends failed, with depth 1 and height
5 decoded, the pending queue empty and a window of no slots. -/
theorem deserialize_truncated_partial_load :
    ((atomizer.construct 5 1).serialize le_format).length = 48 ∧
      (demo_accepted.deserialize le_format
        (some (((atomizer.construct 5 1).serialize le_format).take 16))).2 = none ∧
      (demo_accepted.deserialize le_format
        (some (((atomizer.construct 5 1).serialize le_format).take 16))).1.m_spent_cache_depth
        = 1 ∧
      (demo_accepted.deserialize le_format
        (some (((atomizer.construct 5 1).serialize le_format).take 16))).1.m_best_height
        = 5 ∧
      (demo_accepted.deserialize le_format
        (some (((atomizer.construct 5 1).serialize le_format).take 16))).1.m_complete_txs
        = [] ∧
      (demo_accepted.deserialize le_format
        (some (((atomizer.construct 5 1).serialize le_format).take 16))).1.m_spent = [] ∧
      demo_accepted.m_complete_txs = [⟨100, [7]⟩] ∧ demo_accepted.m_spent = [{7}, ∅, ∅] := by
  decide

/-- C17, refuted as stated: a malformed encoding that is not truncated is not
rejected. The 40 bytes (little-endian format) that hold the depth 5, the height
10, an empty pending queue and a window of one empty slot, where the layout
asks for depth + 1 = 6 slots, load into a fresh instance with the serializer
left valid and all bytes consumed; the instance ends with depth 5 and a window
of one slot. -/
theorem deserialize_accepts_malformed :
    (put_le 8 5 ++ put_le 8 10 ++ put_le 8 0 ++ (put_le 8 1 ++ put_le 8 0)).length = 40 ∧
      snapshot_decode le_format
          (put_le 8 5 ++ put_le 8 10 ++ put_le 8 0 ++ (put_le 8 1 ++ put_le 8 0)) =
        some (5, 10, [], [∅], []) ∧
      ((atomizer.construct 0 0).deserialize le_format
        (some (put_le 8 5 ++ put_le 8 10 ++ put_le 8 0 ++ (put_le 8 1 ++ put_le 8 0)))).2 =
        some [] ∧
      ((atomizer.construct 0 0).deserialize le_format
        (some (put_le 8 5 ++ put_le 8 10 ++ put_le 8 0 ++
          (put_le 8 1 ++ put_le 8 0)))).1.m_spent_cache_depth = 5 ∧
      ((atomizer.construct 0 0).deserialize le_format
        (some (put_le 8 5 ++ put_le 8 10 ++ put_le 8 0 ++
          (put_le 8 1 ++ put_le 8 0)))).1.m_spent = [∅] ∧
      ¬ ((atomizer.construct 0 0).deserialize le_format
        (some (put_le 8 5 ++ put_le 8 10 ++ put_le 8 0 ++
          (put_le 8 1 ++ put_le 8 0)))).1.well_formed :=
  ⟨by decide, rfl, by decide, by decide, by decide, by decide⟩

/-- C17, amended: for a format that decodes what it encodes and rejects
truncated scalars, loading a strict prefix of the bytes `serialize()` gives for
an instance whose values fit their types leaves the serializer failed, which is
the report of the load error; what the pending queue and the window hold after
it does not depend on the instance loaded into; and no load of any bytes ends
with the serializer valid in a state that mixes cleared fields with decoded
ones: when the serializer is left valid, depth, height, pending queue and window
are all four the values the bytes hold. -/
theorem deserialize_truncated (fmt : serializer_format) (hlaw : fmt.lawful)
    (htr : fmt.rejects_truncated) (s target : atomizer) (hrep : s.representable fmt)
    (p q : List Nat) (h : p ++ q = s.serialize fmt) (hq : q ≠ []) :
    (target.deserialize fmt (some p)).2 = none ∧
      (∀ other : atomizer,
        (other.deserialize fmt (some p)).1.m_complete_txs =
            (target.deserialize fmt (some p)).1.m_complete_txs ∧
          (other.deserialize fmt (some p)).1.m_spent =
            (target.deserialize fmt (some p)).1.m_spent) ∧
      ∀ (buf : List Nat) (c lc : atomizer) (rest : List Nat),
        c.deserialize fmt (some buf) = (lc, some rest) →
        snapshot_decode fmt buf =
          some (lc.m_spent_cache_depth, lc.m_best_height, lc.m_complete_txs, lc.m_spent,
            rest) := by
  refine ⟨deserialize_cut_fails fmt hlaw htr s target hrep p q h hq, ?_, ?_⟩
  · intro other
    obtain ⟨h1, h2, _⟩ := deserialize_containers fmt (some p) other target
    exact ⟨h1, h2⟩
  · intro buf c lc rest hc
    exact decode_of_deserialize fmt buf c lc rest hc

/-- C17 amended, at a concrete case: the first 16 of the 48 bytes of a fresh
instance of height 5 and depth 1, loaded into `demo_accepted`. -/
theorem deserialize_truncated_witness :
    (demo_accepted.deserialize le_format
        (some (((atomizer.construct 5 1).serialize le_format).take 16))).2 = none ∧
      (∀ other : atomizer,
        (other.deserialize le_format
            (some (((atomizer.construct 5 1).serialize le_format).take 16))).1.m_complete_txs =
            (demo_accepted.deserialize le_format
              (some (((atomizer.construct 5 1).serialize le_format).take 16))).1.m_complete_txs ∧
          (other.deserialize le_format
            (some (((atomizer.construct 5 1).serialize le_format).take 16))).1.m_spent =
            (demo_accepted.deserialize le_format
              (some (((atomizer.construct 5 1).serialize le_format).take 16))).1.m_spent) ∧
      ∀ (buf : List Nat) (c lc : atomizer) (rest : List Nat),
        c.deserialize le_format (some buf) = (lc, some rest) →
        snapshot_decode le_format buf =
          some (lc.m_spent_cache_depth, lc.m_best_height, lc.m_complete_txs, lc.m_spent,
            rest) :=
  deserialize_truncated le_format le_format_lawful le_format_rejects_truncated
    (atomizer.construct 5 1) demo_accepted (by decide)
    (((atomizer.construct 5 1).serialize le_format).take 16)
    (((atomizer.construct 5 1).serialize le_format).drop 16)
    (List.take_append_drop 16 _) (by decide)

/-! ## What changes the height -/

/-- C12, refuted as stated: loading into an instance of height 10 the bytes
`serialize()` gives for an instance of height 5 (little-endian format) leaves
`height()` at 5. -/
theorem deserialize_changes_height :
    (atomizer.construct 10 2).height = 10 ∧
      ((atomizer.construct 10 2).deserialize le_format
        (some ((atomizer.construct 5 2).serialize le_format))).1.height = 5 := by
  decide

/-- C12, amended: `insert_complete`, whether it accepts or rejects, and `prune`
leave `height()` unchanged (`get_block`, `pending_transactions`, `height` and
`serialize` only return a value); the snapshot load `deserialize` does change
it: after loading the bytes `serialize()` gave for an instance, `height()` is
the height of that instance. -/
theorem height_changed_only_by_make_block_and_deserialize (fuel : Nat) (s : atomizer)
    (oldest_attestation : Nat) (tx : compact_tx) (r : Option tx_error) (s1 : atomizer)
    (H : Nat) (fmt : serializer_format) (snapshot : atomizer)
    (hins : s.insert_complete fuel oldest_attestation tx = .ok (r, s1))
    (hlaw : fmt.lawful) (hrep : snapshot.representable fmt) :
    s1.height = s.height ∧ (s.prune H).height = s.height ∧
      (s.deserialize fmt (some (snapshot.serialize fmt))).1.height = snapshot.height := by
  refine ⟨?_, rfl, ?_⟩
  · rcases insert_complete_ok_cases fuel s oldest_attestation tx _ _ hins with
      ⟨_, hs⟩ | ⟨E, _, _, hs⟩ | ⟨_, slot, _, hs⟩ <;> subst hs <;> rfl
  · have h := deserialize_serialize fmt hlaw snapshot s [] hrep
    rw [List.append_nil] at h
    rw [h]
    rfl

/-- C12 amended, at a concrete case: a rejected `insert_complete`, `prune(3)`
and the load of a snapshot of height 5, on a fresh instance of height 10. -/
theorem height_changed_only_by_make_block_and_deserialize_witness :
    ({ atomizer.construct 10 2 with
        m_event_sampler := [⟨.discarded_expired, 1⟩] } : atomizer).height =
        (atomizer.construct 10 2).height ∧
      ((atomizer.construct 10 2).prune 3).height = (atomizer.construct 10 2).height ∧
      ((atomizer.construct 10 2).deserialize le_format
        (some ((atomizer.construct 5 2).serialize le_format))).1.height =
        (atomizer.construct 5 2).height :=
  height_changed_only_by_make_block_and_deserialize 5 (atomizer.construct 10 2) 0
    ⟨100, [7]⟩ (some ⟨100, .tx_error_stxo_range⟩)
    { atomizer.construct 10 2 with m_event_sampler := [⟨.discarded_expired, 1⟩] } 3
    le_format (atomizer.construct 5 2) rfl le_format_lawful (by decide)


/-! ## The scan covers the whole staleness interval -/

/-- C21: on a window of depth + 1 slots, when an input a of the transaction is
in slot j and the height offset lies between j and the depth, `insert_complete`
returns `InputsSpent` (given fuel for the rounds of the scan) with a set that
contains a, and the state is untouched but for the event log: every slot up to
the height offset is scanned, not only slot 0. -/
theorem scan_covers_interval (fuel : Nat) (s : atomizer) (oldest_attestation : Nat)
    (tx : compact_tx) (a : hash_t) (j : Nat) (hwf : s.well_formed)
    (_hj : j ≤ s.m_spent_cache_depth)
    (ha : a ∈ s.m_spent.getD j ∅) (hin : a ∈ tx.m_inputs)
    (hlo : j ≤ s.get_notification_offset oldest_attestation)
    (hhi : s.get_notification_offset oldest_attestation ≤ s.m_spent_cache_depth)
    (hfuel : s.get_notification_offset oldest_attestation + 2 ≤ fuel) :
    ∃ E, s.insert_complete fuel oldest_attestation tx =
        .ok (some ⟨tx.m_id, .tx_error_inputs_spent E⟩,
          { s with
            m_event_sampler := event_sampler_append s.m_event_sampler .discarded_spent }) ∧
      a ∈ E := by
  have hmem : a ∈ colliding_inputs s.m_spent tx.m_inputs
      (s.get_notification_offset oldest_attestation) := by
    unfold colliding_inputs
    simp only [Finset.mem_filter, List.mem_toFinset]
    exact ⟨hin, j, hlo, ha⟩
  have hne : colliding_inputs s.m_spent tx.m_inputs
      (s.get_notification_offset oldest_attestation) ≠ ∅ := Finset.ne_empty_of_mem hmem
  rw [insert_complete_within_depth fuel s oldest_attestation tx hwf hhi hfuel, if_pos hne]
  exact ⟨_, rfl, hmem⟩

/-- C21, at a concrete call: depth 2, height 10, the input 7 only in slot 2;
a transaction with the inputs 5 and 7 and attestation height 8 (offset 2) is
rejected with a set that contains 7. -/
theorem scan_covers_interval_witness :
    ∃ E, atomizer.insert_complete 4
        { atomizer.construct 10 2 with m_spent := [∅, ∅, {7}] } 8 ⟨100, [5, 7]⟩ =
        .ok (some ⟨100, .tx_error_inputs_spent E⟩,
          { atomizer.construct 10 2 with
            m_spent := [∅, ∅, {7}]
            m_event_sampler := event_sampler_append [] .discarded_spent }) ∧
      7 ∈ E :=
  scan_covers_interval 4 { atomizer.construct 10 2 with m_spent := [∅, ∅, {7}] } 8
    ⟨100, [5, 7]⟩ 7 2 (by decide) (by decide) (by decide) (by decide) (by decide)
    (by decide) (by decide)

/-! ## An attestation height ahead of the head -/

/-- C29: for `uint64_t` heights with the attestation height above the current
height, the height offset is 2^64 minus the distance; when that exceeds the
depth, a transaction with at least one input is rejected with `StxoRange`,
whatever the fuel, and the state is untouched but for the event log. -/
theorem attestation_ahead_stxo_range (fuel : Nat) (s : atomizer) (oldest_attestation : Nat)
    (tx : compact_tx) (hh : s.m_best_height < u64_mod) (hoa : oldest_attestation < u64_mod)
    (hahead : s.m_best_height < oldest_attestation)
    (hfar : s.m_spent_cache_depth < u64_mod - (oldest_attestation - s.m_best_height))
    (hin : tx.m_inputs ≠ []) :
    s.get_notification_offset oldest_attestation =
        u64_mod - (oldest_attestation - s.m_best_height) ∧
      s.insert_complete fuel oldest_attestation tx =
        .ok (some ⟨tx.m_id, .tx_error_stxo_range⟩,
          { s with
            m_event_sampler := event_sampler_append s.m_event_sampler .discarded_expired }) := by
  have hoff : s.get_notification_offset oldest_attestation =
      u64_mod - (oldest_attestation - s.m_best_height) := by
    unfold atomizer.get_notification_offset
    simp only [u64_mod] at *
    omega
  have hgt : s.m_spent_cache_depth < s.get_notification_offset oldest_attestation := by
    rw [hoff]
    exact hfar
  refine ⟨hoff, ?_⟩
  unfold atomizer.insert_complete atomizer.check_notification_offset
  simp only [gt_iff_lt, hgt, hin, ne_eq, not_false_eq_true, and_self, if_true]

/-- C29, at a concrete call: depth 2, height 10, attestation height 11; the
offset is 2^64 - 1 and the submission is rejected as stale. -/
theorem attestation_ahead_stxo_range_witness :
    atomizer.get_notification_offset (atomizer.construct 10 2) 11 =
        u64_mod - (11 - (atomizer.construct 10 2).m_best_height) ∧
      atomizer.insert_complete 0 (atomizer.construct 10 2) 11 ⟨100, [7]⟩ =
        .ok (some ⟨100, .tx_error_stxo_range⟩,
          { atomizer.construct 10 2 with
            m_event_sampler := event_sampler_append [] .discarded_expired }) :=
  attestation_ahead_stxo_range 0 (atomizer.construct 10 2) 11 ⟨100, [7]⟩
    (by decide) (by decide) (by decide) (by decide) (by decide)

/-! ## The block store across a snapshot load -/

/-- C28: `deserialize` leaves the block store alone: whatever the instance, the
format and the bytes, `get_block` returns after the load what it returned
before for every height; and the block store is no part of the snapshot, since
`serialize` gives the same bytes whatever the block store holds. -/
theorem deserialize_keeps_block_store (fmt : serializer_format) (s : atomizer)
    (buf : serializer) (h : Nat) :
    (s.deserialize fmt buf).1.get_block h = s.get_block h ∧
      (s.deserialize fmt buf).1.m_blocks = s.m_blocks ∧
      ∀ blocks : Nat → Option block,
        atomizer.serialize fmt { s with m_blocks := blocks } = atomizer.serialize fmt s :=
  ⟨rfl, rfl, fun _ => rfl⟩


/-! ## Window indexing -/

/-- The scan never leaves the window when the transaction has no input or the
range is an index of the window: it returns or runs out of fuel. -/
theorem check_offsets_in_bounds (spent : List (Finset hash_t)) (inputs : List hash_t)
    (cache_check_range : Nat) (hb : inputs = [] ∨ cache_check_range < spent.length)
    (fuel : Nat) :
    ∀ (offset : Nat) (err_set : Finset hash_t),
      check_offsets spent inputs cache_check_range fuel offset err_set ≠
        .error .out_of_range := by
  induction fuel with
  | zero =>
    intro offset err_set h
    simp [check_offsets] at h
  | succ fuel ih =>
    intro offset err_set h
    unfold check_offsets at h
    split at h
    · rename_i hle
      split at h
      · rename_i e hin
        rcases hb with hb | hb
        · subst hb
          simp [check_inputs] at hin
        · have hlt : offset < spent.length := by omega
          obtain ⟨E, hE, _⟩ := check_inputs_ok spent offset spent[offset]
            (List.getElem?_eq_getElem hlt) inputs err_set
          rw [hE] at hin
          cases hin
      · exact ih _ _ h
    · cases h

/-- C26: on a window of depth + 1 slots, whatever the attestation height, the
transaction and the fuel, `insert_complete` never indexes the window outside
its bounds (it returns, or the scan runs out of fuel) and `make_block` returns;
the scan itself stays in bounds whenever the transaction has no input or the
range is at most the depth, and when `check_notification_offset` lets a
transaction with an input through, the height offset is at most the depth. -/
theorem window_indexing_in_bounds (fuel : Nat) (s : atomizer) (oldest_attestation : Nat)
    (tx : compact_tx) (hlen : s.m_spent.length = s.m_spent_cache_depth + 1) :
    s.insert_complete fuel oldest_attestation tx ≠ .error .out_of_range ∧
      (∃ h s1, s.make_block = .ok (h, s1)) ∧
      (∀ cache_check_range, tx.m_inputs = [] ∨ cache_check_range ≤ s.m_spent_cache_depth →
        s.check_stxo_cache fuel tx cache_check_range ≠ .error .out_of_range) ∧
      (s.check_notification_offset (s.get_notification_offset oldest_attestation) tx = none →
        tx.m_inputs ≠ [] →
        s.get_notification_offset oldest_attestation ≤ s.m_spent_cache_depth) := by
  have hscan : ∀ cache_check_range,
      tx.m_inputs = [] ∨ cache_check_range ≤ s.m_spent_cache_depth →
      s.check_stxo_cache fuel tx cache_check_range ≠ .error .out_of_range := by
    intro range hb h
    have hb1 : tx.m_inputs = [] ∨ range < s.m_spent.length := by
      rcases hb with hb | hb
      · exact Or.inl hb
      · exact Or.inr (by omega)
    unfold atomizer.check_stxo_cache at h
    split at h
    · rename_i e hchk
      injection h with h
      subst h
      exact check_offsets_in_bounds s.m_spent tx.m_inputs range hb1 fuel 0 ∅ hchk
    · split at h <;> cases h
  have hguard : s.check_notification_offset
      (s.get_notification_offset oldest_attestation) tx = none →
      tx.m_inputs ≠ [] →
      s.get_notification_offset oldest_attestation ≤ s.m_spent_cache_depth := by
    intro hnone hin
    unfold atomizer.check_notification_offset at hnone
    split at hnone
    · cases hnone
    · rename_i hcond
      by_contra hgt
      exact hcond ⟨by omega, hin⟩
  refine ⟨?_, ?_, hscan, hguard⟩
  · intro h
    unfold atomizer.insert_complete at h
    simp only at h
    split at h
    · cases h
    · rename_i hnone
      have hb : tx.m_inputs = [] ∨
          s.get_notification_offset oldest_attestation ≤ s.m_spent_cache_depth := by
        by_cases hin : tx.m_inputs = []
        · exact Or.inl hin
        · exact Or.inr (hguard hnone hin)
      split at h
      · rename_i e hchk
        injection h with h
        subst h
        exact hscan _ hb hchk
      · cases h
      · split at h
        · rename_i e hadd
          unfold add_tx_to_stxo_cache at hadd
          have hpos : 0 < s.m_spent.length := by omega
          rw [List.getElem?_eq_getElem hpos] at hadd
          cases hadd
        · cases h
  · obtain ⟨spent1, hmk, _⟩ := make_block_ok s (by omega)
    exact ⟨_, _, hmk⟩

/-- C26, at a concrete call: depth 2 with three slots, a submission whose offset
is the depth: neither call faults. -/
theorem window_indexing_in_bounds_witness :
    atomizer.insert_complete 4 (atomizer.construct 10 2) 8 ⟨100, [7]⟩ ≠
        .error .out_of_range ∧
      (∃ h s1, (atomizer.construct 10 2).make_block = .ok (h, s1)) ∧
      (∀ cache_check_range,
        (⟨100, [7]⟩ : compact_tx).m_inputs = [] ∨
            cache_check_range ≤ (atomizer.construct 10 2).m_spent_cache_depth →
        (atomizer.construct 10 2).check_stxo_cache 4 ⟨100, [7]⟩ cache_check_range ≠
          .error .out_of_range) ∧
      ((atomizer.construct 10 2).check_notification_offset
          ((atomizer.construct 10 2).get_notification_offset 8) ⟨100, [7]⟩ = none →
        (⟨100, [7]⟩ : compact_tx).m_inputs ≠ [] →
        (atomizer.construct 10 2).get_notification_offset 8 ≤
          (atomizer.construct 10 2).m_spent_cache_depth) :=
  window_indexing_in_bounds 4 (atomizer.construct 10 2) 8 ⟨100, [7]⟩ (by decide)

/-! ## Determinism -/

/-- The fields `operator==` compares, as equations. -/
theorem operator_eq_fields (a b : atomizer) (heq : a.operator_eq b = true) :
    a.m_complete_txs = b.m_complete_txs ∧ a.m_spent = b.m_spent ∧
      a.m_best_height = b.m_best_height ∧ a.m_spent_cache_depth = b.m_spent_cache_depth := by
  unfold atomizer.operator_eq at heq
  simp only [Bool.and_eq_true, decide_eq_true_eq] at heq
  obtain ⟨⟨⟨h1, h2⟩, h3⟩, h4⟩ := heq
  exact ⟨h1, h2, h3, h4⟩

/-- C24: on two instances equal under `operator==`, the same `insert_complete`
call (same fuel, attestation height and transaction) and `make_block` behave
alike: when one returns, the other returns the same result (the same optional
error, or the same height) and the two are again equal under `operator==`; when
one does not return, neither does the other. The block store and the event log,
which `operator==` does not compare, never decide the outcome. -/
theorem same_call_same_outcome (fuel : Nat) (a b : atomizer) (oldest_attestation : Nat)
    (tx : compact_tx) (heq : a.operator_eq b = true) :
    (∀ r a1, a.insert_complete fuel oldest_attestation tx = .ok (r, a1) →
        ∃ b1, b.insert_complete fuel oldest_attestation tx = .ok (r, b1) ∧
          a1.operator_eq b1 = true) ∧
      (∀ e, a.insert_complete fuel oldest_attestation tx = .error e →
        b.insert_complete fuel oldest_attestation tx = .error e) ∧
      (∀ h a1, a.make_block = .ok (h, a1) →
        ∃ b1, b.make_block = .ok (h, b1) ∧ a1.operator_eq b1 = true) ∧
      (∀ e, a.make_block = .error e → b.make_block = .error e) := by
  obtain ⟨h1, h2, h3, h4⟩ := operator_eq_fields a b heq
  obtain ⟨ba, ta, sa, ha, da, ea⟩ := a
  obtain ⟨bb, tb, sb, hb, db, eb⟩ := b
  simp only at h1 h2 h3 h4
  subst h1 h2 h3 h4
  refine ⟨?_, ?_, ?_, ?_⟩
  · intro r a1 h
    unfold atomizer.insert_complete at h ⊢
    unfold atomizer.check_notification_offset atomizer.check_stxo_cache
      atomizer.get_notification_offset at h ⊢
    simp only at h ⊢
    split at h
    · rename_i offset_err hoff
      try rw [hoff]
      injection h with h
      injection h with hr hs
      subst hr hs
      exact ⟨_, rfl, by simp [atomizer.operator_eq]⟩
    · rename_i hoff
      try rw [hoff]
      try simp only
      split at h
      · cases h
      · rename_i err hchk
        try rw [hchk]
        injection h with h
        injection h with hr hs
        subst hr hs
        exact ⟨_, rfl, by simp [atomizer.operator_eq]⟩
      · rename_i hchk
        try rw [hchk]
        try simp only
        split at h
        · cases h
        · rename_i spent hadd
          try rw [hadd]
          injection h with h
          injection h with hr hs
          subst hr hs
          exact ⟨_, rfl, by simp [atomizer.operator_eq]⟩
  · intro e h
    unfold atomizer.insert_complete at h ⊢
    unfold atomizer.check_notification_offset atomizer.check_stxo_cache
      atomizer.get_notification_offset at h ⊢
    simp only at h ⊢
    split at h
    · cases h
    · rename_i hoff
      try rw [hoff]
      try simp only
      split at h
      · rename_i e1 hchk
        try rw [hchk]
        exact h
      · cases h
      · rename_i hchk
        try rw [hchk]
        try simp only
        split at h
        · rename_i e1 hadd
          try rw [hadd]
          exact h
        · cases h
  · intro h a1 hmk
    unfold atomizer.make_block at hmk ⊢
    simp only at hmk ⊢
    split at hmk
    · cases hmk
    · rename_i spent hrot
      try rw [hrot]
      try simp only
      split at hmk
      · rename_i hpos
        try rw [if_pos hpos]
        injection hmk with hmk
        injection hmk with hr hs
        subst hr hs
        exact ⟨_, rfl, by simp [atomizer.operator_eq]⟩
      · cases hmk
  · intro e hmk
    unfold atomizer.make_block at hmk ⊢
    simp only at hmk ⊢
    split at hmk
    · rename_i e1 hrot
      try rw [hrot]
      exact hmk
    · rename_i spent hrot
      try rw [hrot]
      try simp only
      split at hmk
      · cases hmk
      · rename_i hpos
        try rw [if_neg hpos]
        exact hmk


/-- C24, at a concrete pair: a fresh instance and one with a stored block and a
logged event, equal under `operator==`. -/
theorem same_call_same_outcome_witness :
    (∀ r a1, (atomizer.construct 10 2).insert_complete 4 10 ⟨100, [7]⟩ = .ok (r, a1) →
        ∃ b1, atomizer.insert_complete 4
            { atomizer.construct 10 2 with
              m_blocks := restored_state.m_blocks
              m_event_sampler := [⟨.make_block, 0⟩] } 10 ⟨100, [7]⟩ = .ok (r, b1) ∧
          a1.operator_eq b1 = true) ∧
      (∀ e, (atomizer.construct 10 2).insert_complete 4 10 ⟨100, [7]⟩ = .error e →
        atomizer.insert_complete 4
            { atomizer.construct 10 2 with
              m_blocks := restored_state.m_blocks
              m_event_sampler := [⟨.make_block, 0⟩] } 10 ⟨100, [7]⟩ = .error e) ∧
      (∀ h a1, (atomizer.construct 10 2).make_block = .ok (h, a1) →
        ∃ b1, atomizer.make_block
            { atomizer.construct 10 2 with
              m_blocks := restored_state.m_blocks
              m_event_sampler := [⟨.make_block, 0⟩] } = .ok (h, b1) ∧
          a1.operator_eq b1 = true) ∧
      (∀ e, (atomizer.construct 10 2).make_block = .error e →
        atomizer.make_block
            { atomizer.construct 10 2 with
              m_blocks := restored_state.m_blocks
              m_event_sampler := [⟨.make_block, 0⟩] } = .error e) :=
  same_call_same_outcome 4 (atomizer.construct 10 2)
    { atomizer.construct 10 2 with
      m_blocks := restored_state.m_blocks
      m_event_sampler := [⟨.make_block, 0⟩] } 10 ⟨100, [7]⟩ (by decide)

/-! ## Invariants of the reachable states -/

/-- The loop of the constructor returns only when the slots it tunes exist. -/
theorem tune_spent_ok (spent : List (Finset hash_t)) :
    ∀ n, tune_spent spent n = .ok () → n ≤ spent.length := by
  intro n
  induction n with
  | zero => intro _; exact Nat.zero_le _
  | succ n ih =>
    intro h
    unfold tune_spent at h
    split at h
    · cases h
    · split at h
      · omega
      · cases h

/-- The loop of the constructor returns when the slots it tunes exist. -/
theorem tune_spent_of_le (spent : List (Finset hash_t)) :
    ∀ n, n ≤ spent.length → tune_spent spent n = .ok () := by
  intro n
  induction n with
  | zero => intro _; rfl
  | succ n ih =>
    intro h
    unfold tune_spent
    rw [ih (by omega)]
    simp only
    rw [if_pos (by omega)]

/-- When the constructor returns, the depth is below the largest `size_t` and
the instance is the one `atomizer.construct` describes. -/
theorem construct_tuned_ok (best_height stxo_cache_depth : Nat) (s : atomizer)
    (hc : atomizer.construct_tuned best_height stxo_cache_depth = .ok s) :
    s = atomizer.construct best_height stxo_cache_depth ∧ stxo_cache_depth + 1 < u64_mod := by
  unfold atomizer.construct_tuned at hc
  simp only at hc
  split at hc
  · cases hc
  · rename_i htune
    injection hc with hc
    have hle := tune_spent_ok _ _ htune
    simp only [atomizer.construct, List.length_replicate] at hle
    refine ⟨hc.symm, ?_⟩
    simp only [u64_mod] at *
    omega

/-- The constructor returns for every depth below the largest `size_t`. -/
theorem construct_tuned_returns (best_height stxo_cache_depth : Nat)
    (hd : stxo_cache_depth + 1 < u64_mod) :
    atomizer.construct_tuned best_height stxo_cache_depth =
      .ok (atomizer.construct best_height stxo_cache_depth) := by
  unfold atomizer.construct_tuned
  simp only
  rw [tune_spent_of_le]
  simp only [atomizer.construct, List.length_replicate, Nat.mod_eq_of_lt hd]
  omega

/-- A property that every returning call preserves holds after every returning
run that starts where it holds. -/
theorem run_invariant (P : atomizer → Prop) (fuel : Nat)
    (hstep : ∀ s o r s1, P s → atomizer.apply fuel s o = .ok (r, s1) → P s1)
    (ops : List op) :
    ∀ (s : atomizer) (rs : List op_result) (s2 : atomizer), P s →
      atomizer.run fuel s ops = .ok (rs, s2) → P s2 := by
  induction ops with
  | nil =>
    intro s rs s2 hP h
    unfold atomizer.run at h
    injection h with h
    injection h with _ hs
    subst hs
    exact hP
  | cons o ops ih =>
    intro s rs s2 hP h
    unfold atomizer.run at h
    split at h
    · cases h
    · rename_i r s1 hap
      split at h
      · cases h
      · rename_i rs1 s2a hrun
        injection h with h
        injection h with _ hs
        subst hs
        exact ih s1 rs1 _ (hstep s o r s1 hP hap) hrun

/-- C22: in every state reached from a constructed instance of depth D by
`insert_complete`, `make_block` and `prune` calls that return, the depth is D
and the window has D + 1 slots. -/
theorem window_size_invariant (fuel best_height stxo_cache_depth : Nat) (s : atomizer)
    (ops : List op) (rs : List op_result) (s2 : atomizer)
    (hc : atomizer.construct_tuned best_height stxo_cache_depth = .ok s)
    (hrun : atomizer.run fuel s ops = .ok (rs, s2)) :
    s2.m_spent_cache_depth = stxo_cache_depth ∧ s2.m_spent.length = stxo_cache_depth + 1 := by
  obtain ⟨hs, hd⟩ := construct_tuned_ok best_height stxo_cache_depth s hc
  subst hs
  obtain ⟨hwf, hdepth⟩ := run_ok_well_formed fuel ops _ rs s2
    (construct_well_formed best_height stxo_cache_depth hd) hrun
  have hD : s2.m_spent_cache_depth = stxo_cache_depth := hdepth
  exact ⟨hD, by rw [hwf.1, hD]⟩

/-- C22, on a concrete run: depth 2, an accepted submission, a block, a prune
and a rejected submission. -/
theorem window_size_invariant_witness :
    (atomizer.state_after 4 (atomizer.construct 10 2)
        [.insert_complete 10 ⟨100, [7]⟩, .make_block, .prune 11,
          .insert_complete 10 ⟨101, [7]⟩]).m_spent_cache_depth = 2 ∧
      (atomizer.state_after 4 (atomizer.construct 10 2)
        [.insert_complete 10 ⟨100, [7]⟩, .make_block, .prune 11,
          .insert_complete 10 ⟨101, [7]⟩]).m_spent.length = 2 + 1 :=
  window_size_invariant 4 10 2 (atomizer.construct 10 2)
    [.insert_complete 10 ⟨100, [7]⟩, .make_block, .prune 11, .insert_complete 10 ⟨101, [7]⟩]
    [.inserted none, .block_made 11, .pruned,
      .inserted (some ⟨101, .tx_error_inputs_spent {7}⟩)]
    _ rfl rfl


/-- The inputs of a queue with one more transaction at the back. -/
theorem queue_inputs_append (txs : List compact_tx) (tx : compact_tx) :
    queue_inputs (txs ++ [tx]) = queue_inputs txs ∪ tx.m_inputs.toFinset := by
  induction txs with
  | nil => simp [queue_inputs]
  | cons t txs ih =>
    have e1 : queue_inputs (t :: txs ++ [tx]) =
        t.m_inputs.toFinset ∪ queue_inputs (txs ++ [tx]) := rfl
    have e2 : queue_inputs (t :: txs) = t.m_inputs.toFinset ∪ queue_inputs txs := rfl
    rw [e1, e2, ih, Finset.union_assoc]

/-- An input is among the inputs of a queue exactly when a transaction of the
queue has it. -/
theorem mem_queue_inputs (txs : List compact_tx) (a : hash_t) :
    a ∈ queue_inputs txs ↔ ∃ t ∈ txs, a ∈ t.m_inputs := by
  induction txs with
  | nil => simp [queue_inputs]
  | cons t txs ih =>
    have e2 : queue_inputs (t :: txs) = t.m_inputs.toFinset ∪ queue_inputs txs := rfl
    rw [e2, Finset.mem_union, ih, List.mem_toFinset]
    simp only [List.mem_cons, exists_eq_or_imp]

/-- A list with an element at index 0 is not empty. -/
theorem length_pos_of_getElem?_zero (l : List (Finset hash_t)) (x : Finset hash_t)
    (h : l[0]? = some x) : 0 < l.length := by
  cases l with
  | nil => simp at h
  | cons _ _ => simp

/-- One returning call keeps slot 0 equal to the inputs of the pending queue. -/
theorem apply_ok_slot0 (fuel : Nat) (s : atomizer) (o : op) (r : op_result) (s1 : atomizer)
    (hP : s.m_spent[0]? = some (queue_inputs s.m_complete_txs))
    (h : s.apply fuel o = .ok (r, s1)) :
    s1.m_spent[0]? = some (queue_inputs s1.m_complete_txs) := by
  cases o with
  | insert_complete oa tx =>
    unfold atomizer.apply at h
    simp only at h
    split at h
    · cases h
    · rename_i err s1a hins
      injection h with h
      injection h with _ hs
      subst hs
      rcases insert_complete_ok_cases fuel s oa tx _ _ hins with
        ⟨_, hs⟩ | ⟨E, _, _, hs⟩ | ⟨_, slot0, hslot, hs⟩
      · subst hs
        exact hP
      · subst hs
        exact hP
      · subst hs
        have hpos := length_pos_of_getElem?_zero _ _ hP
        rw [hP] at hslot
        injection hslot with hslot
        subst hslot
        show (s.m_spent.set 0 (queue_inputs s.m_complete_txs ∪ tx.m_inputs.toFinset))[0]? =
          some (queue_inputs (s.m_complete_txs ++ [tx]))
        rw [queue_inputs_append]
        simp only [List.getElem?_set, hpos, if_true]
  | make_block =>
    unfold atomizer.apply at h
    simp only at h
    split at h
    · cases h
    · rename_i ht s1a hmk
      injection h with h
      injection h with _ hs
      subst hs
      obtain ⟨hlt, _, _, htxs, _, _⟩ := make_block_ok_cases s ht s1a hmk
      obtain ⟨spent1, heq, _, h0, _, _⟩ := make_block_ok s hlt
      rw [heq] at hmk
      injection hmk with hmk
      injection hmk with _ hs
      subst hs
      exact h0
  | prune height =>
    unfold atomizer.apply at h
    injection h with h
    injection h with _ hs
    subst hs
    exact hP

/-- Slot 0 of a freshly constructed instance is empty, as is its queue. -/
theorem construct_tuned_slot0 (best_height stxo_cache_depth : Nat) (s : atomizer)
    (hc : atomizer.construct_tuned best_height stxo_cache_depth = .ok s) :
    s.m_spent[0]? = some ∅ ∧ s.m_complete_txs = [] := by
  obtain ⟨hs, hd⟩ := construct_tuned_ok best_height stxo_cache_depth s hc
  subst hs
  refine ⟨?_, rfl⟩
  show (List.replicate ((stxo_cache_depth + 1) % u64_mod) (∅ : Finset hash_t))[0]? = some ∅
  rw [Nat.mod_eq_of_lt hd, List.replicate_succ]
  simp only [List.getElem?_cons_zero]

/-- C23: in every state reached from a constructed instance by
`insert_complete`, `make_block` and `prune` calls that return, slot 0 of the
window is the union of the input sets of the pending transactions: an input is
in slot 0 exactly when a pending transaction has it. Slot 0 is empty right after
construction and right after a `make_block` from such a state. -/
theorem slot0_is_pending_inputs (fuel best_height stxo_cache_depth : Nat) (s : atomizer)
    (ops : List op) (rs : List op_result) (s2 : atomizer)
    (hc : atomizer.construct_tuned best_height stxo_cache_depth = .ok s)
    (hrun : atomizer.run fuel s ops = .ok (rs, s2)) :
    s2.m_spent[0]? = some (queue_inputs s2.m_complete_txs) ∧
      (∀ a, a ∈ s2.m_spent.getD 0 ∅ ↔ ∃ t ∈ s2.m_complete_txs, a ∈ t.m_inputs) ∧
      s.m_spent[0]? = some ∅ ∧
      (∀ h s3, s2.make_block = .ok (h, s3) →
        s3.m_spent[0]? = some ∅ ∧ s3.m_complete_txs = []) := by
  obtain ⟨h0, htxs⟩ := construct_tuned_slot0 best_height stxo_cache_depth s hc
  have hP : s.m_spent[0]? = some (queue_inputs s.m_complete_txs) := by
    rw [htxs]
    exact h0
  have hP2 := run_invariant (fun t => t.m_spent[0]? = some (queue_inputs t.m_complete_txs))
    fuel (fun t o r t1 => apply_ok_slot0 fuel t o r t1) ops s rs s2 hP hrun
  refine ⟨hP2, ?_, h0, ?_⟩
  · intro a
    rw [getD_of_getElem? _ _ _ hP2]
    exact mem_queue_inputs _ a
  · intro h s3 hmk
    have hap : s2.apply fuel .make_block = .ok (.block_made h, s3) := by
      unfold atomizer.apply
      rw [hmk]
    have h3 := apply_ok_slot0 fuel s2 _ _ s3 hP2 hap
    obtain ⟨_, _, _, htxs3, _, _⟩ := make_block_ok_cases s2 h s3 hmk
    rw [htxs3] at h3
    exact ⟨h3, htxs3⟩

/-- C23, on a concrete run: depth 2, two accepted submissions after a block. -/
theorem slot0_is_pending_inputs_witness :
    (atomizer.state_after 4 (atomizer.construct 10 2)
        [.insert_complete 10 ⟨100, [7]⟩, .make_block, .insert_complete 11 ⟨101, [8, 9]⟩,
          .insert_complete 11 ⟨102, [5]⟩]).m_spent[0]? =
        some (queue_inputs (atomizer.state_after 4 (atomizer.construct 10 2)
          [.insert_complete 10 ⟨100, [7]⟩, .make_block, .insert_complete 11 ⟨101, [8, 9]⟩,
            .insert_complete 11 ⟨102, [5]⟩]).m_complete_txs) ∧
      (∀ a, a ∈ (atomizer.state_after 4 (atomizer.construct 10 2)
          [.insert_complete 10 ⟨100, [7]⟩, .make_block, .insert_complete 11 ⟨101, [8, 9]⟩,
            .insert_complete 11 ⟨102, [5]⟩]).m_spent.getD 0 ∅ ↔
        ∃ t ∈ (atomizer.state_after 4 (atomizer.construct 10 2)
          [.insert_complete 10 ⟨100, [7]⟩, .make_block, .insert_complete 11 ⟨101, [8, 9]⟩,
            .insert_complete 11 ⟨102, [5]⟩]).m_complete_txs, a ∈ t.m_inputs) ∧
      (atomizer.construct 10 2).m_spent[0]? = some ∅ ∧
      (∀ h s3, (atomizer.state_after 4 (atomizer.construct 10 2)
          [.insert_complete 10 ⟨100, [7]⟩, .make_block, .insert_complete 11 ⟨101, [8, 9]⟩,
            .insert_complete 11 ⟨102, [5]⟩]).make_block = .ok (h, s3) →
        s3.m_spent[0]? = some ∅ ∧ s3.m_complete_txs = []) :=
  slot0_is_pending_inputs 4 10 2 (atomizer.construct 10 2)
    [.insert_complete 10 ⟨100, [7]⟩, .make_block, .insert_complete 11 ⟨101, [8, 9]⟩,
      .insert_complete 11 ⟨102, [5]⟩]
    [.inserted none, .block_made 11, .inserted none, .inserted none]
    _ rfl rfl


/-! ## No input is spent twice in a block -/

/-- The inner loop only adds to the set it was given, and adds every input it
finds in the slot. -/
theorem check_inputs_grows (spent : List (Finset hash_t)) (offset : Nat)
    (inputs : List hash_t) :
    ∀ (err_set E : Finset hash_t), check_inputs spent offset inputs err_set = .ok E →
      err_set ⊆ E ∧ ∀ a ∈ inputs, a ∈ spent.getD offset ∅ → a ∈ E := by
  induction inputs with
  | nil =>
    intro err_set E h
    unfold check_inputs at h
    injection h with h
    subst h
    exact ⟨Finset.Subset.refl _, fun a ha => by simp at ha⟩
  | cons inp rest ih =>
    intro err_set E h
    unfold check_inputs at h
    split at h
    · cases h
    · rename_i slot hslot
      obtain ⟨hsub, hall⟩ := ih _ E h
      have hD := getD_of_getElem? _ _ _ hslot
      refine ⟨?_, ?_⟩
      · intro x hx
        apply hsub
        by_cases hin : inp ∈ slot
        · simp only [hin, if_true, Finset.mem_insert]
          exact Or.inr hx
        · simp only [hin, if_false]
          exact hx
      · intro a ha hmem
        rcases List.mem_cons.mp ha with rfl | ha
        · apply hsub
          rw [hD] at hmem
          simp only [hmem, if_true, Finset.mem_insert_self]
        · exact hall a ha hmem

/-- The scan only adds to the set it was given. -/
theorem check_offsets_grows (spent : List (Finset hash_t)) (inputs : List hash_t)
    (cache_check_range : Nat) (fuel : Nat) :
    ∀ (offset : Nat) (err_set E : Finset hash_t),
      check_offsets spent inputs cache_check_range fuel offset err_set = .ok E →
      err_set ⊆ E := by
  induction fuel with
  | zero =>
    intro offset err_set E h
    simp [check_offsets] at h
  | succ fuel ih =>
    intro offset err_set E h
    unfold check_offsets at h
    split at h
    · split at h
      · cases h
      · rename_i err1 hin
        exact (check_inputs_grows spent offset inputs err_set err1 hin).1.trans (ih _ _ E h)
    · injection h with h
      subst h
      exact Finset.Subset.refl _

/-- Whatever the range and the fuel, a scan that returns has looked at slot 0:
the returned set holds every input found there. -/
theorem check_offsets_scans_slot0 (spent : List (Finset hash_t)) (inputs : List hash_t)
    (cache_check_range fuel : Nat) (E : Finset hash_t)
    (h : check_offsets spent inputs cache_check_range fuel 0 ∅ = .ok E) :
    ∀ a ∈ inputs, a ∈ spent.getD 0 ∅ → a ∈ E := by
  cases fuel with
  | zero => simp [check_offsets] at h
  | succ fuel =>
    unfold check_offsets at h
    rw [if_pos (Nat.zero_le _)] at h
    split at h
    · cases h
    · rename_i err1 hin
      intro a ha hmem
      exact check_offsets_grows spent inputs cache_check_range fuel _ _ E h
        ((check_inputs_grows spent 0 inputs ∅ err1 hin).2 a ha hmem)

/-- An accepted `insert_complete` comes after a scan that returned the empty
set. -/
theorem insert_complete_accepted_scan (fuel : Nat) (s s1 : atomizer) (oa : Nat)
    (tx : compact_tx) (h : s.insert_complete fuel oa tx = .ok (none, s1)) :
    check_offsets s.m_spent tx.m_inputs (s.get_notification_offset oa) fuel 0 ∅ = .ok ∅ := by
  unfold atomizer.insert_complete at h
  simp only at h
  split at h
  · injection h with h
    injection h with h1 _
    cases h1
  · split at h
    · cases h
    · injection h with h
      injection h with h1 _
      cases h1
    · rename_i hchk
      unfold atomizer.check_stxo_cache at hchk
      split at hchk
      · cases hchk
      · rename_i E hE
        split at hchk
        · injection hchk with hchk
          cases hchk
        · rename_i hempty
          rw [hE, not_not.mp hempty]

/-- The property that rules out a double spend: slot 0 is the inputs of the
pending queue, no two pending transactions share an input, and neither do two
transactions of a stored block. One returning call preserves it. -/
theorem apply_ok_no_shared_input (fuel : Nat) (s : atomizer) (o : op) (r : op_result)
    (s1 : atomizer)
    (hP : s.m_spent[0]? = some (queue_inputs s.m_complete_txs) ∧
      no_shared_input s.m_complete_txs ∧
      ∀ k b, s.m_blocks k = some b → no_shared_input b.m_transactions)
    (h : s.apply fuel o = .ok (r, s1)) :
    s1.m_spent[0]? = some (queue_inputs s1.m_complete_txs) ∧
      no_shared_input s1.m_complete_txs ∧
      ∀ k b, s1.m_blocks k = some b → no_shared_input b.m_transactions := by
  obtain ⟨h0, hq, hb⟩ := hP
  refine ⟨apply_ok_slot0 fuel s o r s1 h0 h, ?_⟩
  cases o with
  | insert_complete oa tx =>
    unfold atomizer.apply at h
    simp only at h
    split at h
    · cases h
    · rename_i err s1a hins
      injection h with h
      injection h with _ hs
      subst hs
      rcases insert_complete_ok_cases fuel s oa tx _ _ hins with
        ⟨_, hs⟩ | ⟨E, _, _, hs⟩ | ⟨hr, slot0, hslot, hs⟩
      · subst hs
        exact ⟨hq, hb⟩
      · subst hs
        exact ⟨hq, hb⟩
      · subst hr
        have hscan := check_offsets_scans_slot0 _ _ _ _ _
          (insert_complete_accepted_scan fuel s _ oa tx hins)
        subst hs
        refine ⟨?_, hb⟩
        show no_shared_input (s.m_complete_txs ++ [tx])
        unfold no_shared_input at hq ⊢
        rw [List.pairwise_append]
        refine ⟨hq, List.pairwise_singleton _ _, ?_⟩
        intro t ht u hu a ha hau
        rw [List.mem_singleton] at hu
        subst hu
        have hmem : a ∈ s.m_spent.getD 0 ∅ := by
          rw [getD_of_getElem? _ _ _ h0]
          exact (mem_queue_inputs _ a).mpr ⟨t, ht, ha⟩
        have := hscan a hau hmem
        simp at this
  | make_block =>
    unfold atomizer.apply at h
    simp only at h
    split at h
    · cases h
    · rename_i ht s1a hmk
      injection h with h
      injection h with _ hs
      subst hs
      obtain ⟨_, _, hblocks, htxs, _, _⟩ := make_block_ok_cases s ht s1a hmk
      refine ⟨?_, ?_⟩
      · rw [htxs]
        exact List.Pairwise.nil
      · intro k b hk
        rw [hblocks] at hk
        unfold unordered_map_insert at hk
        by_cases hkh : k = ht
        · rw [if_pos hkh] at hk
          cases hold : s.m_blocks ht with
          | none =>
            rw [hold] at hk
            injection hk with hk
            subst hk
            exact hq
          | some old =>
            rw [hold] at hk
            injection hk with hk
            subst hk
            exact hb ht old hold
        · rw [if_neg hkh] at hk
          exact hb k b hk
  | prune height =>
    unfold atomizer.apply at h
    injection h with h
    injection h with _ hs
    subst hs
    refine ⟨hq, ?_⟩
    intro k b hk
    unfold atomizer.prune at hk
    simp only at hk
    cases hold : s.m_blocks k with
    | none => rw [hold] at hk; cases hk
    | some old =>
      rw [hold] at hk
      simp only at hk
      split at hk
      · cases hk
      · injection hk with hk
        subst hk
        exact hb k old hold

/-- C25: in every state reached from a constructed instance by
`insert_complete`, `make_block` and `prune` calls that return, no input hash
occurs in two transactions of the pending queue; no stored block holds two
transactions that share an input, and neither does the block a further
`make_block` stores. -/
theorem no_double_spend_in_block (fuel best_height stxo_cache_depth : Nat) (s : atomizer)
    (ops : List op) (rs : List op_result) (s2 : atomizer)
    (hc : atomizer.construct_tuned best_height stxo_cache_depth = .ok s)
    (hrun : atomizer.run fuel s ops = .ok (rs, s2)) :
    no_shared_input s2.m_complete_txs ∧
      (∀ k b, s2.get_block k = some b → no_shared_input b.m_transactions) ∧
      (∀ h s3, s2.make_block = .ok (h, s3) →
        ∀ b, s3.get_block h = some b → no_shared_input b.m_transactions) := by
  obtain ⟨h0, htxs⟩ := construct_tuned_slot0 best_height stxo_cache_depth s hc
  obtain ⟨hs, _⟩ := construct_tuned_ok best_height stxo_cache_depth s hc
  have hP : s.m_spent[0]? = some (queue_inputs s.m_complete_txs) ∧
      no_shared_input s.m_complete_txs ∧
      ∀ k b, s.m_blocks k = some b → no_shared_input b.m_transactions := by
    refine ⟨by rw [htxs]; exact h0, by rw [htxs]; exact List.Pairwise.nil, ?_⟩
    intro k b hk
    rw [hs] at hk
    cases hk
  have hP2 := run_invariant
    (fun t => t.m_spent[0]? = some (queue_inputs t.m_complete_txs) ∧
      no_shared_input t.m_complete_txs ∧
      ∀ k b, t.m_blocks k = some b → no_shared_input b.m_transactions)
    fuel (fun t o r t1 => apply_ok_no_shared_input fuel t o r t1) ops s rs s2 hP hrun
  refine ⟨hP2.2.1, hP2.2.2, ?_⟩
  intro h s3 hmk b hb
  have hap : s2.apply fuel .make_block = .ok (.block_made h, s3) := by
    unfold atomizer.apply
    rw [hmk]
  exact (apply_ok_no_shared_input fuel s2 _ _ s3 hP2 hap).2.2 h b hb

/-- C25, on a concrete run: depth 2; of three submissions the second shares the
input 7 with the first and is rejected, so the queue holds the first and the
third. -/
theorem no_double_spend_in_block_witness :
    no_shared_input (atomizer.state_after 4 (atomizer.construct 10 2)
        [.insert_complete 10 ⟨100, [7, 8]⟩, .insert_complete 10 ⟨101, [7]⟩,
          .insert_complete 10 ⟨102, [9]⟩]).m_complete_txs ∧
      (∀ k b, (atomizer.state_after 4 (atomizer.construct 10 2)
          [.insert_complete 10 ⟨100, [7, 8]⟩, .insert_complete 10 ⟨101, [7]⟩,
            .insert_complete 10 ⟨102, [9]⟩]).get_block k = some b →
        no_shared_input b.m_transactions) ∧
      (∀ h s3, (atomizer.state_after 4 (atomizer.construct 10 2)
          [.insert_complete 10 ⟨100, [7, 8]⟩, .insert_complete 10 ⟨101, [7]⟩,
            .insert_complete 10 ⟨102, [9]⟩]).make_block = .ok (h, s3) →
        ∀ b, s3.get_block h = some b → no_shared_input b.m_transactions) :=
  no_double_spend_in_block 4 10 2 (atomizer.construct 10 2)
    [.insert_complete 10 ⟨100, [7, 8]⟩, .insert_complete 10 ⟨101, [7]⟩,
      .insert_complete 10 ⟨102, [9]⟩]
    [.inserted none, .inserted (some ⟨101, .tx_error_inputs_spent {7}⟩), .inserted none]
    _ rfl rfl


/-! ## The keys of the block store -/

/-- One returning call that does not wrap the height keeps every stored block
under the key that is its height, above the bound and at most the height, and
moves the height by one exactly when it is `make_block`. -/
theorem apply_ok_blocks_bounded (lo fuel : Nat) (s : atomizer) (o : op) (r : op_result)
    (s1 : atomizer)
    (hP : ∀ k b, s.m_blocks k = some b → b.m_height = k ∧ lo < k ∧ k ≤ s.m_best_height)
    (hlo : lo ≤ s.m_best_height)
    (hnw : s.m_best_height + (if o = op.make_block then 1 else 0) < u64_mod)
    (h : s.apply fuel o = .ok (r, s1)) :
    (∀ k b, s1.m_blocks k = some b → b.m_height = k ∧ lo < k ∧ k ≤ s1.m_best_height) ∧
      s1.m_best_height = s.m_best_height + (if o = op.make_block then 1 else 0) := by
  cases o with
  | insert_complete oa tx =>
    rw [if_neg (by intro hc; cases hc)]
    unfold atomizer.apply at h
    simp only at h
    split at h
    · cases h
    · rename_i err s1a hins
      injection h with h
      injection h with _ hs
      subst hs
      rcases insert_complete_ok_cases fuel s oa tx _ _ hins with
        ⟨_, hs⟩ | ⟨E, _, _, hs⟩ | ⟨_, slot0, _, hs⟩
      · subst hs
        exact ⟨hP, rfl⟩
      · subst hs
        exact ⟨hP, rfl⟩
      · subst hs
        exact ⟨hP, rfl⟩
  | make_block =>
    rw [if_pos rfl] at hnw ⊢
    unfold atomizer.apply at h
    simp only at h
    split at h
    · cases h
    · rename_i ht s1a hmk
      injection h with h
      injection h with _ hs
      subst hs
      obtain ⟨_, hht, hblocks, _, hbest, _⟩ := make_block_ok_cases s ht s1a hmk
      rw [Nat.mod_eq_of_lt hnw] at hht
      refine ⟨?_, by rw [hbest, hht]⟩
      intro k b hk
      rw [hblocks] at hk
      unfold unordered_map_insert at hk
      rw [hbest]
      by_cases hkh : k = ht
      · rw [if_pos hkh] at hk
        cases hold : s.m_blocks ht with
        | none =>
          rw [hold] at hk
          injection hk with hk
          subst hk
          exact ⟨hkh.symm, by omega, by omega⟩
        | some old =>
          have := (hP ht old hold).2.2
          omega
      · rw [if_neg hkh] at hk
        obtain ⟨e1, e2, e3⟩ := hP k b hk
        exact ⟨e1, e2, by omega⟩
  | prune height =>
    rw [if_neg (by intro hc; cases hc)]
    unfold atomizer.apply at h
    injection h with h
    injection h with _ hs
    subst hs
    refine ⟨?_, rfl⟩
    intro k b hk
    unfold atomizer.prune at hk
    simp only at hk
    cases hold : s.m_blocks k with
    | none => rw [hold] at hk; cases hk
    | some old =>
      rw [hold] at hk
      simp only at hk
      split at hk
      · cases hk
      · injection hk with hk
        subst hk
        exact hP k old hold

/-- A returning run whose `make_block` calls do not wrap the height keeps every
stored block under the key that is its height, above the bound and at most the
height; the height grows by the number of `make_block` calls. -/
theorem run_blocks_bounded (lo fuel : Nat) (ops : List op) :
    ∀ (s : atomizer) (rs : List op_result) (s2 : atomizer),
      (∀ k b, s.m_blocks k = some b → b.m_height = k ∧ lo < k ∧ k ≤ s.m_best_height) →
      lo ≤ s.m_best_height → s.m_best_height + count_make_block ops < u64_mod →
      atomizer.run fuel s ops = .ok (rs, s2) →
      (∀ k b, s2.m_blocks k = some b → b.m_height = k ∧ lo < k ∧ k ≤ s2.m_best_height) ∧
        s2.m_best_height = s.m_best_height + count_make_block ops := by
  induction ops with
  | nil =>
    intro s rs s2 hP _ _ h
    unfold atomizer.run at h
    injection h with h
    injection h with _ hs
    subst hs
    exact ⟨hP, rfl⟩
  | cons o ops ih =>
    intro s rs s2 hP hlo hnw h
    rw [count_make_block_cons] at hnw ⊢
    unfold atomizer.run at h
    split at h
    · cases h
    · rename_i r s1 hap
      split at h
      · cases h
      · rename_i rs1 s2a hrun
        injection h with h
        injection h with _ hs
        subst hs
        obtain ⟨hP1, hh1⟩ := apply_ok_blocks_bounded lo fuel s o r s1 hP hlo (by omega) hap
        obtain ⟨hP2, hh2⟩ := ih s1 rs1 _ hP1 (by omega) (by omega) hrun
        exact ⟨hP2, by omega⟩

/-- C27: in every state reached from an instance constructed with height h0 by
`insert_complete`, `make_block` and `prune` calls that return, without the
height wrapping (h0 plus the number of `make_block` calls is below 2^64), every
block stored under a key k has the height k, with h0 < k and k at most the
current height; so nothing is stored under the current height plus one, and a
further `make_block` that does not wrap stores the block it assembled. -/
theorem block_store_key_invariant (fuel best_height stxo_cache_depth : Nat) (s : atomizer)
    (ops : List op) (rs : List op_result) (s2 : atomizer)
    (hc : atomizer.construct_tuned best_height stxo_cache_depth = .ok s)
    (hnw : best_height + count_make_block ops < u64_mod)
    (hrun : atomizer.run fuel s ops = .ok (rs, s2)) :
    (∀ k b, s2.get_block k = some b →
        b.m_height = k ∧ best_height < k ∧ k ≤ s2.height) ∧
      s2.get_block (s2.height + 1) = none ∧
      (∀ h s3, s2.height + 1 < u64_mod → s2.make_block = .ok (h, s3) →
        h = s2.height + 1 ∧ s3.get_block h = some ⟨h, s2.m_complete_txs⟩) := by
  obtain ⟨hs, _⟩ := construct_tuned_ok best_height stxo_cache_depth s hc
  subst hs
  have hP : ∀ k b, (atomizer.construct best_height stxo_cache_depth).m_blocks k = some b →
      b.m_height = k ∧ best_height < k ∧
        k ≤ (atomizer.construct best_height stxo_cache_depth).m_best_height := by
    intro k b hk
    cases hk
  obtain ⟨hP2, _⟩ := run_blocks_bounded best_height fuel ops _ rs s2 hP (Nat.le_refl _) hnw hrun
  have hfree : s2.m_blocks (s2.m_best_height + 1) = none := by
    cases hold : s2.m_blocks (s2.m_best_height + 1) with
    | none => rfl
    | some old =>
      have := (hP2 _ old hold).2.2
      omega
  refine ⟨hP2, hfree, ?_⟩
  intro h s3 hlt hmk
  obtain ⟨_, hht, hblocks, _, _, _⟩ := make_block_ok_cases s2 h s3 hmk
  have hlt1 : s2.m_best_height + 1 < u64_mod := hlt
  rw [Nat.mod_eq_of_lt hlt1] at hht
  refine ⟨hht, ?_⟩
  show s3.m_blocks h = some ⟨h, s2.m_complete_txs⟩
  rw [hblocks]
  unfold unordered_map_insert
  rw [if_pos rfl, hht, hfree]

/-- C27, on a concrete run: height 10, depth 2, two blocks and a prune. -/
theorem block_store_key_invariant_witness :
    (∀ k b, (atomizer.state_after 4 (atomizer.construct 10 2)
          [.insert_complete 10 ⟨100, [7]⟩, .make_block, .make_block, .prune 12,
            .insert_complete 12 ⟨101, [8]⟩]).get_block k = some b →
        b.m_height = k ∧ 10 < k ∧
          k ≤ (atomizer.state_after 4 (atomizer.construct 10 2)
            [.insert_complete 10 ⟨100, [7]⟩, .make_block, .make_block, .prune 12,
              .insert_complete 12 ⟨101, [8]⟩]).height) ∧
      (atomizer.state_after 4 (atomizer.construct 10 2)
          [.insert_complete 10 ⟨100, [7]⟩, .make_block, .make_block, .prune 12,
            .insert_complete 12 ⟨101, [8]⟩]).get_block
        ((atomizer.state_after 4 (atomizer.construct 10 2)
          [.insert_complete 10 ⟨100, [7]⟩, .make_block, .make_block, .prune 12,
            .insert_complete 12 ⟨101, [8]⟩]).height + 1) = none ∧
      (∀ h s3,
        (atomizer.state_after 4 (atomizer.construct 10 2)
          [.insert_complete 10 ⟨100, [7]⟩, .make_block, .make_block, .prune 12,
            .insert_complete 12 ⟨101, [8]⟩]).height + 1 < u64_mod →
        (atomizer.state_after 4 (atomizer.construct 10 2)
          [.insert_complete 10 ⟨100, [7]⟩, .make_block, .make_block, .prune 12,
            .insert_complete 12 ⟨101, [8]⟩]).make_block = .ok (h, s3) →
        h = (atomizer.state_after 4 (atomizer.construct 10 2)
          [.insert_complete 10 ⟨100, [7]⟩, .make_block, .make_block, .prune 12,
            .insert_complete 12 ⟨101, [8]⟩]).height + 1 ∧
          s3.get_block h = some ⟨h, (atomizer.state_after 4 (atomizer.construct 10 2)
            [.insert_complete 10 ⟨100, [7]⟩, .make_block, .make_block, .prune 12,
              .insert_complete 12 ⟨101, [8]⟩]).m_complete_txs⟩) :=
  block_store_key_invariant 4 10 2 (atomizer.construct 10 2)
    [.insert_complete 10 ⟨100, [7]⟩, .make_block, .make_block, .prune 12,
      .insert_complete 12 ⟨101, [8]⟩]
    [.inserted none, .block_made 11, .block_made 12, .pruned, .inserted none]
    _ rfl (by decide) rfl


/-! ## The raft log store: bounded retention -/

/-- A clone of an entry has the fields of the entry. -/
theorem make_clone_eq (entry : raft.log_entry) : raft.make_clone entry = entry := by
  cases entry
  rfl

/-- The loop of `compact`, entered at an index at most one past the last one to
erase and with fuel for the rounds left, returns the map without the entries
from the entry index to the last index. -/
theorem compact_loop_ok (last_log_index : Nat) (hlast : last_log_index + 1 < u64_mod)
    (fuel : Nat) :
    ∀ (ii : Nat) (db : Nat → Option raft.log_entry), ii ≤ last_log_index + 1 →
      last_log_index + 2 ≤ fuel + ii →
      raft.compact_loop last_log_index fuel ii db =
        .ok (fun k => if ii ≤ k ∧ k ≤ last_log_index then none else db k) := by
  induction fuel with
  | zero =>
    intro ii db h1 h2
    omega
  | succ fuel ih =>
    intro ii db h1 h2
    unfold raft.compact_loop
    by_cases hle : ii ≤ last_log_index
    · rw [if_pos hle]
      have hmod : (ii + 1) % u64_mod = ii + 1 := Nat.mod_eq_of_lt (by omega)
      rw [hmod, ih (ii + 1) _ (by omega) (by omega)]
      congr 1
      funext k
      by_cases hk : ii + 1 ≤ k ∧ k ≤ last_log_index
      · rw [if_pos hk, if_pos ⟨by omega, hk.2⟩]
      · rw [if_neg hk]
        by_cases hk2 : ii ≤ k ∧ k ≤ last_log_index
        · rw [if_pos hk2]
          have hki : k = ii := by omega
          subst hki
          cases hdb : db k with
          | none => exact hdb
          | some e => simp [raft.map_erase]
        · rw [if_neg hk2]
          have hki : k ≠ ii := by omega
          cases hdb : db ii with
          | none => rfl
          | some e => simp [raft.map_erase, hki]
    · rw [if_neg hle]
      congr 1
      funext k
      rw [if_neg (by omega)]

/-- The method `append` when the next index does not wrap: the entry goes under
the next index, the next index moves by one and is what the call returns less
one, and past the limit the loop of `compact` runs up to the next index less
the limit. -/
theorem append_eq (fuel : Nat) (s : raft.log_store) (entry : raft.log_entry)
    (hnext : s.m_next_idx + 1 < u64_mod) :
    s.append fuel entry =
      if s.m_next_idx + 1 > raft.log_limit then
        match raft.compact_loop (s.m_next_idx - raft.log_limit) fuel s.m_start_idx
            (raft.map_assign s.m_db s.m_next_idx entry) with
        | .error e => .error e
        | .ok db =>
          .ok (s.m_next_idx,
            { m_db := db, m_next_idx := s.m_next_idx + 1, m_start_idx := s.m_start_idx })
      else
        .ok (s.m_next_idx,
          { m_db := raft.map_assign s.m_db s.m_next_idx entry
            m_next_idx := s.m_next_idx + 1
            m_start_idx := s.m_start_idx }) := by
  have hmod : (s.m_next_idx + 1) % u64_mod = s.m_next_idx + 1 := Nat.mod_eq_of_lt hnext
  have hret : (s.m_next_idx + 1 + u64_mod - 1) % u64_mod = s.m_next_idx := by
    simp only [u64_mod] at *
    omega
  unfold raft.log_store.append raft.log_store.compact
  simp only [make_clone_eq, hmod, hret]
  by_cases hlim : s.m_next_idx + 1 > raft.log_limit
  · have hsub : (s.m_next_idx + 1 + u64_mod - 1 - raft.log_limit) % u64_mod =
        s.m_next_idx - raft.log_limit := by
      have hlim1 : s.m_next_idx + 1 > 10000 := hlim
      have hnext1 : s.m_next_idx + 1 < 2 ^ 64 := hnext
      show (s.m_next_idx + 1 + 2 ^ 64 - 1 - 10000) % 2 ^ 64 = s.m_next_idx - 10000
      omega
    rw [if_pos hlim, if_pos hlim, hsub]
    cases raft.compact_loop (s.m_next_idx - raft.log_limit) fuel s.m_start_idx
        (raft.map_assign s.m_db s.m_next_idx entry) with
    | error e => rfl
    | ok db => simp only [hret]
  · simp only [hlim, if_false]


/-- One `append` on a store that holds what the appends made so far left: the
call returns the next index and leaves what one more append leaves. -/
theorem append_step (fuel : Nat) (dummy : raft.log_entry) (s : raft.log_store)
    (done : List raft.log_entry) (entry : raft.log_entry)
    (hnext : s.m_next_idx = done.length + 1) (hstart : s.m_start_idx = 1)
    (hdb : ∀ i, s.m_db i =
      if i = 0 then some dummy
      else if done.length ≤ i + 9999 ∧ i ≤ done.length then done[i - 1]? else none)
    (hn : done.length + 2 < u64_mod) (hfuel : done.length + 1 ≤ fuel) :
    ∃ s1, s.append fuel entry = .ok (done.length + 1, s1) ∧
      s1.m_next_idx = (done ++ [entry]).length + 1 ∧ s1.m_start_idx = 1 ∧
      ∀ i, s1.m_db i =
        if i = 0 then some dummy
        else if (done ++ [entry]).length ≤ i + 9999 ∧ i ≤ (done ++ [entry]).length then
          (done ++ [entry])[i - 1]?
        else none := by
  have hlen : (done ++ [entry]).length = done.length + 1 := by simp
  have hl : raft.log_limit = 10000 := rfl
  rw [hlen]
  obtain ⟨db, next_idx, start_idx⟩ := s
  simp only at hnext hstart hdb
  subst hnext hstart
  have hpoint : ∀ i, raft.map_assign db (done.length + 1) entry i =
      if i = 0 then some dummy
      else if done.length ≤ i + 9999 ∧ i ≤ done.length + 1 then (done ++ [entry])[i - 1]?
      else none := by
    intro i
    unfold raft.map_assign
    rw [hdb i]
    by_cases hi : i = done.length + 1
    · have e : i - 1 = done.length := by omega
      rw [e, List.getElem?_concat_length]
      split_ifs <;> first | rfl | omega
    · by_cases hile : 1 ≤ i ∧ i ≤ done.length
      · have hlt : i - 1 < done.length := by omega
        rw [List.getElem?_append_left hlt]
        split_ifs <;> first | rfl | omega
      · split_ifs <;> first | rfl | omega
  rw [append_eq fuel _ entry (by show done.length + 1 + 1 < u64_mod; omega)]
  simp only
  by_cases hlim : done.length + 1 + 1 > raft.log_limit
  · rw [if_pos hlim]
    rw [compact_loop_ok (done.length + 1 - raft.log_limit) (by omega) fuel 1 _ (by omega)
      (by omega)]
    refine ⟨_, rfl, rfl, rfl, ?_⟩
    intro i
    simp only
    rw [hpoint i, hl]
    rw [hl] at hlim
    split_ifs <;> first | rfl | omega
  · rw [if_neg hlim]
    refine ⟨_, rfl, rfl, rfl, ?_⟩
    intro i
    simp only
    rw [hpoint i]
    rw [hl] at hlim
    split_ifs <;> first | rfl | omega


/-- Consecutive appends on a store that holds what the appends made so far
left: the calls return the consecutive indices, and the store holds what all
the appends together leave. -/
theorem append_all_ok (fuel : Nat) (dummy : raft.log_entry) (es : List raft.log_entry) :
    ∀ (s : raft.log_store) (done : List raft.log_entry),
      s.m_next_idx = done.length + 1 → s.m_start_idx = 1 →
      (∀ i, s.m_db i =
        if i = 0 then some dummy
        else if done.length ≤ i + 9999 ∧ i ≤ done.length then done[i - 1]? else none) →
      done.length + es.length + 1 < u64_mod → done.length + es.length ≤ fuel →
      ∃ s2, s.append_all fuel es = .ok (List.range' (done.length + 1) es.length, s2) ∧
        s2.m_next_idx = (done ++ es).length + 1 ∧ s2.m_start_idx = 1 ∧
        ∀ i, s2.m_db i =
          if i = 0 then some dummy
          else if (done ++ es).length ≤ i + 9999 ∧ i ≤ (done ++ es).length then
            (done ++ es)[i - 1]?
          else none := by
  induction es with
  | nil =>
    intro s done h1 h2 h3 _ _
    refine ⟨s, rfl, ?_⟩
    rw [List.append_nil]
    exact ⟨h1, h2, h3⟩
  | cons e es ih =>
    intro s done h1 h2 h3 hn hfuel
    rw [List.length_cons] at hn hfuel
    obtain ⟨s1, hap, g1, g2, g3⟩ :=
      append_step fuel dummy s done e h1 h2 h3 (by omega) (by omega)
    have hlen : (done ++ [e]).length = done.length + 1 := by simp
    obtain ⟨s2, hall, k1, k2, k3⟩ := ih s1 (done ++ [e]) g1 g2 g3
      (by rw [hlen]; omega) (by rw [hlen]; omega)
    have happ : done ++ [e] ++ es = done ++ e :: es := by simp
    rw [happ] at k1 k3
    refine ⟨s2, ?_, k1, k2, k3⟩
    unfold raft.log_store.append_all
    rw [hap]
    simp only
    rw [hall, hlen, List.length_cons, List.range'_succ]

/-- C30: after the constructor, `load` and n consecutive `append` calls (n + 1
a `uint64_t`, fuel for the loop of `compact`), every call has returned, the k-th
with the index k; `next_slot()` is n + 1 and `start_index()` is 1; index 0 holds
the entry of term 0 the constructor made; an index from 1 on holds an entry
exactly when it lies between max(1, n - 9999) and n, and then it holds the entry
that append was given; and `entry_at` of an index that holds nothing returns the
entry of index 0, of term 0. -/
theorem log_store_bounded_retention (fuel : Nat) (buf : List Nat)
    (val_type next_idx start_idx : Nat) (db_dir : List Char) (es : List raft.log_entry)
    (hn : es.length + 1 < u64_mod) (hfuel : es.length ≤ fuel) :
    ∃ s, ((raft.log_store.construct buf val_type next_idx start_idx).load db_dir).2.append_all
          fuel es = .ok (List.range' 1 es.length, s) ∧
      s.next_slot = es.length + 1 ∧ s.start_index = 1 ∧
      s.m_db 0 = some ⟨0, buf, val_type⟩ ∧
      (∀ i, 1 ≤ i → (s.m_db i ≠ none ↔ max 1 (es.length - 9999) ≤ i ∧ i ≤ es.length)) ∧
      (∀ i, max 1 (es.length - 9999) ≤ i → i ≤ es.length → s.m_db i = es[i - 1]?) ∧
      (∀ i, ¬ (max 1 (es.length - 9999) ≤ i ∧ i ≤ es.length) →
        s.entry_at i = .ok ⟨0, buf, val_type⟩ ∧ s.term_at i = .ok 0) := by
  have h0 : ∀ i, ((raft.log_store.construct buf val_type next_idx start_idx).load db_dir).2.m_db i =
      if i = 0 then some ⟨0, buf, val_type⟩
      else if ([] : List raft.log_entry).length ≤ i + 9999 ∧
          i ≤ ([] : List raft.log_entry).length then
        ([] : List raft.log_entry)[i - 1]?
      else none := by
    intro i
    show raft.map_assign (fun _ => none) 0 ⟨0, buf, val_type⟩ i = _
    unfold raft.map_assign
    rw [List.length_nil]
    split_ifs <;> rfl
  obtain ⟨s, hall, k1, k2, k3⟩ := append_all_ok fuel ⟨0, buf, val_type⟩ es _ [] rfl rfl h0
    (by rw [List.length_nil]; omega) (by rw [List.length_nil]; omega)
  rw [List.nil_append] at k1 k3
  rw [List.length_nil] at hall
  have hsome : ∀ i, 1 ≤ i → i ≤ es.length → es[i - 1]? ≠ none := by
    intro i h1 h2 hnone
    rw [List.getElem?_eq_none_iff] at hnone
    omega
  have hstored : ∀ i, max 1 (es.length - 9999) ≤ i → i ≤ es.length → s.m_db i = es[i - 1]? := by
    intro i h1 h2
    rw [k3 i, if_neg (by omega), if_pos ⟨by omega, h2⟩]
  have hfree : ∀ i, 1 ≤ i → ¬ (max 1 (es.length - 9999) ≤ i ∧ i ≤ es.length) →
      s.m_db i = none := by
    intro i h1 h2
    rw [k3 i, if_neg (by omega), if_neg (by omega)]
  have hzero : s.m_db 0 = some ⟨0, buf, val_type⟩ := by
    rw [k3 0, if_pos rfl]
  refine ⟨s, hall, k1, k2, hzero, ?_, hstored, ?_⟩
  · intro i h1
    constructor
    · intro hne
      by_contra hout
      exact hne (hfree i h1 hout)
    · intro hin
      rw [hstored i hin.1 hin.2]
      exact hsome i h1 hin.2
  · intro i hout
    have hentry : s.entry_at i = .ok ⟨0, buf, val_type⟩ := by
      unfold raft.log_store.entry_at
      by_cases hi : i = 0
      · subst hi
        simp only [hzero, make_clone_eq]
      · simp only [hfree i (by omega) hout, hzero, make_clone_eq]
    refine ⟨hentry, ?_⟩
    unfold raft.log_store.term_at
    rw [hentry]

/-- C30, on a concrete store: two appends after the constructor and `load`. -/
theorem log_store_bounded_retention_witness :
    ∃ s, ((raft.log_store.construct [0, 0, 0, 0, 0, 0, 0, 0] 1 0 0).load []).2.append_all
          2 [⟨3, [1], 1⟩, ⟨4, [2], 1⟩] =
          .ok (List.range' 1 ([⟨3, [1], 1⟩, ⟨4, [2], 1⟩] : List raft.log_entry).length, s) ∧
      s.next_slot = ([⟨3, [1], 1⟩, ⟨4, [2], 1⟩] : List raft.log_entry).length + 1 ∧
      s.start_index = 1 ∧
      s.m_db 0 = some ⟨0, [0, 0, 0, 0, 0, 0, 0, 0], 1⟩ ∧
      (∀ i, 1 ≤ i → (s.m_db i ≠ none ↔
        max 1 (([⟨3, [1], 1⟩, ⟨4, [2], 1⟩] : List raft.log_entry).length - 9999) ≤ i ∧
          i ≤ ([⟨3, [1], 1⟩, ⟨4, [2], 1⟩] : List raft.log_entry).length)) ∧
      (∀ i, max 1 (([⟨3, [1], 1⟩, ⟨4, [2], 1⟩] : List raft.log_entry).length - 9999) ≤ i →
        i ≤ ([⟨3, [1], 1⟩, ⟨4, [2], 1⟩] : List raft.log_entry).length →
        s.m_db i = ([⟨3, [1], 1⟩, ⟨4, [2], 1⟩] : List raft.log_entry)[i - 1]?) ∧
      (∀ i, ¬ (max 1 (([⟨3, [1], 1⟩, ⟨4, [2], 1⟩] : List raft.log_entry).length - 9999) ≤ i ∧
          i ≤ ([⟨3, [1], 1⟩, ⟨4, [2], 1⟩] : List raft.log_entry).length) →
        s.entry_at i = .ok ⟨0, [0, 0, 0, 0, 0, 0, 0, 0], 1⟩ ∧ s.term_at i = .ok 0) :=
  log_store_bounded_retention 2 [0, 0, 0, 0, 0, 0, 0, 0] 1 0 0 []
    [⟨3, [1], 1⟩, ⟨4, [2], 1⟩] (by decide) (by decide)

end cbdc
